import Mathlib

/-!
# parquet-go: arrow schema conversion and the raw LZ4 codec

A shallow embedding of `schema/arrow.go` and `compress/lz4_raw.go`.

* Go strings are Lean `String`s, Go slices are `List`s, a possibly-nil slice or
  pointer is an `Option`, and a Go `error` is represented by its message.
* A Go function returning `(T, error)` returns a pair of `Option`s, so that
  "the list is nil" and "the error is nil" can both be stated.
* A run that ends in a Go panic is the outcome `GoResult.panicked`.
-/

namespace ParquetGo

/-! ## Imported declarations: `github.com/apache/arrow/go/v12/arrow` -/

/-- Time units of arrow (`arrow.TimeUnit`): `Second`, `Millisecond`,
`Microsecond`, `Nanosecond`. -/
inductive TimeUnit where
  | Second
  | Millisecond
  | Microsecond
  | Nanosecond
  deriving DecidableEq, Repr

/-- Textual form of a time unit (`TimeUnit.String`). -/
def TimeUnit.String : TimeUnit → String
  | .Second => "s"
  | .Millisecond => "ms"
  | .Microsecond => "us"
  | .Nanosecond => "ns"

/-- Data types of arrow (`arrow.DataType`), one constructor for each type
identifier of `arrow.Type`.  Only what `arrow.go` observes is kept as an
argument: the unit of the time types, and the unit and time zone of a
timestamp. -/
inductive DataType where
  | NULL
  | BOOL
  | INT8
  | INT16
  | INT32
  | INT64
  | UINT8
  | UINT16
  | UINT32
  | UINT64
  | FLOAT16
  | FLOAT32
  | FLOAT64
  | STRING
  | BINARY
  | LARGE_STRING
  | LARGE_BINARY
  | FIXED_SIZE_BINARY
  | DATE32
  | DATE64
  | TIME32 (Unit : TimeUnit)
  | TIME64 (Unit : TimeUnit)
  | TIMESTAMP (Unit : TimeUnit) (TimeZone : String)
  | DURATION (Unit : TimeUnit)
  | INTERVAL_MONTHS
  | INTERVAL_DAY_TIME
  | INTERVAL_MONTH_DAY_NANO
  | DECIMAL128
  | DECIMAL256
  | LIST
  | LARGE_LIST
  | FIXED_SIZE_LIST
  | STRUCT
  | MAP
  | SPARSE_UNION
  | DENSE_UNION
  | DICTIONARY
  | RUN_END_ENCODED
  | EXTENSION
  deriving DecidableEq, Repr

/-- Type name of an arrow data type (`DataType.Name`). -/
def DataType.Name : DataType → String
  | .NULL => "null"
  | .BOOL => "bool"
  | .INT8 => "int8"
  | .INT16 => "int16"
  | .INT32 => "int32"
  | .INT64 => "int64"
  | .UINT8 => "uint8"
  | .UINT16 => "uint16"
  | .UINT32 => "uint32"
  | .UINT64 => "uint64"
  | .FLOAT16 => "float16"
  | .FLOAT32 => "float32"
  | .FLOAT64 => "float64"
  | .STRING => "utf8"
  | .BINARY => "binary"
  | .LARGE_STRING => "large_utf8"
  | .LARGE_BINARY => "large_binary"
  | .FIXED_SIZE_BINARY => "fixed_size_binary"
  | .DATE32 => "date32"
  | .DATE64 => "date64"
  | .TIME32 _ => "time32"
  | .TIME64 _ => "time64"
  | .TIMESTAMP _ _ => "timestamp"
  | .DURATION _ => "duration"
  | .INTERVAL_MONTHS => "month_interval"
  | .INTERVAL_DAY_TIME => "day_time_interval"
  | .INTERVAL_MONTH_DAY_NANO => "month_day_nano_interval"
  | .DECIMAL128 => "decimal"
  | .DECIMAL256 => "decimal256"
  | .LIST => "list"
  | .LARGE_LIST => "large_list"
  | .FIXED_SIZE_LIST => "fixed_size_list"
  | .STRUCT => "struct"
  | .MAP => "map"
  | .SPARSE_UNION => "sparse_union"
  | .DENSE_UNION => "dense_union"
  | .DICTIONARY => "dictionary"
  | .RUN_END_ENCODED => "run_end_encoded"
  | .EXTENSION => "extension"

/-- Textual form of a timestamp type (`TimestampType.String`): the unit in
brackets, followed by the time zone when there is one. -/
def TimestampType.String (Unit : TimeUnit) (TimeZone : String) : String :=
  if TimeZone.length = 0 then "timestamp[" ++ Unit.String ++ "]"
  else "timestamp[" ++ Unit.String ++ ", tz=" ++ TimeZone ++ "]"

/-- A field of an arrow schema (`arrow.Field`); `Type_` is its field `Type`. -/
structure Field where
  Name : String
  Type_ : DataType
  Nullable : Bool
  deriving DecidableEq, Repr

/-- An arrow schema (`arrow.Schema`), reduced to its ordered fields. -/
structure Schema where
  Fields : List Field
  deriving DecidableEq, Repr

/-! ## Imported declarations: package `parquet` -/

/-- Modelled from the spec: the physical types of the container format
(`parquet.Type`), declared in the package `parquet`. -/
inductive ParquetType where
  | BOOLEAN
  | INT32
  | INT64
  | INT96
  | FLOAT
  | DOUBLE
  | BYTE_ARRAY
  | FIXED_LEN_BYTE_ARRAY
  deriving DecidableEq, Repr

/-- Modelled from the spec: the textual name of a physical type
(`parquet.Type.String`), declared in the package `parquet`. -/
def ParquetType.String : ParquetType → String
  | .BOOLEAN => "BOOLEAN"
  | .INT32 => "INT32"
  | .INT64 => "INT64"
  | .INT96 => "INT96"
  | .FLOAT => "FLOAT"
  | .DOUBLE => "DOUBLE"
  | .BYTE_ARRAY => "BYTE_ARRAY"
  | .FIXED_LEN_BYTE_ARRAY => "FIXED_LEN_BYTE_ARRAY"

/-- Modelled from the spec: the logical/converted types of the container format
(`parquet.ConvertedType`), declared in the package `parquet`. -/
inductive ConvertedType where
  | UTF8
  | MAP
  | MAP_KEY_VALUE
  | LIST
  | ENUM
  | DECIMAL
  | DATE
  | TIME_MILLIS
  | TIME_MICROS
  | TIMESTAMP_MILLIS
  | TIMESTAMP_MICROS
  | UINT_8
  | UINT_16
  | UINT_32
  | UINT_64
  | INT_8
  | INT_16
  | INT_32
  | INT_64
  | JSON
  | BSON
  | INTERVAL
  deriving DecidableEq, Repr

/-- Modelled from the spec: the textual name of a converted type
(`parquet.ConvertedType.String`), declared in the package `parquet`. -/
def ConvertedType.String : ConvertedType → String
  | .UTF8 => "UTF8"
  | .MAP => "MAP"
  | .MAP_KEY_VALUE => "MAP_KEY_VALUE"
  | .LIST => "LIST"
  | .ENUM => "ENUM"
  | .DECIMAL => "DECIMAL"
  | .DATE => "DATE"
  | .TIME_MILLIS => "TIME_MILLIS"
  | .TIME_MICROS => "TIME_MICROS"
  | .TIMESTAMP_MILLIS => "TIMESTAMP_MILLIS"
  | .TIMESTAMP_MICROS => "TIMESTAMP_MICROS"
  | .UINT_8 => "UINT_8"
  | .UINT_16 => "UINT_16"
  | .UINT_32 => "UINT_32"
  | .UINT_64 => "UINT_64"
  | .INT_8 => "INT_8"
  | .INT_16 => "INT_16"
  | .INT_32 => "INT_32"
  | .INT_64 => "INT_64"
  | .JSON => "JSON"
  | .BSON => "BSON"
  | .INTERVAL => "INTERVAL"

/-- Modelled from the spec: the repetition types of the container format
(`parquet.FieldRepetitionType`), declared in the package `parquet`. -/
inductive FieldRepetitionType where
  | REQUIRED
  | OPTIONAL
  | REPEATED
  deriving DecidableEq, Repr

/-- Modelled from the spec: the textual name of a repetition type
(`parquet.FieldRepetitionType.String`), declared in the package `parquet`. -/
def FieldRepetitionType.String : FieldRepetitionType → String
  | .REQUIRED => "REQUIRED"
  | .OPTIONAL => "OPTIONAL"
  | .REPEATED => "REPEATED"

/-! ## `schema/arrow.go` -/

/-- Outcome of running a Go function: it returns a value or it panics. -/
inductive GoResult (α : Type) where
  | returned (a : α)
  | panicked
  deriving DecidableEq, Repr

/-- The format `convertedMetaDataTemplate`, applied by `fmt.Sprintf` to a name
and the textual names of a physical, a converted and a repetition type. -/
def convertedMetaDataTemplate (name : String) (t : ParquetType) (c : ConvertedType)
    (r : FieldRepetitionType) : String :=
  "name=" ++ name ++ ", type=" ++ t.String ++ ", convertedtype=" ++ c.String ++
    ", repetitiontype=" ++ r.String

/-- The format `primitiveMetaDataTemplate`, applied by `fmt.Sprintf` to a name
and the textual names of a physical and a repetition type. -/
def primitiveMetaDataTemplate (name : String) (t : ParquetType)
    (r : FieldRepetitionType) : String :=
  "name=" ++ name ++ ", type=" ++ t.String ++ ", repetitiontype=" ++ r.String

/-- The constant `rootNodeName`. -/
def rootNodeName : String := "Parquet45go45root"

/-- What one pass through the body of the `for` loop of
`ConvertArrowToParquetSchema` does: it assigns `metaData[k]`, or it returns
`nil` and an error, or the type assertion panics. -/
inductive FieldStep where
  | assign (s : String)
  | fail (msg : String)
  | panic
  deriving DecidableEq, Repr

/-- The body of the `for` loop of `ConvertArrowToParquetSchema` for the field
`v`: the repetition type, then the `switch` on `v.Type.Name()`, whose cases are
tried from top to bottom. -/
def fieldStep (v : Field) : FieldStep :=
  let repetitionType :=
    if v.Nullable then FieldRepetitionType.OPTIONAL else FieldRepetitionType.REQUIRED
  let fieldType := v.Type_
  if fieldType.Name = DataType.INT8.Name then
    .assign (convertedMetaDataTemplate v.Name .INT32 .INT_8 repetitionType)
  else if fieldType.Name = DataType.INT16.Name then
    .assign (convertedMetaDataTemplate v.Name .INT32 .INT_16 repetitionType)
  else if fieldType.Name = DataType.INT32.Name then
    .assign (primitiveMetaDataTemplate v.Name .INT32 repetitionType)
  else if fieldType.Name = DataType.INT64.Name then
    .assign (primitiveMetaDataTemplate v.Name .INT64 repetitionType)
  else if fieldType.Name = DataType.UINT8.Name then
    .assign (convertedMetaDataTemplate v.Name .INT32 .UINT_8 repetitionType)
  else if fieldType.Name = DataType.UINT16.Name then
    .assign (convertedMetaDataTemplate v.Name .INT32 .UINT_16 repetitionType)
  else if fieldType.Name = DataType.UINT32.Name then
    .assign (convertedMetaDataTemplate v.Name .INT32 .UINT_32 repetitionType)
  else if fieldType.Name = DataType.UINT64.Name then
    .assign (convertedMetaDataTemplate v.Name .INT64 .UINT_64 repetitionType)
  else if fieldType.Name = DataType.FLOAT32.Name then
    .assign (primitiveMetaDataTemplate v.Name .FLOAT repetitionType)
  else if fieldType.Name = DataType.FLOAT64.Name then
    .assign (primitiveMetaDataTemplate v.Name .DOUBLE repetitionType)
  else if fieldType.Name = DataType.DATE32.Name ∨ fieldType.Name = DataType.DATE64.Name then
    .assign (convertedMetaDataTemplate v.Name .INT32 .DATE repetitionType)
  else if fieldType.Name = DataType.DATE32.Name ∨ fieldType.Name = DataType.DATE64.Name then
    .assign (convertedMetaDataTemplate v.Name .INT32 .DATE repetitionType)
  else if fieldType.Name = DataType.BINARY.Name then
    .assign (primitiveMetaDataTemplate v.Name .BYTE_ARRAY repetitionType)
  else if fieldType.Name = DataType.STRING.Name then
    .assign (convertedMetaDataTemplate v.Name .BYTE_ARRAY .UTF8 repetitionType)
  else if fieldType.Name = DataType.BOOL.Name then
    .assign (primitiveMetaDataTemplate v.Name .BOOLEAN repetitionType)
  else if fieldType.Name = (DataType.TIME32 .Millisecond).Name then
    .assign (convertedMetaDataTemplate v.Name .INT32 .TIME_MILLIS repetitionType)
  else if fieldType.Name = (DataType.TIMESTAMP .Millisecond "UTC").Name then
    match fieldType with
    | .TIMESTAMP Unit TimeZone =>
      if Unit ≠ .Millisecond then
        .fail ("Unsupported arrow format: " ++ TimestampType.String Unit TimeZone)
      else
        .assign (convertedMetaDataTemplate v.Name .INT64 .TIMESTAMP_MILLIS repetitionType)
    | _ => .panic
  else
    .fail ("Unsupported arrow format: " ++ fieldType.Name)

/-- The `for` loop of `ConvertArrowToParquetSchema` over the fields that remain,
`k` being the index of the next one and `metaData` the slice filled so far. -/
def convertLoop : List Field → Nat → List String →
    GoResult (Option (List String) × Option String)
  | [], _, metaData => .returned (some metaData, none)
  | v :: rest, k, metaData =>
    match fieldStep v with
    | .assign s => convertLoop rest (k + 1) (metaData.set k s)
    | .fail msg => .returned (none, some msg)
    | .panic => .panicked

/-- The function `ConvertArrowToParquetSchema`: the metadata strings of the
fields of an arrow schema, or `nil` and an error. -/
def ConvertArrowToParquetSchema (schema : Schema) :
    GoResult (Option (List String) × Option String) :=
  let metaData := List.replicate schema.Fields.length ""
  convertLoop schema.Fields 0 metaData

/-! ### The schema handler -/

/-- Conversion of a Go `int` to `int32`: the low 32 bits, read as a signed
number. -/
def int32 (n : Int) : Int := (n + 2 ^ 31) % 2 ^ 32 - 2 ^ 31

/-- Modelled from the spec: the schema element of the container format
(`parquet.SchemaElement`, declared in the package `parquet`): a name, an
optional physical type, an optional logical/converted type, a repetition type
and an optional number of children. `Type_` is its field `Type`. -/
structure SchemaElement where
  Type_ : Option ParquetType
  RepetitionType : Option FieldRepetitionType
  Name : String
  NumChildren : Option Int
  ConvertedType : Option ConvertedType
  deriving DecidableEq, Repr

/-- Modelled from the spec: the constructor `parquet.NewSchemaElement`, declared
in the package `parquet`, gives an element on which nothing is set. -/
def NewSchemaElement : SchemaElement :=
  { Type_ := none, RepetitionType := none, Name := "", NumChildren := none,
    ConvertedType := none }

/-- Modelled from the spec: the parsed form of a metadata string (`common.Tag`,
declared in the package `common`): the name, the textual names of the physical
and of the converted type, and the repetition type. `Type_` is its field
`Type`. -/
structure Tag where
  InName : String
  ExName : String
  Type_ : String
  ConvertedType : String
  RepetitionType : FieldRepetitionType
  deriving DecidableEq, Repr

/-- Modelled from the spec: the constructor `common.NewTag`, declared in the
package `common`, gives a tag on which nothing is set. -/
def NewTag : Tag :=
  { InName := "", ExName := "", Type_ := "", ConvertedType := "",
    RepetitionType := .REQUIRED }

/-- Modelled from the spec: the schema handler (`SchemaHandler`, declared in
another file of the package `schema`), reduced to the schema-element list it is
built from and the list of tags. -/
structure SchemaHandler where
  SchemaElements : List SchemaElement
  Infos : List Tag
  deriving DecidableEq, Repr

/-- Modelled from the spec: `NewSchemaHandlerFromSchemaList`, declared in
another file of the package `schema`, takes ownership of the schema-element
list. -/
def NewSchemaHandlerFromSchemaList (schemaList : List SchemaElement) : SchemaHandler :=
  { SchemaElements := schemaList, Infos := [] }

/-- The `for` loop of `NewSchemaHandlerFromArrow` over the metadata strings that
remain. The helpers `common.StringToTag` and
`common.NewSchemaElementFromTagMap` are parameters. -/
def handlerLoop (StringToTag : String → Except String Tag)
    (NewSchemaElementFromTagMap : Tag → Except String SchemaElement) :
    List String → List SchemaElement → List Tag →
    GoResult (Option SchemaHandler × Option String)
  | [], schemaList, infos =>
    let res := NewSchemaHandlerFromSchemaList schemaList
    let res := { res with Infos := infos }
    .returned (some res, none)
  | field :: rest, schemaList, infos =>
    match StringToTag field with
    | .error err => .returned (none, some err)
    | .ok info =>
      let infos := infos ++ [info]
      match NewSchemaElementFromTagMap info with
      | .error err => .returned (none, some err)
      | .ok schema =>
        handlerLoop StringToTag NewSchemaElementFromTagMap rest (schemaList ++ [schema]) infos

/-- The function `NewSchemaHandlerFromArrow`. The helpers `common.StringToTag`
and `common.NewSchemaElementFromTagMap`, which are not part of this file, are
parameters. -/
def NewSchemaHandlerFromArrow (StringToTag : String → Except String Tag)
    (NewSchemaElementFromTagMap : Tag → Except String SchemaElement)
    (arrowSchema : Schema) : GoResult (Option SchemaHandler × Option String) :=
  let schemaList : List SchemaElement := []
  let infos : List Tag := []
  match ConvertArrowToParquetSchema arrowSchema with
  | .panicked => .panicked
  | .returned (fields, err) =>
    if err ≠ none then .returned (none, err)
    else
      let fields := fields.getD []
      let rootSchema := NewSchemaElement
      let rootSchema := { rootSchema with Name := rootNodeName }
      let rootNumChildren := int32 fields.length
      let rootSchema := { rootSchema with NumChildren := some rootNumChildren }
      let rt := FieldRepetitionType.REQUIRED
      let rootSchema := { rootSchema with RepetitionType := some rt }
      let schemaList := schemaList ++ [rootSchema]
      let rootInfo := NewTag
      let rootInfo := { rootInfo with InName := rootNodeName }
      let rootInfo := { rootInfo with ExName := rootNodeName }
      let rootInfo := { rootInfo with RepetitionType := FieldRepetitionType.REQUIRED }
      let infos := infos ++ [rootInfo]
      handlerLoop StringToTag NewSchemaElementFromTagMap fields schemaList infos

/-! ### The helpers of the package `common`, from the metadata grammar -/

/-- Splits a list of characters at every occurrence of `sep`. -/
def splitChars (sep : Char) : List Char → List (List Char)
  | [] => [[]]
  | c :: cs =>
    if c = sep then [] :: splitChars sep cs
    else
      match splitChars sep cs with
      | [] => [[c]]
      | p :: ps => (c :: p) :: ps

/-- Removes the blanks at both ends of a list of characters. -/
def trimChars (cs : List Char) : List Char :=
  ((cs.dropWhile (· = ' ')).reverse.dropWhile (· = ' ')).reverse

/-- Splits `key=value` at its first `=`; `none` when there is none. -/
def splitKeyValue : List Char → Option (List Char × List Char)
  | [] => none
  | c :: cs =>
    if c = '=' then some ([], cs)
    else
      match splitKeyValue cs with
      | none => none
      | some (k, v) => some (c :: k, v)

/-- Modelled from the spec: the repetition type with a given textual name. -/
def FieldRepetitionTypeFromString (s : String) : Option FieldRepetitionType :=
  [FieldRepetitionType.REQUIRED, .OPTIONAL, .REPEATED].find? (fun r => r.String = s)

/-- Modelled from the spec: the physical type with a given textual name. -/
def TypeFromString (s : String) : Option ParquetType :=
  [ParquetType.BOOLEAN, .INT32, .INT64, .INT96, .FLOAT, .DOUBLE, .BYTE_ARRAY,
    .FIXED_LEN_BYTE_ARRAY].find? (fun t => t.String = s)

/-- Modelled from the spec: the converted type with a given textual name. -/
def ConvertedTypeFromString (s : String) : Option ConvertedType :=
  [ConvertedType.UTF8, .MAP, .MAP_KEY_VALUE, .LIST, .ENUM, .DECIMAL, .DATE, .TIME_MILLIS,
    .TIME_MICROS, .TIMESTAMP_MILLIS, .TIMESTAMP_MICROS, .UINT_8, .UINT_16, .UINT_32,
    .UINT_64, .INT_8, .INT_16, .INT_32, .INT_64, .JSON, .BSON, .INTERVAL].find?
    (fun c => c.String = s)

/-- One `key=value` item of a metadata string, stored into the tag `mp`. -/
def tagItem (mp : Tag) (item : List Char) : Except String Tag :=
  match splitKeyValue (trimChars item) with
  | none => .error ("expect key=value but got " ++ String.mk (trimChars item))
  | some (key, val) =>
    let key := String.mk (trimChars key)
    let val := String.mk (trimChars val)
    if key = "name" then .ok { mp with InName := val, ExName := val }
    else if key = "type" then .ok { mp with Type_ := val }
    else if key = "convertedtype" then .ok { mp with ConvertedType := val }
    else if key = "repetitiontype" then
      match FieldRepetitionTypeFromString val with
      | some r => .ok { mp with RepetitionType := r }
      | none => .error ("unknown repetitiontype: " ++ val)
    else .error ("unrecognized tag " ++ key)

/-- The items of a metadata string, stored one after the other into `mp`. -/
def tagItems : List (List Char) → Tag → Except String Tag
  | [], mp => .ok mp
  | item :: rest, mp =>
    match tagItem mp item with
    | .error err => .error err
    | .ok mp => tagItems rest mp

/-- Modelled from the spec: `common.StringToTag`, declared in the package
`common`, parses a metadata string of the grammar
`name=<N>, type=<T>, convertedtype=<C>, repetitiontype=<R>` or
`name=<N>, type=<T>, repetitiontype=<R>`: items separated by commas, each a key
and a value around `=`. -/
def StringToTag (tag : String) : Except String Tag :=
  tagItems (splitChars ',' tag.data) NewTag

/-- Modelled from the spec: `common.NewSchemaElementFromTagMap`, declared in the
package `common`, builds the leaf that carries the name of the field and its
mapping: physical type, logical/converted type when there is one, and
repetition type. -/
def NewSchemaElementFromTagMap (info : Tag) : Except String SchemaElement :=
  match TypeFromString info.Type_ with
  | none => .error ("unknown type: " ++ info.Type_)
  | some t =>
    let schema := NewSchemaElement
    let schema := { schema with Name := info.ExName, Type_ := some t,
                                RepetitionType := some info.RepetitionType }
    if info.ConvertedType = "" then .ok schema
    else
      match ConvertedTypeFromString info.ConvertedType with
      | none => .error ("unknown convertedtype: " ++ info.ConvertedType)
      | some c => .ok { schema with ConvertedType := some c }

/-! ### Reference definitions, from the specification -/

/-- The mapping table of the specification (section 4.1), row by row: the
physical type and the optional logical/converted type of each external type. -/
def mappingTable : DataType → Option (ParquetType × Option ConvertedType)
  | .INT8 => some (.INT32, some .INT_8)
  | .INT16 => some (.INT32, some .INT_16)
  | .INT32 => some (.INT32, none)
  | .INT64 => some (.INT64, none)
  | .UINT8 => some (.INT32, some .UINT_8)
  | .UINT16 => some (.INT32, some .UINT_16)
  | .UINT32 => some (.INT32, some .UINT_32)
  | .UINT64 => some (.INT64, some .UINT_64)
  | .FLOAT32 => some (.FLOAT, none)
  | .FLOAT64 => some (.DOUBLE, none)
  | .DATE32 => some (.INT32, some .DATE)
  | .DATE64 => some (.INT32, some .DATE)
  | .BINARY => some (.BYTE_ARRAY, none)
  | .STRING => some (.BYTE_ARRAY, some .UTF8)
  | .BOOL => some (.BOOLEAN, none)
  | .TIME32 .Millisecond => some (.INT32, some .TIME_MILLIS)
  | .TIMESTAMP .Millisecond _ => some (.INT64, some .TIMESTAMP_MILLIS)
  | _ => none

/-- The repetition rule of the specification: nullable gives `OPTIONAL`, else
`REQUIRED`. -/
def specRepetition (nullable : Bool) : FieldRepetitionType :=
  if nullable then .OPTIONAL else .REQUIRED

/-- The metadata string grammar of the specification (section 6): with a
logical type `name=N, type=T, convertedtype=C, repetitiontype=R`, without
`name=N, type=T, repetitiontype=R`. -/
def specMetaData (N : String) (T : ParquetType) (C : Option ConvertedType)
    (R : FieldRepetitionType) : String :=
  match C with
  | some c =>
    "name=" ++ N ++ ", type=" ++ T.String ++ ", convertedtype=" ++ c.String ++
      ", repetitiontype=" ++ R.String
  | none => "name=" ++ N ++ ", type=" ++ T.String ++ ", repetitiontype=" ++ R.String

/-- The type names that the `switch` of `ConvertArrowToParquetSchema` dispatches
on, in the order of its `case` labels. -/
def dispatchedNames : List String :=
  [DataType.INT8.Name, DataType.INT16.Name, DataType.INT32.Name, DataType.INT64.Name,
   DataType.UINT8.Name, DataType.UINT16.Name, DataType.UINT32.Name, DataType.UINT64.Name,
   DataType.FLOAT32.Name, DataType.FLOAT64.Name, DataType.DATE32.Name, DataType.DATE64.Name,
   DataType.DATE32.Name, DataType.DATE64.Name, DataType.BINARY.Name, DataType.STRING.Name,
   DataType.BOOL.Name, (DataType.TIME32 .Millisecond).Name,
   (DataType.TIMESTAMP .Millisecond "UTC").Name]

/-- A field is supported when converting the schema made of it alone returns a
list and no error. -/
def fieldSupported (v : Field) : Bool :=
  match ConvertArrowToParquetSchema ⟨[v]⟩ with
  | .returned (some _, none) => true
  | _ => false

/-! ### Auxiliary definitions for the proofs -/

/-- The body of the loop of `ConvertArrowToParquetSchema`, by the constructor of
the type instead of its name; `fieldStep` is proved equal to it. -/
def fieldStepByType (v : Field) : FieldStep :=
  let r := if v.Nullable then FieldRepetitionType.OPTIONAL else FieldRepetitionType.REQUIRED
  match v.Type_ with
  | .INT8 => .assign (convertedMetaDataTemplate v.Name .INT32 .INT_8 r)
  | .INT16 => .assign (convertedMetaDataTemplate v.Name .INT32 .INT_16 r)
  | .INT32 => .assign (primitiveMetaDataTemplate v.Name .INT32 r)
  | .INT64 => .assign (primitiveMetaDataTemplate v.Name .INT64 r)
  | .UINT8 => .assign (convertedMetaDataTemplate v.Name .INT32 .UINT_8 r)
  | .UINT16 => .assign (convertedMetaDataTemplate v.Name .INT32 .UINT_16 r)
  | .UINT32 => .assign (convertedMetaDataTemplate v.Name .INT32 .UINT_32 r)
  | .UINT64 => .assign (convertedMetaDataTemplate v.Name .INT64 .UINT_64 r)
  | .FLOAT32 => .assign (primitiveMetaDataTemplate v.Name .FLOAT r)
  | .FLOAT64 => .assign (primitiveMetaDataTemplate v.Name .DOUBLE r)
  | .DATE32 => .assign (convertedMetaDataTemplate v.Name .INT32 .DATE r)
  | .DATE64 => .assign (convertedMetaDataTemplate v.Name .INT32 .DATE r)
  | .BINARY => .assign (primitiveMetaDataTemplate v.Name .BYTE_ARRAY r)
  | .STRING => .assign (convertedMetaDataTemplate v.Name .BYTE_ARRAY .UTF8 r)
  | .BOOL => .assign (primitiveMetaDataTemplate v.Name .BOOLEAN r)
  | .TIME32 _ => .assign (convertedMetaDataTemplate v.Name .INT32 .TIME_MILLIS r)
  | .TIMESTAMP u tz =>
    if u = .Millisecond then
      .assign (convertedMetaDataTemplate v.Name .INT64 .TIMESTAMP_MILLIS r)
    else .fail ("Unsupported arrow format: " ++ TimestampType.String u tz)
  | t => .fail ("Unsupported arrow format: " ++ t.Name)

/-- The string that the loop assigns for a field, the empty string when it
assigns none. -/
def fieldString (v : Field) : String :=
  match fieldStep v with
  | .assign s => s
  | _ => ""

/-- The error message of the first field, in input order, on which the loop
returns an error; `none` when there is no such field. -/
def firstFailure : List Field → Option String
  | [] => none
  | v :: rest =>
    match fieldStep v with
    | .assign _ => firstFailure rest
    | .fail msg => some msg
    | .panic => none

/-- The tag that the helper `f` parses from a metadata string, the empty tag
when it fails. -/
def tagOf (f : String → Except String Tag) (s : String) : Tag :=
  match f s with
  | .ok info => info
  | .error _ => NewTag

/-- The leaf that the helpers `f` and `g` build from a metadata string, the
empty element when one of them fails. -/
def leafOf (f : String → Except String Tag) (g : Tag → Except String SchemaElement)
    (s : String) : SchemaElement :=
  match g (tagOf f s) with
  | .ok leaf => leaf
  | .error _ => NewSchemaElement

/-- The root element that `NewSchemaHandlerFromArrow` builds when there are
`n` metadata strings. -/
def rootElement (n : Nat) : SchemaElement :=
  { Type_ := none, RepetitionType := some .REQUIRED, Name := rootNodeName,
    NumChildren := some (int32 n), ConvertedType := none }

/-- The root tag that `NewSchemaHandlerFromArrow` builds. -/
def rootTag : Tag :=
  { InName := rootNodeName, ExName := rootNodeName, Type_ := "", ConvertedType := "",
    RepetitionType := .REQUIRED }

/-- The sum of the child counts that the elements of a schema-element list
declare; an element on which `NumChildren` is not set declares none. -/
def childCountSum (l : List SchemaElement) : Int :=
  (l.map (fun e => e.NumChildren.getD 0)).sum

/-! ## `compress/lz4_raw.go` -/

/-- A Go `byte`. -/
abbrev Byte := UInt8

/-- Outcome of running Go code that has loops: a value, a panic, or the loop
budget of the model ran out before the loop ended. -/
inductive Exec (α : Type) where
  | ok (a : α)
  | panic
  | outOfFuel
  deriving DecidableEq, Repr

/-- Sequencing of two steps: the second runs when the first gave a value. -/
def Exec.bind {α β : Type} (x : Exec α) (f : α → Exec β) : Exec β :=
  match x with
  | .ok a => f a
  | .panic => .panic
  | .outOfFuel => .outOfFuel

instance : Monad Exec where
  pure := Exec.ok
  bind := Exec.bind

/-- The index expression `s[i]`, which panics out of range. -/
def index (s : List Byte) (i : Nat) : Exec Byte :=
  match s[i]? with
  | some b => .ok b
  | none => .panic

/-- The slice expression `s[:n]` of a slice whose capacity is its length, which
panics when `n` is beyond it. -/
def sliceTo (s : List Byte) (n : Nat) : Exec (List Byte) :=
  if n ≤ s.length then .ok (s.take n) else .panic

/-- The buffer `make([]byte, n)`. -/
def makeBytes (n : Nat) : List Byte := List.replicate n 0

/-! ### Imported declarations: `github.com/pierrec/lz4/v4`

The library is not part of the repository. What follows models the functions
that `lz4_raw.go` calls: the block compressor `CompressorHC.CompressBlock`, the
block decoder `UncompressBlock` and `CompressBlockBound`. Lengths and positions
are Go `int`s that stay far below `2^63`; they are natural numbers here. -/

namespace lz4

/-- The minimum length of a match. -/
def minMatch : Nat := 4

/-- Logarithm of the window size. -/
def winSizeLog : Nat := 16

/-- The window size, 64 KiB. -/
def winSize : Nat := 1 <<< winSizeLog

/-- The mask of a position inside the window. -/
def winMask : Nat := winSize - 1

/-- The last match cannot start within the last 14 bytes. -/
def mfLimit : Nat := 10 + minMatch

/-- How fast the compressor skips over data without matches. -/
def adaptSkipLog : Nat := 7

/-- The error `ErrInvalidSourceShortBuffer` of the library. -/
def ErrInvalidSourceShortBuffer : String :=
  "lz4: invalid source or destination buffer too short"

/-- The function `CompressBlockBound`: the largest size of a compressed block
for an input of `n` bytes. -/
def CompressBlockBound (n : Nat) : Nat := n + n / 255 + 16

/-- The function `binary.LittleEndian.Uint16` on the slice `b`. -/
def Uint16 (b : List Byte) : Exec Nat :=
  match b with
  | b0 :: b1 :: _ => .ok (b0.toNat ||| b1.toNat <<< 8)
  | _ => .panic

/-- The function `binary.LittleEndian.Uint32` on the slice `b`. -/
def Uint32 (b : List Byte) : Exec Nat :=
  match b with
  | b0 :: b1 :: b2 :: b3 :: _ =>
    .ok (b0.toNat ||| b1.toNat <<< 8 ||| b2.toNat <<< 16 ||| b3.toNat <<< 24)
  | _ => .panic

/-- The function `binary.LittleEndian.Uint64` on the slice `b`. -/
def Uint64 (b : List Byte) : Exec Nat :=
  match b with
  | b0 :: b1 :: b2 :: b3 :: b4 :: b5 :: b6 :: b7 :: _ =>
    .ok (b0.toNat ||| b1.toNat <<< 8 ||| b2.toNat <<< 16 ||| b3.toNat <<< 24 |||
      b4.toNat <<< 32 ||| b5.toNat <<< 40 ||| b6.toNat <<< 48 ||| b7.toNat <<< 56)
  | _ => .panic

/-- Counts the zero bits at the low end of `x`, looking at no more than `n`
bits. -/
def trailingZerosLoop : Nat → Nat → Nat
  | 0, _ => 0
  | n + 1, x => if x % 2 = 1 then 0 else 1 + trailingZerosLoop n (x / 2)

/-- The function `bits.TrailingZeros64`: the number of trailing zero bits of
`x`, 64 for zero. -/
def TrailingZeros64 (x : Nat) : Nat :=
  if x = 0 then 64 else trailingZerosLoop 64 x

/-- The function `blockHashHC`: a multiplicative hash of 4 bytes, in 32-bit
arithmetic, into a value below the window size. -/
def blockHashHC (x : Nat) : Nat :=
  (x * 2654435761 % 2 ^ 32) >>> (32 - winSizeLog)

/-- The tables of a `CompressorHC`: the last position found for a hash, and the
previous positions for a hash. Both are arrays of `1 << 16` integers, all zero
when a call of `CompressBlock` starts. -/
structure CompressorHC where
  hashTable : Nat → Nat
  chainTable : Nat → Nat

/-- The assignment `t[k] = v` of an array. -/
def setAt (t : Nat → Nat) (k v : Nat) : Nat → Nat :=
  fun i => if i = k then v else t i

/-- The write `dst[di] = b; di++`: `out` is `dst[:di]` and `cap` is `len(dst)`. -/
def put (cap : Nat) (out : List Byte) (b : Byte) : Exec (List Byte) :=
  if out.length < cap then .ok (out ++ [b]) else .panic

/-- The write `di += copy(dst[di:di+len(b)], b)`. -/
def putAll (cap : Nat) (out : List Byte) (b : List Byte) : Exec (List Byte) :=
  if out.length + b.length ≤ cap then .ok (out ++ b) else .panic

/-- The loop `for ; l >= 0xFF; l -= 0xFF { dst[di] = 0xFF; di++ }`, which gives
the value of `l` left. -/
def putLenLoop (cap : Nat) : Nat → Nat → List Byte → Exec (Nat × List Byte)
  | 0, _, _ => .outOfFuel
  | fuel + 1, l, out =>
    if l ≥ 0xFF then do
      let out ← put cap out 0xFF
      putLenLoop cap fuel (l - 0xFF) out
    else pure (l, out)

/-- The loop of `CompressBlock` that compares the current position `si` with
the previous position `next`, 8 bytes at a time, and gives the length of the
match. -/
def matchLenLoop (src : List Byte) (next si sn : Nat) : Nat → Nat → Exec Nat
  | 0, _ => .outOfFuel
  | fuel + 1, ml =>
    if ml < sn - si then do
      let a ← Uint64 (src.drop (next + ml))
      let b ← Uint64 (src.drop (si + ml))
      let x := a ^^^ b
      if x = 0 then matchLenLoop src next si sn fuel (ml + 8)
      else pure (ml + (TrailingZeros64 x >>> 3))
    else pure ml

/-- The loop of `CompressBlock` that follows the chain of previous positions
with the same hash, at most `try_` of them, and keeps the longest match: it
gives the length of the match and its offset. -/
def chainLoop (src : List Byte) (chainTable : Nat → Nat) (si sn : Nat) :
    Nat → Nat → Nat → Nat → Exec (Nat × Nat)
  | 0, _, mLen, offset => pure (mLen, offset)
  | try_ + 1, next, mLen, offset =>
    if next > 0 ∧ (si : Int) - next < winSize then do
      let a ← index src (next + mLen)
      let b ← index src (si + mLen)
      if a ≠ b then
        chainLoop src chainTable si sn try_ (chainTable (next &&& winMask)) mLen offset
      else do
        let ml ← matchLenLoop src next si sn (sn - si + 1) 0
        if ml < minMatch ∨ ml ≤ mLen then
          chainLoop src chainTable si sn try_ (chainTable (next &&& winMask)) mLen offset
        else
          chainLoop src chainTable si sn try_ (chainTable (next &&& winMask)) ml (si - next)
    else pure (mLen, offset)

/-- The loop of `CompressBlock` that puts the positions covered by a match into
the tables, `n` of them from `si` on. -/
def insertLoop (src : List Byte) : Nat → Nat → Nat → CompressorHC → Exec CompressorHC
  | 0, _, _, c => pure c
  | n + 1, si, match_, c => do
    let match_ := match_ >>> 8
    let b ← index src (si + 3)
    let match_ := match_ ||| (b.toNat <<< 24)
    let h := blockHashHC match_
    let c : CompressorHC :=
      { chainTable := setAt c.chainTable (si &&& winMask) (c.hashTable h),
        hashTable := setAt c.hashTable h si }
    insertLoop src n (si + 1) match_ c

/-- The part of `CompressBlock` that writes one sequence: the token, the length
of the literals, the literals, the offset and the length of the match. Here
`mLen` is the length of the match less `minMatch`. -/
def putSequence (src : List Byte) (cap : Nat) (anchor lLen offset mLen : Nat)
    (out : List Byte) : Exec (List Byte) := do
  let token := if mLen < 0xF then mLen else 0xF
  let out ←
    (if lLen < 0xF then put cap out (UInt8.ofNat (token ||| (lLen <<< 4)))
     else do
      let out ← put cap out (UInt8.ofNat (token ||| 0xF0))
      let (l, out) ← putLenLoop cap (lLen + 1) (lLen - 0xF) out
      put cap out (UInt8.ofNat l))
  let lits ← (if anchor + lLen ≤ src.length then pure ((src.drop anchor).take lLen)
    else Exec.panic)
  let out ← putAll cap out lits
  let out ← put cap out (UInt8.ofNat offset)
  let out ← put cap out (UInt8.ofNat (offset >>> 8))
  if mLen ≥ 0xF then do
    let (l, out) ← putLenLoop cap (mLen + 1) (mLen - 0xF) out
    put cap out (UInt8.ofNat l)
  else pure out

/-- The main loop of `CompressBlock`, `for si < sn`: it gives the anchor and the
bytes written when the loop ends. -/
def compressLoop (src : List Byte) (cap sn depth : Nat) :
    Nat → Nat → Nat → List Byte → CompressorHC → Exec (Nat × List Byte)
  | 0, _, _, _, _ => .outOfFuel
  | fuel + 1, si, anchor, out, c =>
    if si < sn then do
      let match_ ← Uint32 (src.drop si)
      let h := blockHashHC match_
      let (mLen, offset) ← chainLoop src c.chainTable si sn depth (c.hashTable h) 0 0
      let c : CompressorHC :=
        { chainTable := setAt c.chainTable (si &&& winMask) (c.hashTable h),
          hashTable := setAt c.hashTable h si }
      if mLen = 0 then
        compressLoop src cap sn depth fuel (si + (1 + ((si - anchor) >>> adaptSkipLog)))
          anchor out c
      else do
        let winStart := si + 1
        let ws := si + mLen - winSize
        let winStart := if ws > winStart then ws else winStart
        let c ← insertLoop src (si + mLen - winStart) winStart match_ c
        let lLen := si - anchor
        let si := si + mLen
        let mLen := mLen - minMatch
        let out ← putSequence src cap anchor lLen offset mLen out
        compressLoop src cap sn depth fuel si si out c
    else pure (anchor, out)

/-- The end of `CompressBlock`, from the label `lastLiterals` on: the token and
the length of the last literals, then the literals. It gives the bytes written,
none when the block is reported as not compressible. -/
def lastLiterals (src : List Byte) (cap : Nat) (isNotCompressible : Bool) (anchor : Nat)
    (out : List Byte) : Exec (Option (List Byte)) := do
  let lLen := src.length - anchor
  let out ←
    (if lLen < 0xF then put cap out (UInt8.ofNat (lLen <<< 4))
     else do
      let out ← put cap out 0xF0
      let (l, out) ← putLenLoop cap (lLen + 1) (lLen - 0xF) out
      put cap out (UInt8.ofNat l))
  if isNotCompressible ∧ out.length ≥ anchor then pure none
  else do
    let out ← putAll cap out (src.drop anchor)
    pure (some out)

/-- The body of `CompressorHC.CompressBlock` with search depth `depth`, before
the deferred `recoverBlock`: the bytes written into `dst`, none when the block
is reported as not compressible. -/
def compressBody (src : List Byte) (cap depth : Nat) : Exec (Option (List Byte)) := do
  let c : CompressorHC := { hashTable := fun _ => 0, chainTable := fun _ => 0 }
  let isNotCompressible : Bool := cap < CompressBlockBound src.length
  let sn : Int := (src.length : Int) - mfLimit
  if sn ≤ 0 then lastLiterals src cap isNotCompressible 0 []
  else do
    let depth := if depth = 0 then winSize else depth
    let (anchor, out) ← compressLoop src cap sn.toNat depth (src.length + 1) 0 0 [] c
    if isNotCompressible ∧ anchor = 0 then pure none
    else lastLiterals src cap isNotCompressible anchor out

/-- The method `CompressorHC.CompressBlock` of the library, for the compressor
`lz4.CompressorHC` with `Level: lz4.CompressionLevel(9)`, that is search depth
9. It gives the buffer `dst` after the call, the number of bytes written and
the error. A panic inside is recovered into `ErrInvalidSourceShortBuffer`. -/
def CompressBlock (src dst : List Byte) : Exec (List Byte × Nat × Option String) :=
  match compressBody src dst.length 9 with
  | .ok (some out) => .ok (out ++ dst.drop out.length, out.length, none)
  | .ok none => .ok (dst, 0, none)
  | .panic => .ok (dst, 0, some ErrInvalidSourceShortBuffer)
  | .outOfFuel => .outOfFuel

/-- The loop of the decoder that reads the bytes that extend a length,
`for { x := src[si]; len += x; si++; if x != 0xFF { break } }`, on the rest
`src[si:]` of the input: it gives the position after the bytes and the length.
Reading past the end of the input panics. -/
def readLenLoop : List Byte → Nat → Nat → Exec (Nat × Nat)
  | [], _, _ => .panic
  | x :: rest, si, len =>
    if x.toNat ≠ 0xFF then pure (si + 1, len + x.toNat)
    else readLenLoop rest (si + 1) (len + x.toNat)

/-- The copy of a match by the decoder: `mLen` bytes, each taken `offset` bytes
before the end of what is decoded. -/
def copyMatch (offset : Nat) : Nat → List Byte → Exec (List Byte)
  | 0, out => pure out
  | mLen + 1, out => do
    let b ← index out (out.length - offset)
    copyMatch offset mLen (out ++ [b])

/-- The literals of one sequence in the decoder, `if lLen := b >> 4; lLen > 0`:
the length is extended when it is `0xF`, then the literals are copied from
`src[si:]` to the end of `out`. It gives the position after the literals and
the bytes decoded. -/
def copyLiterals (src : List Byte) (cap : Nat) (b si : Nat) (out : List Byte) :
    Exec (Nat × List Byte) :=
  let lLen := b >>> 4
  if lLen > 0 then do
    let (si, lLen) ←
      (if lLen = 0xF then readLenLoop (src.drop si) si lLen else pure (si, lLen))
    if si + lLen ≤ src.length ∧ out.length + lLen ≤ cap then
      pure (si + lLen, out ++ (src.drop si).take lLen)
    else Exec.panic
  else pure (si, out)

/-- The loop of the block decoder `decodeBlock`, over the sequences of `src`; `out`
is `dst[:di]` and `cap` is `len(dst)`. A panic stands for the error result of
`decodeBlock`. -/
def decodeLoop (src : List Byte) (cap : Nat) : Nat → Nat → List Byte → Exec (List Byte)
  | 0, _, _ => .outOfFuel
  | fuel + 1, si, out =>
    if si < src.length then do
      let b ← index src si
      let b := b.toNat
      let si := si + 1
      let (si, out) ← copyLiterals src cap b si out
      let mLen := b &&& 0xF
      if si = src.length ∧ mLen = 0 then pure out
      else if si ≥ src.length then Exec.panic
      else do
        let offset ← Uint16 (src.drop si)
        if offset = 0 then Exec.panic
        else do
          let si := si + 2
          let mLen := mLen + minMatch
          let (si, mLen) ←
            (if mLen = minMatch + 0xF then readLenLoop (src.drop si) si mLen
             else pure (si, mLen))
          if out.length < offset then Exec.panic
          else if out.length + mLen > cap then Exec.panic
          else do
            let out ← copyMatch offset mLen out
            decodeLoop src cap fuel si out
    else pure out

/-- The function `UncompressBlock` of the library: it decodes the block `src`
into `dst`, and gives the buffer `dst` after the call, the number of bytes
decoded and the error. The library has several implementations of the decoder,
in assembly and in Go; the model is the decoding of the LZ4 block format that
they share, with the checks of the Go one. -/
def UncompressBlock (src dst : List Byte) : Exec (List Byte × Nat × Option String) :=
  if src.length = 0 then .ok (dst, 0, none)
  else
    match decodeLoop src dst.length (src.length + 1) 0 [] with
    | .ok out => .ok (out ++ dst.drop out.length, out.length, none)
    | .panic => .ok (dst, 0, some ErrInvalidSourceShortBuffer)
    | .outOfFuel => .outOfFuel

end lz4

/-- The function `Compress` of the `LZ4_RAW` compressor registered by `init`. -/
def Compress (buf : List Byte) : Exec (List Byte) := do
  let res := makeBytes (lz4.CompressBlockBound buf.length)
  let (res, count, _) ← lz4.CompressBlock buf res
  sliceTo res count

/-- The function `Uncompress` of the `LZ4_RAW` compressor registered by `init`:
it gives the bytes and the error. -/
def Uncompress (buf : List Byte) : Exec (List Byte × Option String) := do
  let res := makeBytes (255 * buf.length)
  let (res, count, err) ← lz4.UncompressBlock buf res
  let res ← sliceTo res count
  let r ← sliceTo res count
  pure (r, err)

/-! ### The codec table -/

/-- Modelled from the spec: the codec ids of the container format
(`parquet.CompressionCodec`, declared in the package `parquet`). -/
inductive CompressionCodec where
  | UNCOMPRESSED
  | SNAPPY
  | GZIP
  | LZO
  | BROTLI
  | LZ4
  | ZSTD
  | LZ4_RAW
  deriving DecidableEq, Repr

/-- Modelled from the spec: an entry of the codec table (`Compressor`, declared
in another file of the package `compress`): a compress function and an
uncompress function, each of which is nil when it is not set. -/
structure Compressor where
  Compress : Option (List Byte → Exec (List Byte))
  Uncompress : Option (List Byte → Exec (List Byte × Option String))

/-- Modelled from the spec: the codec table `compressors`, declared in another
file of the package `compress`: a map from the codec id to the entry, nil where
there is none. -/
def CodecTable : Type := CompressionCodec → Option Compressor

/-- The function `init` of `lz4_raw.go` on the codec table: the one assignment
`compressors[parquet.CompressionCodec_LZ4_RAW] = &Compressor{...}`. -/
def init (compressors : CodecTable) : CodecTable :=
  fun codec =>
    if codec = CompressionCodec.LZ4_RAW then
      some { Compress := some Compress, Uncompress := some Uncompress }
    else compressors codec

namespace lz4

/-! ### Auxiliary definitions for the proofs about the codec -/

/-- A match of length `mLen` at offset `offset` found by the compressor at the
position `si` is either none (`mLen = 0`) or a true match: it is at least
`minMatch` long, it starts inside the window before `si`, and the bytes it
covers are the bytes `offset` before them. -/
def MatchOK (src : List Byte) (si sn mLen offset : Nat) : Prop :=
  mLen = 0 ∨
    (minMatch ≤ mLen ∧ 0 < offset ∧ offset ≤ si ∧ offset < winSize ∧ mLen ≤ sn - si + 7 ∧
      (src.drop (si - offset)).take mLen = (src.drop si).take mLen)

/-- Every entry of the tables of the compressor is zero or a position before
`bound`. -/
def TablesBelow (c : CompressorHC) (bound : Nat) : Prop :=
  ∀ i, (c.hashTable i = 0 ∨ c.hashTable i < bound) ∧
    (c.chainTable i = 0 ∨ c.chainTable i < bound)

/-- The bytes that extend a length by `l`: `l / 255` bytes `0xFF`, then the
byte `l % 255`. -/
def encLen (l : Nat) : List Byte :=
  List.replicate (l / 255) 0xFF ++ [UInt8.ofNat (l % 255)]

/-- The token and the length bytes of `lLen` literals followed by a match whose
length less `minMatch` is `mLen`. -/
def encHead (lLen mLen : Nat) : List Byte :=
  if lLen < 0xF then [UInt8.ofNat ((if mLen < 0xF then mLen else 0xF) ||| (lLen <<< 4))]
  else [UInt8.ofNat ((if mLen < 0xF then mLen else 0xF) ||| 0xF0)] ++ encLen (lLen - 0xF)

/-- The bytes of one sequence of a block: the literals `lits`, then a match at
`offset` whose length less `minMatch` is `mLen`. -/
def encSeq (lits : List Byte) (offset mLen : Nat) : List Byte :=
  encHead lits.length mLen ++ lits ++ [UInt8.ofNat offset, UInt8.ofNat (offset >>> 8)] ++
    (if mLen ≥ 0xF then encLen (mLen - 0xF) else [])

/-- The bytes of the last sequence of a block: the literals `lits` alone. -/
def encLast (lits : List Byte) : List Byte :=
  (if lits.length < 0xF then [UInt8.ofNat (lits.length <<< 4)]
   else [0xF0] ++ encLen (lits.length - 0xF)) ++ lits

/-- The bytes `mid` of a block decode the input from `a` to `a2`: wherever they
stand in a block, the decoder that has decoded `src[:a]` and reaches them
leaves them having decoded `src[:a2]`, in no more loop turns than `mid` has
bytes. -/
def Decodes (src mid : List Byte) (a a2 : Nat) : Prop :=
  ∀ (comp : List Byte) (p : Nat) (tail : List Byte) (cap : Nat),
    comp.drop p = mid ++ tail → src.length ≤ cap →
    ∃ k, k ≤ mid.length ∧ ∀ fuel,
      decodeLoop comp cap (fuel + k) p (src.take a) =
        decodeLoop comp cap fuel (p + mid.length) (src.take a2)

/-- One turn of the loop of the decoder at the position `si`, as `decodeLoop`
runs it: it gives the bytes decoded, and the position of the next turn, none
when the loop ends with this turn. -/
def decodeStep (src : List Byte) (cap si : Nat) (out : List Byte) :
    Exec (Option Nat × List Byte) :=
  if si < src.length then do
    let b ← index src si
    let b := b.toNat
    let si := si + 1
    let (si, out) ← copyLiterals src cap b si out
    let mLen := b &&& 0xF
    if si = src.length ∧ mLen = 0 then pure (none, out)
    else if si ≥ src.length then Exec.panic
    else do
      let offset ← Uint16 (src.drop si)
      if offset = 0 then Exec.panic
      else do
        let si := si + 2
        let mLen := mLen + minMatch
        let (si, mLen) ←
          (if mLen = minMatch + 0xF then readLenLoop (src.drop si) si mLen
           else pure (si, mLen))
        if out.length < offset then Exec.panic
        else if out.length + mLen > cap then Exec.panic
        else do
          let out ← copyMatch offset mLen out
          pure (some si, out)
  else pure (none, out)

/-- The bytes `mid` are sequences as the compressor writes them for the input
from the anchor `a` to `a2`: each holds the literals from its anchor to a
position `si`, then a true match at `si`, and the next one starts where the
match ends. -/
inductive Seqs (src : List Byte) : List Byte → Nat → Nat → Prop where
  | nil (a : Nat) : Seqs src [] a a
  | cons (anchor si offset mLen a2 : Nat) (rest : List Byte)
      (ha : anchor ≤ si) (hlen : si + (mLen + minMatch) ≤ src.length) (hoff : 0 < offset)
      (hle : offset ≤ si) (hw : offset < winSize)
      (hm : (src.drop (si - offset)).take (mLen + minMatch) =
        (src.drop si).take (mLen + minMatch))
      (hrest : Seqs src rest (si + (mLen + minMatch)) a2) :
      Seqs src (encSeq ((src.drop anchor).take (si - anchor)) offset mLen ++ rest) anchor a2

end lz4

/-! # Theorems -/

/-! ## Properties of `ConvertArrowToParquetSchema` -/

theorem fieldStep_eq_byType (v : Field) : fieldStep v = fieldStepByType v := by
  obtain ⟨n, t, b⟩ := v
  cases t <;> simp [fieldStep, fieldStepByType, DataType.Name]

theorem fieldStep_ne_panic (v : Field) : fieldStep v ≠ .panic := by
  rw [fieldStep_eq_byType]
  obtain ⟨n, t, b⟩ := v
  cases t <;> simp [fieldStepByType]
  split <;> simp

theorem fieldStep_of_table (v : Field) (T : ParquetType) (C : Option ConvertedType)
    (h : mappingTable v.Type_ = some (T, C)) :
    fieldStep v = .assign (specMetaData v.Name T C (specRepetition v.Nullable)) := by
  rw [fieldStep_eq_byType]
  obtain ⟨n, t, b⟩ := v
  cases t
  case TIME32 u =>
    cases u <;> simp [mappingTable] at h
    obtain ⟨rfl, rfl⟩ := h
    simp [fieldStepByType, specMetaData, specRepetition, convertedMetaDataTemplate]
  case TIMESTAMP u tz =>
    cases u <;> simp [mappingTable] at h
    obtain ⟨rfl, rfl⟩ := h
    simp [fieldStepByType, specMetaData, specRepetition, convertedMetaDataTemplate]
  all_goals
    simp [mappingTable] at h
  all_goals
    obtain ⟨rfl, rfl⟩ := h
    simp [fieldStepByType, specMetaData, specRepetition, convertedMetaDataTemplate,
      primitiveMetaDataTemplate]

theorem convertLoop_eq (fields : List Field) :
    ∀ (done pad : List String), pad.length = fields.length →
      convertLoop fields done.length (done ++ pad) =
        match firstFailure fields with
        | some msg => .returned (none, some msg)
        | none => .returned (some (done ++ fields.map fieldString), none) := by
  induction fields with
  | nil =>
    intro done pad h
    have hp : pad = [] := List.length_eq_zero.mp h
    simp [convertLoop, firstFailure, hp]
  | cons v rest ih =>
    intro done pad h
    cases pad with
    | nil => simp at h
    | cons p pad =>
      have hlen : pad.length = rest.length := by simpa using h
      cases hs : fieldStep v with
      | assign s =>
        have hset : (done ++ p :: pad).set done.length s = (done ++ [s]) ++ pad := by
          rw [List.set_append_right _ _ (Nat.le_refl _)]
          simp
        have hk : done.length + 1 = (done ++ [s]).length := by simp
        simp only [convertLoop, hs, firstFailure, fieldString, List.map_cons]
        rw [hset, hk, ih (done ++ [s]) pad hlen]
        cases firstFailure rest <;> simp
      | fail msg => simp [convertLoop, hs, firstFailure]
      | panic => exact absurd hs (fieldStep_ne_panic v)

theorem convert_eq (schema : Schema) :
    ConvertArrowToParquetSchema schema =
      match firstFailure schema.Fields with
      | some msg => .returned (none, some msg)
      | none => .returned (some (schema.Fields.map fieldString), none) := by
  have h := convertLoop_eq schema.Fields [] (List.replicate schema.Fields.length "") (by simp)
  simpa [ConvertArrowToParquetSchema] using h

theorem convert_single (v : Field) :
    ConvertArrowToParquetSchema ⟨[v]⟩ =
      match fieldStep v with
      | .assign s => .returned (some [s], none)
      | .fail msg => .returned (none, some msg)
      | .panic => .panicked := by
  rw [convert_eq]
  cases hs : fieldStep v <;> simp [firstFailure, fieldString, hs]
  exact absurd hs (fieldStep_ne_panic v)

theorem firstFailure_eq_none_iff (fields : List Field) :
    firstFailure fields = none ↔ ∀ v ∈ fields, ∃ s, fieldStep v = .assign s := by
  induction fields with
  | nil => simp [firstFailure]
  | cons v rest ih =>
    cases hs : fieldStep v with
    | assign s => simp [firstFailure, hs, ih]
    | fail msg => simp [firstFailure, hs]
    | panic => exact absurd hs (fieldStep_ne_panic v)

theorem fieldSupported_iff (v : Field) :
    fieldSupported v = true ↔ ∃ s, fieldStep v = .assign s := by
  unfold fieldSupported
  rw [convert_single]
  cases hs : fieldStep v <;> simp

/-! ## Properties of `NewSchemaHandlerFromArrow` -/

theorem handlerLoop_ok (f : String → Except String Tag)
    (g : Tag → Except String SchemaElement) (md : List String) :
    ∀ (sl : List SchemaElement) (infos : List Tag),
      (∀ s ∈ md, ∃ info leaf, f s = .ok info ∧ g info = .ok leaf) →
      handlerLoop f g md sl infos =
        .returned (some ⟨sl ++ md.map (leafOf f g), infos ++ md.map (tagOf f)⟩, none) := by
  induction md with
  | nil => intro sl infos _; simp [handlerLoop, NewSchemaHandlerFromSchemaList]
  | cons s rest ih =>
    intro sl infos h
    obtain ⟨info, leaf, hf, hg⟩ := h s (by simp)
    have hrest : ∀ s ∈ rest, ∃ info leaf, f s = .ok info ∧ g info = .ok leaf :=
      fun s hs => h s (by simp [hs])
    simp only [handlerLoop, hf, hg]
    rw [ih _ _ hrest]
    simp [leafOf, tagOf, hf, hg]

theorem handlerLoop_some (f : String → Except String Tag)
    (g : Tag → Except String SchemaElement) (md : List String) :
    ∀ (sl : List SchemaElement) (infos : List Tag) (h : SchemaHandler) (e : Option String),
      handlerLoop f g md sl infos = .returned (some h, e) →
      ∀ s ∈ md, ∃ info leaf, f s = .ok info ∧ g info = .ok leaf := by
  induction md with
  | nil => intro sl infos h e _ s hs; simp at hs
  | cons s rest ih =>
    intro sl infos h e hl
    cases hf : f s with
    | error err => simp [handlerLoop, hf] at hl
    | ok info =>
      cases hg : g info with
      | error err => simp [handlerLoop, hf, hg] at hl
      | ok leaf =>
        simp only [handlerLoop, hf, hg] at hl
        have := ih _ _ h e hl
        intro s' hs'
        rcases List.mem_cons.mp hs' with rfl | hmem
        · exact ⟨info, leaf, hf, hg⟩
        · exact this s' hmem

theorem newHandler_eq (f : String → Except String Tag)
    (g : Tag → Except String SchemaElement) (schema : Schema) :
    NewSchemaHandlerFromArrow f g schema =
      match firstFailure schema.Fields with
      | some msg => .returned (none, some msg)
      | none =>
        handlerLoop f g (schema.Fields.map fieldString) [rootElement schema.Fields.length]
          [rootTag] := by
  cases hf : firstFailure schema.Fields with
  | some msg => simp [NewSchemaHandlerFromArrow, convert_eq, hf]
  | none =>
    simp [NewSchemaHandlerFromArrow, convert_eq, hf, rootElement, rootTag, NewSchemaElement,
      NewTag]

theorem int32_of_lt (n : Nat) (h : n < 2 ^ 31) : int32 n = n := by
  unfold int32
  have h1 : ((n : Int) + 2 ^ 31) % 2 ^ 32 = (n : Int) + 2 ^ 31 := by
    apply Int.emod_eq_of_lt <;> omega
  omega

/-! ### The mapping table -/

/-- C1: for every field whose type is a row of the mapping table of the
specification, `ConvertArrowToParquetSchema` emits exactly the documented
physical type and logical/converted type: the schema made of the field alone
gives the one string written with them, and in every schema whose conversion
returns a list, the entry at the index of the field is that string. -/
theorem mapping_table_exact (v : Field) (T : ParquetType) (C : Option ConvertedType)
    (h : mappingTable v.Type_ = some (T, C)) :
    ConvertArrowToParquetSchema ⟨[v]⟩ =
        .returned (some [specMetaData v.Name T C (specRepetition v.Nullable)], none) ∧
      ∀ (schema : Schema) (i : Nat) (md : List String) (err : Option String),
        schema.Fields[i]? = some v →
        ConvertArrowToParquetSchema schema = .returned (some md, err) →
        md[i]? = some (specMetaData v.Name T C (specRepetition v.Nullable)) := by
  have hv := fieldStep_of_table v T C h
  refine ⟨by rw [convert_single, hv], ?_⟩
  intro schema i md err hi hc
  rw [convert_eq] at hc
  cases hf : firstFailure schema.Fields with
  | some msg => simp [hf] at hc
  | none =>
    simp only [hf, GoResult.returned.injEq, Prod.mk.injEq, Option.some.injEq] at hc
    rw [← hc.1, List.getElem?_map, hi]
    simp [fieldString, hv]

/-- Witness of C1 at the field `a` of type int8, nullable. -/
theorem mapping_table_exact_witness :
    mappingTable (Field.mk "a" .INT8 true).Type_ = some (.INT32, some .INT_8) ∧
    (ConvertArrowToParquetSchema ⟨[⟨"a", .INT8, true⟩]⟩ =
        .returned (some [specMetaData "a" .INT32 (some .INT_8) (specRepetition true)], none) ∧
      ∀ (schema : Schema) (i : Nat) (md : List String) (err : Option String),
        schema.Fields[i]? = some ⟨"a", .INT8, true⟩ →
        ConvertArrowToParquetSchema schema = .returned (some md, err) →
        md[i]? = some (specMetaData "a" .INT32 (some .INT_8) (specRepetition true))) :=
  ⟨by decide, mapping_table_exact ⟨"a", .INT8, true⟩ .INT32 (some .INT_8) (by decide)⟩

/-- C2: for every supported field type and every field name, the repetition
type written is `OPTIONAL` when the field is nullable and `REQUIRED` when it is
not, and the physical and logical type written are the same for both values of
the flag. -/
theorem repetition_from_nullable (t : DataType) (n0 : String) (b0 : Bool)
    (h : fieldSupported ⟨n0, t, b0⟩ = true) (n : String) :
    ∃ (T : ParquetType) (C : Option ConvertedType),
      ConvertArrowToParquetSchema ⟨[⟨n, t, true⟩]⟩ =
          .returned (some [specMetaData n T C .OPTIONAL], none) ∧
        ConvertArrowToParquetSchema ⟨[⟨n, t, false⟩]⟩ =
          .returned (some [specMetaData n T C .REQUIRED], none) := by
  rw [fieldSupported_iff] at h
  obtain ⟨s, hs⟩ := h
  rw [fieldStep_eq_byType] at hs
  simp only [convert_single, fieldStep_eq_byType]
  cases t
  case TIMESTAMP u tz =>
    cases u <;> simp [fieldStepByType] at hs
    exact ⟨.INT64, some .TIMESTAMP_MILLIS, by
      simp [fieldStepByType, specMetaData, convertedMetaDataTemplate]⟩
  case INT8 => exact ⟨.INT32, some .INT_8, by
    simp [fieldStepByType, specMetaData, convertedMetaDataTemplate]⟩
  case INT16 => exact ⟨.INT32, some .INT_16, by
    simp [fieldStepByType, specMetaData, convertedMetaDataTemplate]⟩
  case INT32 => exact ⟨.INT32, none, by
    simp [fieldStepByType, specMetaData, primitiveMetaDataTemplate]⟩
  case INT64 => exact ⟨.INT64, none, by
    simp [fieldStepByType, specMetaData, primitiveMetaDataTemplate]⟩
  case UINT8 => exact ⟨.INT32, some .UINT_8, by
    simp [fieldStepByType, specMetaData, convertedMetaDataTemplate]⟩
  case UINT16 => exact ⟨.INT32, some .UINT_16, by
    simp [fieldStepByType, specMetaData, convertedMetaDataTemplate]⟩
  case UINT32 => exact ⟨.INT32, some .UINT_32, by
    simp [fieldStepByType, specMetaData, convertedMetaDataTemplate]⟩
  case UINT64 => exact ⟨.INT64, some .UINT_64, by
    simp [fieldStepByType, specMetaData, convertedMetaDataTemplate]⟩
  case FLOAT32 => exact ⟨.FLOAT, none, by
    simp [fieldStepByType, specMetaData, primitiveMetaDataTemplate]⟩
  case FLOAT64 => exact ⟨.DOUBLE, none, by
    simp [fieldStepByType, specMetaData, primitiveMetaDataTemplate]⟩
  case DATE32 => exact ⟨.INT32, some .DATE, by
    simp [fieldStepByType, specMetaData, convertedMetaDataTemplate]⟩
  case DATE64 => exact ⟨.INT32, some .DATE, by
    simp [fieldStepByType, specMetaData, convertedMetaDataTemplate]⟩
  case BINARY => exact ⟨.BYTE_ARRAY, none, by
    simp [fieldStepByType, specMetaData, primitiveMetaDataTemplate]⟩
  case STRING => exact ⟨.BYTE_ARRAY, some .UTF8, by
    simp [fieldStepByType, specMetaData, convertedMetaDataTemplate]⟩
  case BOOL => exact ⟨.BOOLEAN, none, by
    simp [fieldStepByType, specMetaData, primitiveMetaDataTemplate]⟩
  case TIME32 u => exact ⟨.INT32, some .TIME_MILLIS, by
    simp [fieldStepByType, specMetaData, convertedMetaDataTemplate]⟩
  all_goals simp [fieldStepByType] at hs

/-- Witness of C2 at the type uint16 and the name `n`. -/
theorem repetition_from_nullable_witness :
    fieldSupported ⟨"x", .UINT16, true⟩ = true ∧
    ∃ (T : ParquetType) (C : Option ConvertedType),
      ConvertArrowToParquetSchema ⟨[⟨"n", .UINT16, true⟩]⟩ =
          .returned (some [specMetaData "n" T C .OPTIONAL], none) ∧
        ConvertArrowToParquetSchema ⟨[⟨"n", .UINT16, false⟩]⟩ =
          .returned (some [specMetaData "n" T C .REQUIRED], none) :=
  ⟨by decide, repetition_from_nullable .UINT16 "x" true (by decide) "n"⟩

/-- C3: for every field of a type of the mapping table, with name `N`, the
metadata string is exactly `name=N, type=T, convertedtype=C, repetitiontype=R`
when the table gives a converted type `C` and exactly
`name=N, type=T, repetitiontype=R` when it gives none; and the two scenarios of
the specification hold. -/
theorem metadata_string_format (N : String) (t : DataType) (nullable : Bool)
    (T : ParquetType) (C : Option ConvertedType) (h : mappingTable t = some (T, C)) :
    ConvertArrowToParquetSchema ⟨[⟨N, t, nullable⟩]⟩ =
        .returned (some [
          match C with
          | some c =>
            "name=" ++ N ++ ", type=" ++ T.String ++ ", convertedtype=" ++ c.String ++
              ", repetitiontype=" ++
              (if nullable then FieldRepetitionType.OPTIONAL else .REQUIRED).String
          | none =>
            "name=" ++ N ++ ", type=" ++ T.String ++ ", repetitiontype=" ++
              (if nullable then FieldRepetitionType.OPTIONAL else .REQUIRED).String], none) ∧
      ConvertArrowToParquetSchema ⟨[⟨"a", .INT8, true⟩]⟩ =
        .returned
          (some ["name=a, type=INT32, convertedtype=INT_8, repetitiontype=OPTIONAL"], none) ∧
      ConvertArrowToParquetSchema ⟨[⟨"b", .INT64, false⟩]⟩ =
        .returned (some ["name=b, type=INT64, repetitiontype=REQUIRED"], none) := by
  refine ⟨?_, by decide, by decide⟩
  have hv := fieldStep_of_table ⟨N, t, nullable⟩ T C h
  rw [convert_single, hv]
  cases C <;> simp [specMetaData, specRepetition]

/-- Witness of C3 at the field `s` of type string, not nullable. -/
theorem metadata_string_format_witness :
    mappingTable .STRING = some (.BYTE_ARRAY, some .UTF8) ∧
    ConvertArrowToParquetSchema ⟨[⟨"s", .STRING, false⟩]⟩ =
      .returned
        (some ["name=s, type=BYTE_ARRAY, convertedtype=UTF8, repetitiontype=REQUIRED"], none) :=
  ⟨by decide,
    (metadata_string_format "s" .STRING false .BYTE_ARRAY (some .UTF8) (by decide)).1⟩

/-! ### Unsupported types -/

/-- C4: a timestamp field is converted, to `INT64`/`TIMESTAMP_MILLIS`, if and
only if its unit is millisecond; for every other unit the function returns no
list and the error `Unsupported arrow format: ` followed by the textual form of
the timestamp type, which holds the unit: `timestamp[s]`, `timestamp[us]`,
`timestamp[ns]` when there is no time zone. -/
theorem timestamp_unit_gate (N : String) (nullable : Bool) (u : TimeUnit) (tz : String) :
    ConvertArrowToParquetSchema ⟨[⟨N, .TIMESTAMP u tz, nullable⟩]⟩ =
        (if u = .Millisecond then
          .returned (some [
            "name=" ++ N ++ ", type=" ++ ParquetType.INT64.String ++ ", convertedtype=" ++
              ConvertedType.TIMESTAMP_MILLIS.String ++ ", repetitiontype=" ++
              (if nullable then FieldRepetitionType.OPTIONAL else .REQUIRED).String], none)
        else
          .returned (none, some ("Unsupported arrow format: " ++ TimestampType.String u tz))) ∧
      (fieldSupported ⟨N, .TIMESTAMP u tz, nullable⟩ = true ↔ u = .Millisecond) ∧
      TimestampType.String u "" = "timestamp[" ++ u.String ++ "]" ∧
      ConvertArrowToParquetSchema ⟨[⟨N, .TIMESTAMP .Second "", nullable⟩]⟩ =
        .returned (none, some "Unsupported arrow format: timestamp[s]") ∧
      ConvertArrowToParquetSchema ⟨[⟨N, .TIMESTAMP .Microsecond "", nullable⟩]⟩ =
        .returned (none, some "Unsupported arrow format: timestamp[us]") ∧
      ConvertArrowToParquetSchema ⟨[⟨N, .TIMESTAMP .Nanosecond "", nullable⟩]⟩ =
        .returned (none, some "Unsupported arrow format: timestamp[ns]") := by
  refine ⟨?_, ?_, ?_, ?_, ?_, ?_⟩
  · rw [convert_single, fieldStep_eq_byType]
    cases u <;> simp [fieldStepByType, convertedMetaDataTemplate]
  · rw [fieldSupported_iff, fieldStep_eq_byType]
    cases u <;> simp [fieldStepByType]
  · simp [TimestampType.String]
  all_goals
    rw [convert_single, fieldStep_eq_byType]
    simp [fieldStepByType]
    decide

/-- C5, evaluated on the code: a time32 field whose unit is second is converted
to `INT32`/`TIME_MILLIS`, with no error. -/
theorem time32_second_emits_time_millis :
    ConvertArrowToParquetSchema ⟨[⟨"t", .TIME32 .Second, false⟩]⟩ =
      .returned
        (some ["name=t, type=INT32, convertedtype=TIME_MILLIS, repetitiontype=REQUIRED"],
          none) := by
  decide

/-- C6: for every field whose type name is not one of the names that the
`switch` dispatches on, the function returns no list and the error
`Unsupported arrow format: ` followed by exactly that type name. -/
theorem unsupported_type_name (v : Field) (h : v.Type_.Name ∉ dispatchedNames) :
    ConvertArrowToParquetSchema ⟨[v]⟩ =
      .returned (none, some ("Unsupported arrow format: " ++ v.Type_.Name)) := by
  rw [convert_single, fieldStep_eq_byType]
  obtain ⟨n, t, b⟩ := v
  cases t <;> simp [dispatchedNames, DataType.Name] at h <;> simp [fieldStepByType]

/-- Witness of C6 at the types float16, time64, large_utf8, decimal, list and
struct. -/
theorem unsupported_type_name_witness :
    ConvertArrowToParquetSchema ⟨[⟨"f", .FLOAT16, true⟩]⟩ =
        .returned (none, some "Unsupported arrow format: float16") ∧
      ConvertArrowToParquetSchema ⟨[⟨"f", .TIME64 .Microsecond, true⟩]⟩ =
        .returned (none, some "Unsupported arrow format: time64") ∧
      ConvertArrowToParquetSchema ⟨[⟨"f", .LARGE_STRING, false⟩]⟩ =
        .returned (none, some "Unsupported arrow format: large_utf8") ∧
      ConvertArrowToParquetSchema ⟨[⟨"f", .DECIMAL128, false⟩]⟩ =
        .returned (none, some "Unsupported arrow format: decimal") ∧
      ConvertArrowToParquetSchema ⟨[⟨"f", .LIST, false⟩]⟩ =
        .returned (none, some "Unsupported arrow format: list") ∧
      ConvertArrowToParquetSchema ⟨[⟨"f", .STRUCT, false⟩]⟩ =
        .returned (none, some "Unsupported arrow format: struct") :=
  ⟨unsupported_type_name ⟨"f", .FLOAT16, true⟩ (by decide),
    unsupported_type_name ⟨"f", .TIME64 .Microsecond, true⟩ (by decide),
    unsupported_type_name ⟨"f", .LARGE_STRING, false⟩ (by decide),
    unsupported_type_name ⟨"f", .DECIMAL128, false⟩ (by decide),
    unsupported_type_name ⟨"f", .LIST, false⟩ (by decide),
    unsupported_type_name ⟨"f", .STRUCT, false⟩ (by decide)⟩

/-! ### All or nothing -/

/-- C7: the conversion is all-or-nothing. `ConvertArrowToParquetSchema` always
returns; its error is non-nil if and only if at least one field is unsupported;
whenever the error is non-nil the list is nil; and `NewSchemaHandlerFromArrow`
then returns a nil handler with that same error, whatever the helpers are. -/
theorem conversion_all_or_nothing (schema : Schema) :
    ∃ (md : Option (List String)) (err : Option String),
      ConvertArrowToParquetSchema schema = .returned (md, err) ∧
      (err ≠ none ↔ ∃ v ∈ schema.Fields, fieldSupported v = false) ∧
      (err ≠ none → md = none) ∧
      (err = none → ∃ l, md = some l ∧ l.length = schema.Fields.length) ∧
      (err ≠ none →
        ∀ (f : String → Except String Tag) (g : Tag → Except String SchemaElement),
          NewSchemaHandlerFromArrow f g schema = .returned (none, err)) := by
  have hsup : (∃ v ∈ schema.Fields, fieldSupported v = false) ↔
      firstFailure schema.Fields ≠ none := by
    rw [Ne, firstFailure_eq_none_iff]
    constructor
    · rintro ⟨v, hv, hf⟩ hall
      have := (fieldSupported_iff v).mpr (hall v hv)
      simp [this] at hf
    · intro hn
      by_contra hc
      apply hn
      intro v hv
      rw [← fieldSupported_iff]
      by_contra hf
      exact hc ⟨v, hv, by simpa using hf⟩
  cases hf : firstFailure schema.Fields with
  | some msg =>
    refine ⟨none, some msg, by rw [convert_eq, hf], ?_, by simp, by simp, ?_⟩
    · rw [hsup, hf]
    · intro _ f g
      simp [NewSchemaHandlerFromArrow, convert_eq, hf]
  | none =>
    refine ⟨some (schema.Fields.map fieldString), none, by rw [convert_eq, hf], ?_,
      by simp, by simp, by simp⟩
    rw [hsup, hf]

/-! ### Order and shape of the schema-element list -/

/-- C8, amended: order preservation. For every list of `N` supported fields,
`ConvertArrowToParquetSchema` returns a list of exactly `N` metadata strings
whose entry `i` is the mapping of input field `i`; when the helpers
`StringToTag` and `NewSchemaElementFromTagMap` accept every one of these
strings, `NewSchemaHandlerFromArrow` returns a handler whose schema-element list
has the leaf built from entry `i` at index `i + 1`; and the field list
`[int8, string]`, both nullable, gives the root, then the
`INT32`/`INT_8`/`OPTIONAL` leaf, then the `BYTE_ARRAY`/`UTF8`/`OPTIONAL` leaf. -/
theorem order_preserved (schema : Schema)
    (hs : ∀ v ∈ schema.Fields, fieldSupported v = true) :
    (∃ md : List String,
      ConvertArrowToParquetSchema schema = .returned (some md, none) ∧
      md.length = schema.Fields.length ∧
      (∀ (i : Nat) (v : Field), schema.Fields[i]? = some v →
        ∃ s, md[i]? = some s ∧
          ConvertArrowToParquetSchema ⟨[v]⟩ = .returned (some [s], none)) ∧
      ∀ (f : String → Except String Tag) (g : Tag → Except String SchemaElement),
        (∀ s ∈ md, ∃ info leaf, f s = .ok info ∧ g info = .ok leaf) →
        ∃ h : SchemaHandler,
          NewSchemaHandlerFromArrow f g schema = .returned (some h, none) ∧
          h.SchemaElements.length = schema.Fields.length + 1 ∧
          ∀ (i : Nat) (s : String), md[i]? = some s →
            ∃ info leaf, f s = .ok info ∧ g info = .ok leaf ∧
              h.SchemaElements[i + 1]? = some leaf) ∧
    NewSchemaHandlerFromArrow StringToTag NewSchemaElementFromTagMap
        ⟨[⟨"a", .INT8, true⟩, ⟨"b", .STRING, true⟩]⟩ =
      .returned (some
        { SchemaElements :=
            [{ Type_ := none, RepetitionType := some .REQUIRED, Name := "Parquet45go45root",
               NumChildren := some 2, ConvertedType := none },
             { Type_ := some .INT32, RepetitionType := some .OPTIONAL, Name := "a",
               NumChildren := none, ConvertedType := some .INT_8 },
             { Type_ := some .BYTE_ARRAY, RepetitionType := some .OPTIONAL, Name := "b",
               NumChildren := none, ConvertedType := some .UTF8 }],
          Infos :=
            [{ InName := "Parquet45go45root", ExName := "Parquet45go45root", Type_ := "",
               ConvertedType := "", RepetitionType := .REQUIRED },
             { InName := "a", ExName := "a", Type_ := "INT32", ConvertedType := "INT_8",
               RepetitionType := .OPTIONAL },
             { InName := "b", ExName := "b", Type_ := "BYTE_ARRAY", ConvertedType := "UTF8",
               RepetitionType := .OPTIONAL }] }, none) := by
  refine ⟨?_, by decide⟩
  have hall : ∀ v ∈ schema.Fields, ∃ s, fieldStep v = .assign s :=
    fun v hv => (fieldSupported_iff v).mp (hs v hv)
  have hff : firstFailure schema.Fields = none := (firstFailure_eq_none_iff _).mpr hall
  refine ⟨schema.Fields.map fieldString, by rw [convert_eq, hff], by simp, ?_, ?_⟩
  · intro i v hi
    refine ⟨fieldString v, by simp [hi], ?_⟩
    obtain ⟨s, hv⟩ := hall v (List.getElem?_mem hi)
    rw [convert_single, hv]
    simp [fieldString, hv]
  · intro f g hfg
    refine ⟨_, by rw [newHandler_eq, hff]; exact handlerLoop_ok f g _ _ _ hfg, by simp, ?_⟩
    intro i s hi
    obtain ⟨info, leaf, hf, hg⟩ := hfg s (List.getElem?_mem hi)
    refine ⟨info, leaf, hf, hg, ?_⟩
    have h1 : ([rootElement schema.Fields.length] ++
        (schema.Fields.map fieldString).map (leafOf f g))[i + 1]? =
        ((schema.Fields.map fieldString).map (leafOf f g))[i]? := by
      simp
    rw [h1, List.getElem?_map, hi]
    simp [leafOf, tagOf, hf, hg]

/-- Witness of C8, amended, at the field list `[int8, string]`, both nullable. -/
theorem order_preserved_witness :
    (∀ v ∈ (Schema.mk [⟨"a", .INT8, true⟩, ⟨"b", .STRING, true⟩]).Fields,
      fieldSupported v = true) ∧
    ∃ md : List String,
      ConvertArrowToParquetSchema ⟨[⟨"a", .INT8, true⟩, ⟨"b", .STRING, true⟩]⟩ =
        .returned (some md, none) ∧ md.length = 2 :=
  ⟨by decide,
    let ⟨md, h1, h2, _⟩ :=
      (order_preserved ⟨[⟨"a", .INT8, true⟩, ⟨"b", .STRING, true⟩]⟩ (by decide)).1
    ⟨md, h1, h2⟩⟩

/-- C8 as stated fails: the field `x,y` of type int32 is supported, and
`ConvertArrowToParquetSchema` returns its one metadata string
`name=x,y, type=INT32, repetitiontype=REQUIRED`; but the comma of the name
splits that string into an item `y` that is no `key=value`, so the helper
`StringToTag` of the metadata grammar rejects it and `NewSchemaHandlerFromArrow`
returns a nil handler and an error: no leaf is appended at index 1. -/
theorem order_lost_on_rejected_string :
    fieldSupported ⟨"x,y", .INT32, false⟩ = true ∧
    ConvertArrowToParquetSchema ⟨[⟨"x,y", .INT32, false⟩]⟩ =
      .returned (some ["name=x,y, type=INT32, repetitiontype=REQUIRED"], none) ∧
    (∃ err : String,
      StringToTag "name=x,y, type=INT32, repetitiontype=REQUIRED" = .error err) ∧
    ∃ err : String,
      NewSchemaHandlerFromArrow StringToTag NewSchemaElementFromTagMap
          ⟨[⟨"x,y", .INT32, false⟩]⟩ = .returned (none, some err) :=
  ⟨by decide, by decide, ⟨"expect key=value but got y", by rfl⟩,
    ⟨"expect key=value but got y", by decide⟩⟩

theorem newHandler_replicate (f : String → Except String Tag)
    (g : Tag → Except String SchemaElement) (n : Nat) (v : Field) (s : String)
    (info : Tag) (leaf : SchemaElement) (hv : fieldStep v = .assign s)
    (hf : f s = .ok info) (hg : g info = .ok leaf) :
    NewSchemaHandlerFromArrow f g ⟨List.replicate n v⟩ =
      .returned (some ⟨rootElement n :: List.replicate n leaf,
        rootTag :: List.replicate n info⟩, none) := by
  have hff : firstFailure (List.replicate n v) = none := by
    rw [firstFailure_eq_none_iff]
    intro w hw
    rw [List.eq_of_mem_replicate hw]
    exact ⟨s, hv⟩
  have hfs : fieldString v = s := by simp [fieldString, hv]
  rw [newHandler_eq]
  simp only [hff, List.map_replicate, List.length_replicate, hfs]
  rw [handlerLoop_ok]
  · simp [leafOf, tagOf, hf, hg]
  · intro s' hs'
    rw [List.eq_of_mem_replicate hs']
    exact ⟨info, leaf, hf, hg⟩

/-- C9 as stated fails: on the list of 2147483648 fields `a` of type int32,
`NewSchemaHandlerFromArrow` returns a handler whose root has
`NumChildren = -2147483648`, which is not the number of fields. -/
theorem root_numChildren_wraps :
    ∃ h : SchemaHandler,
      NewSchemaHandlerFromArrow StringToTag NewSchemaElementFromTagMap
          ⟨List.replicate 2147483648 ⟨"a", .INT32, false⟩⟩ = .returned (some h, none) ∧
      (List.replicate 2147483648 (Field.mk "a" .INT32 false)).length = 2147483648 ∧
      ∃ root : SchemaElement, h.SchemaElements[0]? = some root ∧
        root.NumChildren = some (-2147483648) ∧
        root.NumChildren ≠ some 2147483648 := by
  have hv : fieldStep ⟨"a", .INT32, false⟩ =
      .assign "name=a, type=INT32, repetitiontype=REQUIRED" := by decide
  have hf : StringToTag "name=a, type=INT32, repetitiontype=REQUIRED" =
      .ok ⟨"a", "a", "INT32", "", .REQUIRED⟩ := by rfl
  have hg : NewSchemaElementFromTagMap ⟨"a", "a", "INT32", "", .REQUIRED⟩ =
      .ok ⟨some .INT32, some .REQUIRED, "a", none, none⟩ := by rfl
  have h := newHandler_replicate StringToTag NewSchemaElementFromTagMap 2147483648 _ _ _ _
    hv hf hg
  refine ⟨_, h, List.length_replicate _ _, rootElement 2147483648, ?_, ?_, ?_⟩
  · exact List.getElem?_cons_zero
  · show some (int32 ((2147483648 : Nat) : Int)) = some (-2147483648)
    decide
  · show some (int32 ((2147483648 : Nat) : Int)) ≠ some 2147483648
    decide

/-- C9, amended: for every field list of length `N` on which
`NewSchemaHandlerFromArrow` returns a handler (whatever the helpers are, `N = 0`
included), the schema-element list has length `N + 1` and its element 0 is the
synthetic root: name `Parquet45go45root`, `NumChildren = int32(N)`, repetition
`REQUIRED`, no physical type and no converted type; and `int32(N) = N` when
`N < 2^31`. -/
theorem root_element_shape (f : String → Except String Tag)
    (g : Tag → Except String SchemaElement) (schema : Schema) (h : SchemaHandler)
    (e : Option String)
    (hret : NewSchemaHandlerFromArrow f g schema = .returned (some h, e)) :
    e = none ∧
    h.SchemaElements.length = schema.Fields.length + 1 ∧
    h.SchemaElements[0]? = some
      { Type_ := none, RepetitionType := some .REQUIRED, Name := "Parquet45go45root",
        NumChildren := some (int32 schema.Fields.length), ConvertedType := none } ∧
    (schema.Fields.length < 2 ^ 31 →
      h.SchemaElements[0]? = some
        { Type_ := none, RepetitionType := some .REQUIRED, Name := "Parquet45go45root",
          NumChildren := some (schema.Fields.length : Int), ConvertedType := none }) := by
  rw [newHandler_eq] at hret
  cases hff : firstFailure schema.Fields with
  | some msg => simp [hff] at hret
  | none =>
    simp only [hff] at hret
    have hok := handlerLoop_some f g _ _ _ h e hret
    rw [handlerLoop_ok f g _ _ _ hok] at hret
    simp only [GoResult.returned.injEq, Prod.mk.injEq, Option.some.injEq] at hret
    obtain ⟨hh, he⟩ := hret
    subst hh
    refine ⟨he.symm, by simp, ?_, ?_⟩
    · simp [rootElement, rootNodeName]
    · intro hlt
      simp [rootElement, rootNodeName, int32_of_lt _ hlt]

/-- Witness of C9, amended, at the empty field list and at `[int8, string]`. -/
theorem root_element_shape_witness :
    (∃ h : SchemaHandler,
      NewSchemaHandlerFromArrow StringToTag NewSchemaElementFromTagMap ⟨[]⟩ =
        .returned (some h, none) ∧
      h.SchemaElements =
        [{ Type_ := none, RepetitionType := some .REQUIRED, Name := "Parquet45go45root",
           NumChildren := some 0, ConvertedType := none }]) ∧
    ∃ h : SchemaHandler,
      NewSchemaHandlerFromArrow StringToTag NewSchemaElementFromTagMap
          ⟨[⟨"a", .INT8, true⟩, ⟨"b", .STRING, true⟩]⟩ = .returned (some h, none) ∧
      h.SchemaElements.length = 3 ∧
      h.SchemaElements[0]? = some
        { Type_ := none, RepetitionType := some .REQUIRED, Name := "Parquet45go45root",
          NumChildren := some 2, ConvertedType := none } :=
  ⟨⟨(⟨[⟨none, some .REQUIRED, "Parquet45go45root", some 0, none⟩],
        [⟨"Parquet45go45root", "Parquet45go45root", "", "", .REQUIRED⟩]⟩ : SchemaHandler),
      by decide, by decide⟩,
    ⟨(⟨[⟨none, some .REQUIRED, "Parquet45go45root", some 2, none⟩,
          ⟨some .INT32, some .OPTIONAL, "a", none, some .INT_8⟩,
          ⟨some .BYTE_ARRAY, some .OPTIONAL, "b", none, some .UTF8⟩],
        [⟨"Parquet45go45root", "Parquet45go45root", "", "", .REQUIRED⟩,
          ⟨"a", "a", "INT32", "INT_8", .OPTIONAL⟩,
          ⟨"b", "b", "BYTE_ARRAY", "UTF8", .OPTIONAL⟩]⟩ : SchemaHandler),
      by decide,
      (root_element_shape StringToTag NewSchemaElementFromTagMap
        ⟨[⟨"a", .INT8, true⟩, ⟨"b", .STRING, true⟩]⟩ _ none (by decide)).2.1,
      (root_element_shape StringToTag NewSchemaElementFromTagMap
        ⟨[⟨"a", .INT8, true⟩, ⟨"b", .STRING, true⟩]⟩ _ none (by decide)).2.2.2
          (by decide)⟩⟩

theorem firstFailure_append (pre rest : List Field)
    (hpre : ∀ w ∈ pre, ∃ s, fieldStep w = .assign s) :
    firstFailure (pre ++ rest) = firstFailure rest := by
  induction pre with
  | nil => rfl
  | cons w pre ih =>
    obtain ⟨s, hs⟩ := hpre w (by simp)
    have hrest : ∀ w ∈ pre, ∃ s, fieldStep w = .assign s := fun w hw => hpre w (by simp [hw])
    simp [firstFailure, hs, ih hrest]

theorem split_at_index (fields : List Field) (j : Nat) (v : Field)
    (hj : fields[j]? = some v) :
    fields = fields.take j ++ v :: fields.drop (j + 1) := by
  have hlt : j < fields.length := by
    by_contra hc
    rw [List.getElem?_eq_none (by omega)] at hj
    simp at hj
  have hv : fields[j] = v := by
    rw [List.getElem?_eq_getElem hlt] at hj
    simpa using hj
  rw [← hv, List.getElem_cons_drop _ _ hlt, List.take_append_drop]

theorem childCountSum_cons (e : SchemaElement) (l : List SchemaElement) :
    childCountSum (e :: l) = e.NumChildren.getD 0 + childCountSum l := by
  simp [childCountSum]

theorem childCountSum_leaves (leaves : List SchemaElement)
    (h : ∀ el ∈ leaves, el.NumChildren = none) : childCountSum leaves = 0 := by
  induction leaves with
  | nil => rfl
  | cons el rest ih =>
    have h0 : el.NumChildren = none := h el (by simp)
    have hr : childCountSum rest = 0 := ih (fun e he => h e (by simp [he]))
    rw [childCountSum_cons, h0, hr]
    rfl

theorem rootElement_numChildren (n : Nat) :
    (rootElement n).NumChildren = some (int32 n) := rfl

theorem childCountSum_root (n : Nat) (leaves : List SchemaElement)
    (h : ∀ el ∈ leaves, el.NumChildren = none) :
    childCountSum (rootElement n :: leaves) = int32 n := by
  rw [childCountSum_cons, childCountSum_leaves leaves h, rootElement_numChildren,
    Option.getD_some, Int.add_zero]

theorem NewSchemaElementFromTagMap_leaf (info : Tag) (leaf : SchemaElement)
    (h : NewSchemaElementFromTagMap info = .ok leaf) :
    leaf.NumChildren = none ∧ leaf.Type_ ≠ none := by
  unfold NewSchemaElementFromTagMap at h
  split at h
  · simp at h
  · split at h
    · cases h
      simp [NewSchemaElement]
    · split at h
      · simp at h
      · cases h
        simp [NewSchemaElement]

/-! ### The first unsupported field -/

/-- C17: when several fields are unsupported, the error is the one of the first
unsupported field in input order. For every field list whose earliest
unsupported field `v` is at index `j`, `ConvertArrowToParquetSchema` returns a
nil list and the error message that converting `v` alone gives, and it returns
the same for every other list of fields after index `j`. -/
theorem first_unsupported_error (fields : List Field) (j : Nat) (v : Field)
    (hj : fields[j]? = some v)
    (hbefore : ∀ (i : Nat) (w : Field), i < j → fields[i]? = some w → fieldSupported w = true)
    (hv : fieldSupported v = false) :
    ∃ msg : String,
      ConvertArrowToParquetSchema ⟨[v]⟩ = .returned (none, some msg) ∧
      ConvertArrowToParquetSchema ⟨fields⟩ = .returned (none, some msg) ∧
      ∀ after : List Field,
        ConvertArrowToParquetSchema ⟨fields.take j ++ v :: after⟩ =
          .returned (none, some msg) := by
  have hpre : ∀ w ∈ fields.take j, ∃ s, fieldStep w = .assign s := by
    intro w hw
    rw [← fieldSupported_iff]
    obtain ⟨i, hi⟩ := List.getElem?_of_mem hw
    have hij : i < j := by
      by_contra hc
      rw [List.getElem?_take_eq_none (by omega)] at hi
      simp at hi
    rw [List.getElem?_take_of_lt hij] at hi
    exact hbefore i w hij hi
  have hstep : ∃ msg, fieldStep v = .fail msg := by
    cases hs : fieldStep v with
    | assign s =>
      have := (fieldSupported_iff v).mpr ⟨s, hs⟩
      simp [this] at hv
    | fail msg => exact ⟨msg, rfl⟩
    | panic => exact absurd hs (fieldStep_ne_panic v)
  obtain ⟨msg, hmsg⟩ := hstep
  have hall : ∀ after : List Field,
      ConvertArrowToParquetSchema ⟨fields.take j ++ v :: after⟩ =
        .returned (none, some msg) := by
    intro after
    rw [convert_eq]
    simp only []
    rw [firstFailure_append _ _ hpre]
    simp [firstFailure, hmsg]
  refine ⟨msg, ?_, ?_, hall⟩
  · rw [convert_single, hmsg]
  · have h := hall (fields.drop (j + 1))
    rw [← split_at_index fields j v hj] at h
    exact h

/-- Witness of C17 at the fields `[int8, float16, list, int32]`: the error is
the one of the field of type float16. -/
theorem first_unsupported_error_witness :
    ConvertArrowToParquetSchema
        ⟨[⟨"a", .INT8, true⟩, ⟨"b", .FLOAT16, false⟩, ⟨"c", .LIST, true⟩,
          ⟨"d", .INT32, true⟩]⟩ =
      .returned (none, some "Unsupported arrow format: float16") :=
  let ⟨_, h1, h2, _⟩ :=
    first_unsupported_error
      [⟨"a", .INT8, true⟩, ⟨"b", .FLOAT16, false⟩, ⟨"c", .LIST, true⟩, ⟨"d", .INT32, true⟩]
      1 ⟨"b", .FLOAT16, false⟩ (by decide)
      (fun i w hi hw => by
        have h0 : i = 0 := by omega
        subst h0
        have hw0 : w = ⟨"a", .INT8, true⟩ := by
          simp only [List.getElem?_cons_zero, Option.some.injEq] at hw
          exact hw.symm
        subst hw0
        decide)
      (by decide)
  h2.trans (by
    have h3 : ConvertArrowToParquetSchema ⟨[⟨"b", .FLOAT16, false⟩]⟩ =
        .returned (none, some "Unsupported arrow format: float16") := by decide
    rw [h1] at h3
    exact h3)

/-! ### Independence of the fields -/

/-- C18: per-field independence. For every two field lists on which
`ConvertArrowToParquetSchema` returns a list, and every field `v` that stands at
index `i` of the first and at index `j` of the second (`j = i` included), the
two results hold the same metadata string there, and that string is the one
element of the result of converting `v` alone. -/
theorem per_field_independence (s1 s2 : Schema) (md1 md2 : List String) (i j : Nat)
    (v : Field)
    (h1 : ConvertArrowToParquetSchema s1 = .returned (some md1, none))
    (h2 : ConvertArrowToParquetSchema s2 = .returned (some md2, none))
    (hi : s1.Fields[i]? = some v) (hj : s2.Fields[j]? = some v) :
    ∃ str : String,
      md1[i]? = some str ∧ md2[j]? = some str ∧
      ConvertArrowToParquetSchema ⟨[v]⟩ = .returned (some [str], none) := by
  rw [convert_eq] at h1 h2
  cases hf1 : firstFailure s1.Fields with
  | some msg => simp [hf1] at h1
  | none =>
    cases hf2 : firstFailure s2.Fields with
    | some msg => simp [hf2] at h2
    | none =>
      simp only [hf1, GoResult.returned.injEq, Prod.mk.injEq, Option.some.injEq,
        and_true] at h1
      simp only [hf2, GoResult.returned.injEq, Prod.mk.injEq, Option.some.injEq,
        and_true] at h2
      subst h1
      subst h2
      obtain ⟨s, hs⟩ := (firstFailure_eq_none_iff _).mp hf1 v (List.getElem?_mem hi)
      refine ⟨fieldString v, by simp [hi], by simp [hj], ?_⟩
      rw [convert_single, hs]
      simp [fieldString, hs]

/-- Witness of C18: the nullable string field `b` at index 1 of
`[int8, string]` and at index 0 of `[string, bool]`. -/
theorem per_field_independence_witness :
    ∃ str : String,
      (["name=a, type=INT32, convertedtype=INT_8, repetitiontype=OPTIONAL",
        "name=b, type=BYTE_ARRAY, convertedtype=UTF8, repetitiontype=OPTIONAL"] :
          List String)[1]? = some str ∧
      (["name=b, type=BYTE_ARRAY, convertedtype=UTF8, repetitiontype=OPTIONAL",
        "name=c, type=BOOLEAN, repetitiontype=REQUIRED"] : List String)[0]? = some str ∧
      ConvertArrowToParquetSchema ⟨[⟨"b", .STRING, true⟩]⟩ = .returned (some [str], none) :=
  per_field_independence ⟨[⟨"a", .INT8, true⟩, ⟨"b", .STRING, true⟩]⟩
    ⟨[⟨"b", .STRING, true⟩, ⟨"c", .BOOL, false⟩]⟩
    ["name=a, type=INT32, convertedtype=INT_8, repetitiontype=OPTIONAL",
      "name=b, type=BYTE_ARRAY, convertedtype=UTF8, repetitiontype=OPTIONAL"]
    ["name=b, type=BYTE_ARRAY, convertedtype=UTF8, repetitiontype=OPTIONAL",
      "name=c, type=BOOLEAN, repetitiontype=REQUIRED"]
    1 0 ⟨"b", .STRING, true⟩ (by decide) (by decide) (by decide) (by decide)

/-! ### The tree shape of the schema-element list -/

/-- C15 as stated fails: on the list of 2147483648 fields `a` of type int32,
`NewSchemaHandlerFromArrow` returns a handler whose schema-element list has
2147483649 elements, while the sum of the declared child counts plus 1 is
-2147483647. -/
theorem child_count_sum_wraps :
    ∃ h : SchemaHandler,
      NewSchemaHandlerFromArrow StringToTag NewSchemaElementFromTagMap
          ⟨List.replicate 2147483648 ⟨"a", .INT32, false⟩⟩ = .returned (some h, none) ∧
      h.SchemaElements.length = 2147483649 ∧
      childCountSum h.SchemaElements + 1 = -2147483647 ∧
      childCountSum h.SchemaElements + 1 ≠ (h.SchemaElements.length : Int) := by
  have hv : fieldStep ⟨"a", .INT32, false⟩ =
      .assign "name=a, type=INT32, repetitiontype=REQUIRED" := by decide
  have hf : StringToTag "name=a, type=INT32, repetitiontype=REQUIRED" =
      .ok ⟨"a", "a", "INT32", "", .REQUIRED⟩ := by rfl
  have hg : NewSchemaElementFromTagMap ⟨"a", "a", "INT32", "", .REQUIRED⟩ =
      .ok ⟨some .INT32, some .REQUIRED, "a", none, none⟩ := by rfl
  have h := newHandler_replicate StringToTag NewSchemaElementFromTagMap 2147483648 _ _ _ _
    hv hf hg
  have hlen : (rootElement 2147483648 ::
      List.replicate 2147483648
        (SchemaElement.mk (some .INT32) (some .REQUIRED) "a" none none)).length =
      2147483649 := by
    rw [List.length_cons, List.length_replicate]
  have hsum : childCountSum (rootElement 2147483648 ::
      List.replicate 2147483648
        (SchemaElement.mk (some .INT32) (some .REQUIRED) "a" none none)) = -2147483648 := by
    rw [childCountSum_root _ _ (fun el hel => by rw [List.eq_of_mem_replicate hel])]
    decide
  refine ⟨_, h, hlen, ?_, ?_⟩
  · show childCountSum (rootElement 2147483648 :: _) + 1 = -2147483647
    rw [hsum]
    decide
  · show childCountSum (rootElement 2147483648 :: _) + 1 ≠ (((rootElement 2147483648 ::
      List.replicate 2147483648
        (SchemaElement.mk (some .INT32) (some .REQUIRED) "a" none none)).length : Nat) : Int)
    rw [hsum, hlen]
    decide

/-- C15, amended: for every field list of length `N` on which
`NewSchemaHandlerFromArrow` returns a handler, when every element that the
helper `NewSchemaElementFromTagMap` builds is a leaf (no `NumChildren`, a
physical type): the root at index 0 is the only element of the schema-element
list with `NumChildren` set, every element at index at least 1 is a leaf with
`NumChildren` absent and a physical type present, the sum of the declared child
counts is `int32(N)`, and that sum plus 1 is the length of the list when
`N < 2^31`. -/
theorem tree_shape_invariant (f : String → Except String Tag)
    (g : Tag → Except String SchemaElement) (schema : Schema) (h : SchemaHandler)
    (e : Option String)
    (hleaf : ∀ (info : Tag) (leaf : SchemaElement), g info = .ok leaf →
      leaf.NumChildren = none ∧ leaf.Type_ ≠ none)
    (hret : NewSchemaHandlerFromArrow f g schema = .returned (some h, e)) :
    (∃ root : SchemaElement, h.SchemaElements[0]? = some root ∧
      root.NumChildren = some (int32 schema.Fields.length)) ∧
    (∀ (i : Nat) (el : SchemaElement), h.SchemaElements[i]? = some el →
      (el.NumChildren ≠ none ↔ i = 0)) ∧
    (∀ (i : Nat) (el : SchemaElement), 1 ≤ i → h.SchemaElements[i]? = some el →
      el.NumChildren = none ∧ el.Type_ ≠ none) ∧
    childCountSum h.SchemaElements = int32 schema.Fields.length ∧
    (schema.Fields.length < 2 ^ 31 →
      childCountSum h.SchemaElements + 1 = (h.SchemaElements.length : Int)) := by
  rw [newHandler_eq] at hret
  cases hff : firstFailure schema.Fields with
  | some msg => simp [hff] at hret
  | none =>
    simp only [hff] at hret
    have hok := handlerLoop_some f g _ _ _ h e hret
    rw [handlerLoop_ok f g _ _ _ hok] at hret
    simp only [GoResult.returned.injEq, Prod.mk.injEq, Option.some.injEq] at hret
    obtain ⟨hh, _⟩ := hret
    subst hh
    have hleaves : ∀ el ∈ (schema.Fields.map fieldString).map (leafOf f g),
        el.NumChildren = none ∧ el.Type_ ≠ none := by
      intro el hel
      obtain ⟨s, hs, rfl⟩ := List.mem_map.mp hel
      obtain ⟨info, leaf, hf, hg⟩ := hok s hs
      have : leafOf f g s = leaf := by simp [leafOf, tagOf, hf, hg]
      rw [this]
      exact hleaf info leaf hg
    have hat : ∀ (i : Nat) (el : SchemaElement), 1 ≤ i →
        ([rootElement schema.Fields.length] ++
          (schema.Fields.map fieldString).map (leafOf f g))[i]? = some el →
        el.NumChildren = none ∧ el.Type_ ≠ none := by
      intro i el hi hel
      obtain ⟨k, rfl⟩ : ∃ k, i = k + 1 := ⟨i - 1, by omega⟩
      have h1 : ([rootElement schema.Fields.length] ++
          (schema.Fields.map fieldString).map (leafOf f g))[k + 1]? =
          ((schema.Fields.map fieldString).map (leafOf f g))[k]? := by
        simp
      rw [h1] at hel
      exact hleaves el (List.getElem?_mem hel)
    have hsum : childCountSum ([rootElement schema.Fields.length] ++
        (schema.Fields.map fieldString).map (leafOf f g)) = int32 schema.Fields.length := by
      rw [List.singleton_append]
      exact childCountSum_root _ _ (fun el hel => (hleaves el hel).1)
    refine ⟨⟨rootElement schema.Fields.length, by simp, rootElement_numChildren _⟩, ?_, hat,
      hsum, ?_⟩
    · intro i el hel
      cases i with
      | zero =>
        simp only [List.singleton_append, List.getElem?_cons_zero, Option.some.injEq] at hel
        subst hel
        simp [rootElement_numChildren]
      | succ k =>
        have := (hat (k + 1) el (by omega) hel).1
        simp [this]
    · intro hlt
      rw [hsum, int32_of_lt _ hlt]
      simp

/-- Witness of C15, amended, with the helpers of the metadata grammar at the
field list `[int8, string]`: the child counts sum to 2 and the list has 3
elements. -/
theorem tree_shape_invariant_witness :
    ∃ h : SchemaHandler,
      NewSchemaHandlerFromArrow StringToTag NewSchemaElementFromTagMap
          ⟨[⟨"a", .INT8, true⟩, ⟨"b", .STRING, true⟩]⟩ = .returned (some h, none) ∧
      childCountSum h.SchemaElements = 2 ∧
      (∀ (i : Nat) (el : SchemaElement), 1 ≤ i → h.SchemaElements[i]? = some el →
        el.NumChildren = none ∧ el.Type_ ≠ none) :=
  ⟨(⟨[⟨none, some .REQUIRED, "Parquet45go45root", some 2, none⟩,
        ⟨some .INT32, some .OPTIONAL, "a", none, some .INT_8⟩,
        ⟨some .BYTE_ARRAY, some .OPTIONAL, "b", none, some .UTF8⟩],
      [⟨"Parquet45go45root", "Parquet45go45root", "", "", .REQUIRED⟩,
        ⟨"a", "a", "INT32", "INT_8", .OPTIONAL⟩,
        ⟨"b", "b", "BYTE_ARRAY", "UTF8", .OPTIONAL⟩]⟩ : SchemaHandler),
    by decide,
    (tree_shape_invariant StringToTag NewSchemaElementFromTagMap
      ⟨[⟨"a", .INT8, true⟩, ⟨"b", .STRING, true⟩]⟩ _ none
      NewSchemaElementFromTagMap_leaf (by decide)).2.2.2.1,
    (tree_shape_invariant StringToTag NewSchemaElementFromTagMap
      ⟨[⟨"a", .INT8, true⟩, ⟨"b", .STRING, true⟩]⟩ _ none
      NewSchemaElementFromTagMap_leaf (by decide)).2.2.1⟩

/-! ## Properties of the LZ4 codec -/

@[simp] theorem Exec.bind_def {α β : Type} (x : Exec α) (f : α → Exec β) :
    (x >>= f) = Exec.bind x f := rfl

@[simp] theorem Exec.pure_def {α : Type} (a : α) : (pure a : Exec α) = Exec.ok a := rfl

@[simp] theorem Exec.ok_bind {α β : Type} (a : α) (f : α → Exec β) :
    Exec.bind (Exec.ok a) f = f a := rfl

@[simp] theorem Exec.panic_bind {α β : Type} (f : α → Exec β) :
    Exec.bind (Exec.panic : Exec α) f = Exec.panic := rfl

@[simp] theorem Exec.outOfFuel_bind {α β : Type} (f : α → Exec β) :
    Exec.bind (Exec.outOfFuel : Exec α) f = Exec.outOfFuel := rfl

theorem index_eq_ok {s : List Byte} {i : Nat} {b : Byte} (h : s[i]? = some b) :
    index s i = .ok b := by
  simp [index, h]

namespace lz4

/-! ### Little-endian words -/

theorem or_shift_eq_add (x y i : Nat) (h : x < 2 ^ i) : x ||| y <<< i = x + y * 2 ^ i := by
  rw [Nat.lor_comm, Nat.shiftLeft_eq, Nat.mul_comm, ← Nat.mul_add_lt_is_or h, Nat.add_comm,
    Nat.mul_comm]

theorem word64_eq (b0 b1 b2 b3 b4 b5 b6 b7 : Byte) :
    (b0.toNat ||| b1.toNat <<< 8 ||| b2.toNat <<< 16 ||| b3.toNat <<< 24 |||
      b4.toNat <<< 32 ||| b5.toNat <<< 40 ||| b6.toNat <<< 48 ||| b7.toNat <<< 56) =
    b0.toNat + b1.toNat * 2 ^ 8 + b2.toNat * 2 ^ 16 + b3.toNat * 2 ^ 24 +
      b4.toNat * 2 ^ 32 + b5.toNat * 2 ^ 40 + b6.toNat * 2 ^ 48 + b7.toNat * 2 ^ 56 := by
  have h0 := UInt8.toNat_lt b0
  have h1 := UInt8.toNat_lt b1
  have h2 := UInt8.toNat_lt b2
  have h3 := UInt8.toNat_lt b3
  have h4 := UInt8.toNat_lt b4
  have h5 := UInt8.toNat_lt b5
  have h6 := UInt8.toNat_lt b6
  rw [or_shift_eq_add _ _ 8 h0, or_shift_eq_add _ _ 16 (by omega),
    or_shift_eq_add _ _ 24 (by omega), or_shift_eq_add _ _ 32 (by omega),
    or_shift_eq_add _ _ 40 (by omega), or_shift_eq_add _ _ 48 (by omega),
    or_shift_eq_add _ _ 56 (by omega)]

theorem word16_eq (b0 b1 : Byte) :
    (b0.toNat ||| b1.toNat <<< 8) = b0.toNat + b1.toNat * 2 ^ 8 :=
  or_shift_eq_add _ _ 8 (UInt8.toNat_lt b0)

theorem mod_eq_of_dvd_xor (a b n : Nat) (h : 2 ^ n ∣ a ^^^ b) : a % 2 ^ n = b % 2 ^ n := by
  apply Nat.eq_of_testBit_eq
  intro i
  simp only [Nat.testBit_mod_two_pow]
  by_cases hi : i < n
  · have hx : ((a ^^^ b) % 2 ^ n).testBit i = false := by
      rw [Nat.mod_eq_zero_of_dvd h]; simp
    simp only [Nat.testBit_mod_two_pow, hi, decide_True, Bool.true_and, Nat.testBit_xor] at hx
    simp only [hi, decide_True, Bool.true_and]
    cases ha : a.testBit i <;> cases hb : b.testBit i <;> simp_all
  · simp [hi]

theorem trailingZerosLoop_spec (n : Nat) :
    ∀ x : Nat, x ≠ 0 → x < 2 ^ n →
      2 ^ trailingZerosLoop n x ∣ x ∧ trailingZerosLoop n x < n := by
  induction n with
  | zero => intro x h0 hlt; simp at hlt; omega
  | succ n ih =>
    intro x h0 hlt
    unfold trailingZerosLoop
    by_cases hodd : x % 2 = 1
    · simp [hodd]
    · simp only [hodd, if_false]
      have hx2 : x / 2 ≠ 0 := by omega
      have hlt2 : x / 2 < 2 ^ n := by
        rw [Nat.pow_succ] at hlt; omega
      obtain ⟨hd, hl⟩ := ih (x / 2) hx2 hlt2
      refine ⟨?_, by omega⟩
      have hx : x = 2 * (x / 2) := by omega
      have hm : 2 ^ (1 + trailingZerosLoop n (x / 2)) = 2 * 2 ^ trailingZerosLoop n (x / 2) := by
        rw [Nat.add_comm, Nat.pow_succ, Nat.mul_comm]
      rw [hm]
      calc 2 * 2 ^ trailingZerosLoop n (x / 2) ∣ 2 * (x / 2) :=
            Nat.mul_dvd_mul (dvd_refl 2) hd
        _ = x := hx.symm

theorem trailingZeros64_spec (x : Nat) (h0 : x ≠ 0) (hlt : x < 2 ^ 64) :
    TrailingZeros64 x >>> 3 ≤ 7 ∧ 2 ^ (8 * (TrailingZeros64 x >>> 3)) ∣ x := by
  unfold TrailingZeros64
  simp only [h0, if_false]
  obtain ⟨hd, hl⟩ := trailingZerosLoop_spec 64 x h0 hlt
  rw [Nat.shiftRight_eq_div_pow]
  refine ⟨by omega, ?_⟩
  refine Nat.dvd_trans (Nat.pow_dvd_pow 2 ?_) hd
  omega

end lz4

namespace lz4

theorem Uint64_ok {l : List Byte} {a : Nat} (h : Uint64 l = .ok a) :
    ∃ (b0 b1 b2 b3 b4 b5 b6 b7 : Byte) (r : List Byte),
      l = b0 :: b1 :: b2 :: b3 :: b4 :: b5 :: b6 :: b7 :: r ∧
      a = b0.toNat + b1.toNat * 2 ^ 8 + b2.toNat * 2 ^ 16 + b3.toNat * 2 ^ 24 +
        b4.toNat * 2 ^ 32 + b5.toNat * 2 ^ 40 + b6.toNat * 2 ^ 48 + b7.toNat * 2 ^ 56 := by
  match l, h with
  | b0 :: b1 :: b2 :: b3 :: b4 :: b5 :: b6 :: b7 :: r, h =>
    simp only [Uint64, Exec.ok.injEq] at h
    exact ⟨b0, b1, b2, b3, b4, b5, b6, b7, r, rfl, by rw [← h, word64_eq]⟩

theorem Uint64_of_length (l : List Byte) (h : 8 ≤ l.length) : ∃ a, Uint64 l = .ok a := by
  match l, h with
  | b0 :: b1 :: b2 :: b3 :: b4 :: b5 :: b6 :: b7 :: r, _ => exact ⟨_, rfl⟩

theorem Uint64_length {l : List Byte} {a : Nat} (h : Uint64 l = .ok a) : 8 ≤ l.length := by
  obtain ⟨b0, b1, b2, b3, b4, b5, b6, b7, r, rfl, _⟩ := Uint64_ok h
  simp

theorem Uint32_of_length (l : List Byte) (h : 4 ≤ l.length) : ∃ a, Uint32 l = .ok a := by
  match l, h with
  | b0 :: b1 :: b2 :: b3 :: r, _ => exact ⟨_, rfl⟩

theorem Uint64_xor_zero {l1 l2 : List Byte} {a b : Nat} (h1 : Uint64 l1 = .ok a)
    (h2 : Uint64 l2 = .ok b) (hx : a ^^^ b = 0) : l1.take 8 = l2.take 8 := by
  obtain ⟨a0, a1, a2, a3, a4, a5, a6, a7, r1, rfl, ha⟩ := Uint64_ok h1
  obtain ⟨b0, b1, b2, b3, b4, b5, b6, b7, r2, rfl, hb⟩ := Uint64_ok h2
  have hab : a = b := Nat.xor_eq_zero.mp hx
  have := UInt8.toNat_lt a0; have := UInt8.toNat_lt a1; have := UInt8.toNat_lt a2
  have := UInt8.toNat_lt a3; have := UInt8.toNat_lt a4; have := UInt8.toNat_lt a5
  have := UInt8.toNat_lt a6; have := UInt8.toNat_lt a7
  have := UInt8.toNat_lt b0; have := UInt8.toNat_lt b1; have := UInt8.toNat_lt b2
  have := UInt8.toNat_lt b3; have := UInt8.toNat_lt b4; have := UInt8.toNat_lt b5
  have := UInt8.toNat_lt b6; have := UInt8.toNat_lt b7
  have e0 : a0 = b0 := UInt8.ext (by omega)
  have e1 : a1 = b1 := UInt8.ext (by omega)
  have e2 : a2 = b2 := UInt8.ext (by omega)
  have e3 : a3 = b3 := UInt8.ext (by omega)
  have e4 : a4 = b4 := UInt8.ext (by omega)
  have e5 : a5 = b5 := UInt8.ext (by omega)
  have e6 : a6 = b6 := UInt8.ext (by omega)
  have e7 : a7 = b7 := UInt8.ext (by omega)
  simp [e0, e1, e2, e3, e4, e5, e6, e7]

theorem Uint64_xor_ne_zero {l1 l2 : List Byte} {a b : Nat} (h1 : Uint64 l1 = .ok a)
    (h2 : Uint64 l2 = .ok b) (hx : a ^^^ b ≠ 0) :
    TrailingZeros64 (a ^^^ b) >>> 3 ≤ 7 ∧
      l1.take (TrailingZeros64 (a ^^^ b) >>> 3) = l2.take (TrailingZeros64 (a ^^^ b) >>> 3) := by
  obtain ⟨a0, a1, a2, a3, a4, a5, a6, a7, r1, rfl, ha⟩ := Uint64_ok h1
  obtain ⟨b0, b1, b2, b3, b4, b5, b6, b7, r2, rfl, hb⟩ := Uint64_ok h2
  have := UInt8.toNat_lt a0; have := UInt8.toNat_lt a1; have := UInt8.toNat_lt a2
  have := UInt8.toNat_lt a3; have := UInt8.toNat_lt a4; have := UInt8.toNat_lt a5
  have := UInt8.toNat_lt a6; have := UInt8.toNat_lt a7
  have := UInt8.toNat_lt b0; have := UInt8.toNat_lt b1; have := UInt8.toNat_lt b2
  have := UInt8.toNat_lt b3; have := UInt8.toNat_lt b4; have := UInt8.toNat_lt b5
  have := UInt8.toNat_lt b6; have := UInt8.toNat_lt b7
  have hlt : a ^^^ b < 2 ^ 64 := Nat.xor_lt_two_pow (by omega) (by omega)
  obtain ⟨hk, hd⟩ := trailingZeros64_spec _ hx hlt
  refine ⟨hk, ?_⟩
  have hm := mod_eq_of_dvd_xor _ _ _ hd
  generalize TrailingZeros64 (a ^^^ b) >>> 3 = k at hk hm ⊢
  interval_cases k
  · simp
  · have e0 : a0 = b0 := UInt8.ext (by omega)
    simp [e0]
  · have e0 : a0 = b0 := UInt8.ext (by omega)
    have e1 : a1 = b1 := UInt8.ext (by omega)
    simp [e0, e1]
  · have e0 : a0 = b0 := UInt8.ext (by omega)
    have e1 : a1 = b1 := UInt8.ext (by omega)
    have e2 : a2 = b2 := UInt8.ext (by omega)
    simp [e0, e1, e2]
  · have e0 : a0 = b0 := UInt8.ext (by omega)
    have e1 : a1 = b1 := UInt8.ext (by omega)
    have e2 : a2 = b2 := UInt8.ext (by omega)
    have e3 : a3 = b3 := UInt8.ext (by omega)
    simp [e0, e1, e2, e3]
  · have e0 : a0 = b0 := UInt8.ext (by omega)
    have e1 : a1 = b1 := UInt8.ext (by omega)
    have e2 : a2 = b2 := UInt8.ext (by omega)
    have e3 : a3 = b3 := UInt8.ext (by omega)
    have e4 : a4 = b4 := UInt8.ext (by omega)
    simp [e0, e1, e2, e3, e4]
  · have e0 : a0 = b0 := UInt8.ext (by omega)
    have e1 : a1 = b1 := UInt8.ext (by omega)
    have e2 : a2 = b2 := UInt8.ext (by omega)
    have e3 : a3 = b3 := UInt8.ext (by omega)
    have e4 : a4 = b4 := UInt8.ext (by omega)
    have e5 : a5 = b5 := UInt8.ext (by omega)
    simp [e0, e1, e2, e3, e4, e5]
  · have e0 : a0 = b0 := UInt8.ext (by omega)
    have e1 : a1 = b1 := UInt8.ext (by omega)
    have e2 : a2 = b2 := UInt8.ext (by omega)
    have e3 : a3 = b3 := UInt8.ext (by omega)
    have e4 : a4 = b4 := UInt8.ext (by omega)
    have e5 : a5 = b5 := UInt8.ext (by omega)
    have e6 : a6 = b6 := UInt8.ext (by omega)
    simp [e0, e1, e2, e3, e4, e5, e6]

end lz4

theorem index_of_lt (s : List Byte) (i : Nat) (h : i < s.length) :
    ∃ b, index s i = .ok b ∧ s[i]? = some b := by
  refine ⟨s[i], ?_, ?_⟩ <;> simp [index, List.getElem?_eq_getElem h]

namespace lz4

theorem matchLenLoop_spec (src : List Byte) (next si sn : Nat) (hnext : next < si)
    (hsn : sn + mfLimit ≤ src.length) :
    ∀ (fuel ml : Nat), sn - si + 8 ≤ ml + 8 * fuel → ml ≤ sn - si + 7 →
      (src.drop next).take ml = (src.drop si).take ml →
      ∃ r, matchLenLoop src next si sn fuel ml = .ok r ∧ r ≤ sn - si + 7 ∧
        (src.drop next).take r = (src.drop si).take r := by
  intro fuel
  induction fuel with
  | zero => intro ml h1 h2 _; omega
  | succ fuel ih =>
    intro ml h1 h2 heq
    unfold matchLenLoop
    by_cases hml : ml < sn - si
    · simp only [hml, if_true]
      have hm : mfLimit = 14 := rfl
      obtain ⟨a, ha⟩ := Uint64_of_length (src.drop (next + ml)) (by
        rw [List.length_drop]; omega)
      obtain ⟨b, hb⟩ := Uint64_of_length (src.drop (si + ml)) (by
        rw [List.length_drop]; omega)
      simp only [ha, hb, Exec.bind_def, Exec.ok_bind]
      by_cases hx : a ^^^ b = 0
      · simp only [hx, if_true]
        apply ih (ml + 8) (by omega) (by omega)
        rw [List.take_add, List.take_add (src.drop si), heq, List.drop_drop, List.drop_drop,
          Uint64_xor_zero ha hb hx]
      · simp only [hx, if_false, Exec.pure_def]
        obtain ⟨hk, hk2⟩ := Uint64_xor_ne_zero ha hb hx
        refine ⟨_, rfl, by omega, ?_⟩
        rw [List.take_add, List.take_add (src.drop si), heq, List.drop_drop, List.drop_drop, hk2]
    · simp only [hml, if_false, Exec.pure_def]
      exact ⟨ml, rfl, h2, heq⟩

theorem chainLoop_spec (src : List Byte) (chainTable : Nat → Nat) (si sn : Nat)
    (hsi : si < sn) (hsn : sn + mfLimit ≤ src.length)
    (ht : ∀ i, chainTable i = 0 ∨ chainTable i < si) :
    ∀ (try_ next mLen offset : Nat), (next = 0 ∨ next < si) →
      MatchOK src si sn mLen offset →
      ∃ r, chainLoop src chainTable si sn try_ next mLen offset = .ok r ∧
        MatchOK src si sn r.1 r.2 := by
  intro try_
  induction try_ with
  | zero => intro next mLen offset _ hm; exact ⟨(mLen, offset), rfl, hm⟩
  | succ try_ ih =>
    intro next mLen offset hn hm
    unfold chainLoop
    have hml : mLen ≤ sn - si + 7 := by
      rcases hm with h | h
      · omega
      · exact h.2.2.2.2.1
    have hmf : mfLimit = 14 := rfl
    by_cases hc : next > 0 ∧ (si : Int) - next < winSize
    · simp only [hc, and_self, if_true]
      have hnlt : next < si := by omega
      obtain ⟨a, ha, _⟩ := index_of_lt src (next + mLen) (by omega)
      obtain ⟨b, hb, _⟩ := index_of_lt src (si + mLen) (by omega)
      simp only [ha, hb, Exec.bind_def, Exec.ok_bind]
      by_cases hab : a ≠ b
      · simp only [hab, if_true, ne_eq, not_false_eq_true]
        exact ih _ _ _ (ht _) hm
      · simp only [hab, if_false]
        obtain ⟨r, hr, hr1, hr2⟩ := matchLenLoop_spec src next si sn hnlt hsn (sn - si + 1) 0
          (by omega) (by omega) (by simp)
        simp only [hr, Exec.ok_bind]
        by_cases hsmall : r < minMatch ∨ r ≤ mLen
        · simp only [hsmall, if_true]
          exact ih _ _ _ (ht _) hm
        · simp only [hsmall, if_false]
          apply ih _ _ _ (ht _)
          right
          have hw : winSize = 65536 := rfl
          refine ⟨by omega, by omega, by omega, by omega, hr1, ?_⟩
          have : si - (si - next) = next := by omega
          rw [this, hr2]
    · simp only [hc, if_false, Exec.pure_def]
      exact ⟨(mLen, offset), rfl, hm⟩

end lz4

namespace lz4

theorem setAt_apply (t : Nat → Nat) (k v i : Nat) :
    setAt t k v i = if i = k then v else t i := rfl

theorem TablesBelow.mono {c : CompressorHC} {b1 b2 : Nat} (h : TablesBelow c b1)
    (hle : b1 ≤ b2) : TablesBelow c b2 := by
  intro i
  obtain ⟨h1, h2⟩ := h i
  exact ⟨by omega, by omega⟩

theorem TablesBelow.insert {c : CompressorHC} {bound si : Nat} (h : TablesBelow c bound)
    (hsi : si < bound) (hk k : Nat) :
    TablesBelow { chainTable := setAt c.chainTable k (c.hashTable hk),
                  hashTable := setAt c.hashTable hk si } bound := by
  intro i
  obtain ⟨h1, h2⟩ := h i
  obtain ⟨h3, _⟩ := h hk
  simp only [setAt_apply]
  constructor
  · split <;> omega
  · split <;> omega

theorem insertLoop_spec (src : List Byte) :
    ∀ (n si match_ : Nat) (c : CompressorHC), si + n + 3 ≤ src.length →
      TablesBelow c (si + n) →
      ∃ c2, insertLoop src n si match_ c = .ok c2 ∧ TablesBelow c2 (si + n) := by
  intro n
  induction n with
  | zero => intro si match_ c _ h; exact ⟨c, rfl, h⟩
  | succ n ih =>
    intro si match_ c hlen h
    unfold insertLoop
    obtain ⟨b, hb, _⟩ := index_of_lt src (si + 3) (by omega)
    simp only [hb, Exec.bind_def, Exec.ok_bind]
    have h2 := TablesBelow.insert h (show si < si + (n + 1) by omega)
      (blockHashHC (match_ >>> 8 ||| b.toNat <<< 24)) (si &&& winMask)
    have e : si + (n + 1) = si + 1 + n := by omega
    rw [e] at h2 ⊢
    exact ih (si + 1) _ _ (by omega) h2

theorem putLenLoop_spec (cap : Nat) :
    ∀ (fuel l : Nat) (out : List Byte), l / 255 < fuel → out.length + l / 255 ≤ cap →
      putLenLoop cap fuel l out = .ok (l % 255, out ++ List.replicate (l / 255) 0xFF) := by
  intro fuel
  induction fuel with
  | zero => intro l out h; omega
  | succ fuel ih =>
    intro l out hf hc
    unfold putLenLoop
    by_cases hl : l ≥ 0xFF
    · have hput : put cap out 0xFF = .ok (out ++ [0xFF]) := by
        unfold put
        have : out.length < cap := by omega
        simp [this]
      simp only [hl, if_true, hput, Exec.bind_def, Exec.ok_bind]
      rw [ih (l - 0xFF) (out ++ [0xFF]) (by omega) (by simp; omega)]
      have e1 : (l - 0xFF) % 255 = l % 255 := by omega
      have e2 : l / 255 = (l - 0xFF) / 255 + 1 := by omega
      rw [e1, e2, List.replicate_succ]
      simp
    · have e2 : l / 255 = 0 := by omega
      have e1 : l % 255 = l := by omega
      simp [hl, e1, e2]

theorem length_encLen (l : Nat) : (encLen l).length = l / 255 + 1 := by
  simp [encLen]

theorem putLen_spec (cap l fuel : Nat) (out : List Byte) (hf : l / 255 < fuel)
    (hc : out.length + (encLen l).length ≤ cap) :
    (do
      let (l2, out) ← putLenLoop cap fuel l out
      put cap out (UInt8.ofNat l2)) = Exec.ok (out ++ encLen l) := by
  rw [length_encLen] at hc
  rw [putLenLoop_spec cap fuel l out hf (by omega)]
  simp only [Exec.bind_def, Exec.ok_bind, put]
  have : out.length + l / 255 < cap := by omega
  simp [this, encLen]

end lz4

namespace lz4

theorem put_ok (cap : Nat) (out : List Byte) (b : Byte) (h : out.length < cap) :
    put cap out b = .ok (out ++ [b]) := by
  simp [put, h]

theorem putAll_ok (cap : Nat) (out b : List Byte) (h : out.length + b.length ≤ cap) :
    putAll cap out b = .ok (out ++ b) := by
  simp [putAll, h]

theorem length_encHead (lLen mLen : Nat) :
    (encHead lLen mLen).length = if lLen < 0xF then 1 else 1 + ((lLen - 0xF) / 255 + 1) := by
  unfold encHead
  split
  · simp
  · simp [length_encLen]; omega

theorem length_encSeq (lits : List Byte) (offset mLen : Nat) :
    (encSeq lits offset mLen).length =
      (if lits.length < 0xF then 1 else 1 + ((lits.length - 0xF) / 255 + 1)) + lits.length + 2 +
        (if mLen ≥ 0xF then (mLen - 0xF) / 255 + 1 else 0) := by
  unfold encSeq
  simp only [List.length_append, length_encHead, List.length_cons, List.length_nil]
  split <;> split <;> simp [length_encLen]

theorem length_encLast (lits : List Byte) :
    (encLast lits).length =
      (if lits.length < 0xF then 1 else 1 + ((lits.length - 0xF) / 255 + 1)) + lits.length := by
  unfold encLast
  split
  · simp; omega
  · simp [length_encLen]; omega

theorem putHead_spec (cap lLen mLen : Nat) (out : List Byte)
    (hc : out.length + (encHead lLen mLen).length ≤ cap) :
    (if lLen < 0xF then
        put cap out (UInt8.ofNat ((if mLen < 0xF then mLen else 0xF) ||| (lLen <<< 4)))
      else do
        let out ← put cap out (UInt8.ofNat ((if mLen < 0xF then mLen else 0xF) ||| 0xF0))
        let (l, out) ← putLenLoop cap (lLen + 1) (lLen - 0xF) out
        put cap out (UInt8.ofNat l)) = Exec.ok (out ++ encHead lLen mLen) := by
  rw [length_encHead] at hc
  by_cases hl : lLen < 0xF
  · simp only [hl, if_true] at hc ⊢
    rw [put_ok _ _ _ (by omega)]
    simp [encHead, hl]
  · simp only [hl, if_false] at hc ⊢
    rw [put_ok _ _ _ (by omega)]
    simp only [Exec.bind_def, Exec.ok_bind]
    have h := putLen_spec cap (lLen - 0xF) (lLen + 1)
      (out ++ [UInt8.ofNat ((if mLen < 0xF then mLen else 0xF) ||| 0xF0)]) (by omega)
      (by simp [length_encLen]; omega)
    simp only [Exec.bind_def] at h
    rw [h]
    simp [encHead, hl]

theorem putSequence_spec (src : List Byte) (cap anchor lLen offset mLen : Nat)
    (out : List Byte) (hl : anchor + lLen ≤ src.length)
    (hc : out.length + (encSeq ((src.drop anchor).take lLen) offset mLen).length ≤ cap) :
    putSequence src cap anchor lLen offset mLen out =
      .ok (out ++ encSeq ((src.drop anchor).take lLen) offset mLen) := by
  have hlen : ((src.drop anchor).take lLen).length = lLen := by
    rw [List.length_take, List.length_drop]; omega
  rw [length_encSeq, hlen] at hc
  have hhl := length_encHead lLen mLen
  have c0 : out.length + (encHead lLen mLen).length ≤ cap := by
    rw [hhl]; omega
  have c1 : (out ++ encHead lLen mLen).length + ((src.drop anchor).take lLen).length ≤ cap := by
    rw [List.length_append, hlen, hhl]; omega
  have c2 : (out ++ encHead lLen mLen ++ (src.drop anchor).take lLen).length < cap := by
    rw [List.length_append, List.length_append, hlen, hhl]; omega
  have c3 : (out ++ encHead lLen mLen ++ (src.drop anchor).take lLen ++
      [UInt8.ofNat offset]).length < cap := by
    rw [List.length_append, List.length_append, List.length_append, hlen, hhl]
    simp only [List.length_cons, List.length_nil]; omega
  have hh := putHead_spec cap lLen mLen out c0
  simp only [Exec.bind_def] at hh
  simp only [putSequence, Exec.bind_def]
  rw [hh]
  simp only [Exec.ok_bind, hl, if_true, Exec.pure_def]
  rw [putAll_ok _ _ _ c1]
  simp only [Exec.ok_bind]
  rw [put_ok _ _ _ c2]
  simp only [Exec.ok_bind]
  rw [put_ok _ _ _ c3]
  simp only [Exec.ok_bind]
  by_cases hm : mLen ≥ 0xF
  · simp only [hm, if_true] at hc ⊢
    have c4 : (out ++ encHead lLen mLen ++ (src.drop anchor).take lLen ++
        [UInt8.ofNat offset] ++ [UInt8.ofNat (offset >>> 8)]).length +
        (encLen (mLen - 0xF)).length ≤ cap := by
      rw [List.length_append, List.length_append, List.length_append, List.length_append,
        hlen, hhl, length_encLen]
      simp only [List.length_cons, List.length_nil]; omega
    have h := putLen_spec cap (mLen - 0xF) (mLen + 1)
      (out ++ encHead lLen mLen ++ (src.drop anchor).take lLen ++ [UInt8.ofNat offset] ++
        [UInt8.ofNat (offset >>> 8)]) (by omega) c4
    simp only [Exec.bind_def] at h
    rw [h]
    simp [encSeq, hlen, hm]
  · simp only [hm, if_false] at hc ⊢
    simp [encSeq, hlen, hm]

theorem lastLiterals_spec (src : List Byte) (cap anchor : Nat) (out : List Byte)
    (hc : out.length + (encLast (src.drop anchor)).length ≤ cap) :
    lastLiterals src cap false anchor out = .ok (some (out ++ encLast (src.drop anchor))) := by
  have hlen : (src.drop anchor).length = src.length - anchor := List.length_drop _ _
  rw [length_encLast, hlen] at hc
  simp only [lastLiterals, Exec.bind_def, Bool.false_eq_true, false_and, if_false]
  by_cases hl : src.length - anchor < 0xF
  · simp only [hl, if_true] at hc ⊢
    have c1 : (out ++ [UInt8.ofNat ((src.length - anchor) <<< 4)]).length +
        (src.drop anchor).length ≤ cap := by
      rw [List.length_append, hlen]
      simp only [List.length_cons, List.length_nil]; omega
    rw [put_ok _ _ _ (by omega)]
    simp only [Exec.ok_bind]
    rw [putAll_ok _ _ _ c1]
    simp [encLast, hlen, hl]
  · simp only [hl, if_false] at hc ⊢
    rw [put_ok _ _ _ (by omega)]
    simp only [Exec.ok_bind]
    have h := putLen_spec cap (src.length - anchor - 0xF) (src.length - anchor + 1)
      (out ++ [0xF0]) (by omega) (by simp [length_encLen]; omega)
    simp only [Exec.bind_def] at h
    rw [h]
    have c1 : (out ++ [0xF0] ++ encLen (src.length - anchor - 0xF)).length +
        (src.drop anchor).length ≤ cap := by
      rw [List.length_append, List.length_append, hlen, length_encLen]
      simp only [List.length_cons, List.length_nil]; omega
    simp only [Exec.ok_bind]
    rw [putAll_ok _ _ _ c1]
    simp [encLast, hlen, hl]

end lz4

namespace lz4

/-! ### The decoder on the bytes written by the compressor -/

theorem token_bits : ∀ m < 16, ∀ l < 16,
    (m ||| l <<< 4) < 256 ∧ (m ||| l <<< 4) >>> 4 = l ∧ (m ||| l <<< 4) &&& 0xF = m := by
  decide

theorem toNat_ofNat_of_lt (n : Nat) (h : n < 256) : (UInt8.ofNat n).toNat = n := by
  show n % 256 = n
  exact Nat.mod_eq_of_lt h

theorem readLenLoop_cons (x : Byte) (rest : List Byte) (si len : Nat) :
    readLenLoop (x :: rest) si len =
      if x.toNat ≠ 0xFF then .ok (si + 1, len + x.toNat)
      else readLenLoop rest (si + 1) (len + x.toNat) := rfl

theorem readLenLoop_replicate (rest : List Byte) (r : Nat) (hr : r < 255) :
    ∀ (k si acc : Nat),
      readLenLoop (List.replicate k 0xFF ++ [UInt8.ofNat r] ++ rest) si acc =
        .ok (si + k + 1, acc + 255 * k + r) := by
  intro k
  induction k with
  | zero =>
    intro si acc
    have h1 : (UInt8.ofNat r).toNat = r := toNat_ofNat_of_lt r (by omega)
    have h2 : r ≠ 255 := by omega
    simp [readLenLoop_cons, h1, h2]
  | succ k ih =>
    intro si acc
    have h1 : (255 : UInt8).toNat = 255 := by decide
    rw [List.replicate_succ, List.cons_append, List.cons_append, readLenLoop_cons]
    simp only [h1, ne_eq, not_true_eq_false, if_false]
    rw [ih]
    have e1 : si + 1 + k + 1 = si + (k + 1) + 1 := by omega
    have e2 : acc + 255 + 255 * k + r = acc + 255 * (k + 1) + r := by omega
    rw [e1, e2]

theorem readLenLoop_encLen (l : Nat) (rest : List Byte) (si acc : Nat) :
    readLenLoop (encLen l ++ rest) si acc = .ok (si + (l / 255 + 1), acc + l) := by
  unfold encLen
  rw [readLenLoop_replicate rest (l % 255) (Nat.mod_lt _ (by omega))]
  have e1 : si + l / 255 + 1 = si + (l / 255 + 1) := by omega
  have e2 : acc + 255 * (l / 255) + l % 255 = acc + l := by omega
  rw [e1, e2]

theorem drop_add_of_drop_eq {comp A B : List Byte} {p : Nat} (h : comp.drop p = A ++ B) :
    comp.drop (p + A.length) = B := by
  rw [← List.drop_drop, h, List.drop_left]

theorem length_of_drop_eq {comp A : List Byte} {p : Nat} (h : comp.drop p = A)
    (hA : A ≠ []) : comp.length = p + A.length := by
  have h1 : (comp.drop p).length = A.length := by rw [h]
  rw [List.length_drop] at h1
  have h2 : 0 < A.length := List.length_pos.mpr hA
  omega

theorem index_of_drop_eq {comp rest : List Byte} {p : Nat} {b : Byte}
    (h : comp.drop p = b :: rest) : index comp p = .ok b := by
  have h1 : (comp.drop p)[0]? = some b := by rw [h]; simp
  rw [List.getElem?_drop] at h1
  exact index_eq_ok (by simpa using h1)

end lz4

namespace lz4

theorem copyLiterals_enc (comp : List Byte) (cap p mLen : Nat) (out lits rest : List Byte)
    (hd : comp.drop p = encHead lits.length mLen ++ lits ++ rest)
    (hcap : out.length + lits.length ≤ cap) :
    ∃ (t : Byte) (tl : List Byte), encHead lits.length mLen = t :: tl ∧
      t.toNat &&& 0xF = (if mLen < 0xF then mLen else 0xF) ∧
      copyLiterals comp cap t.toNat (p + 1) out =
        .ok (p + (encHead lits.length mLen).length + lits.length, out ++ lits) := by
  obtain ⟨m, hmdef⟩ : ∃ m, m = (if mLen < 0xF then mLen else 0xF) := ⟨_, rfl⟩
  have hm : m < 16 := by rw [hmdef]; split <;> omega
  rw [← hmdef]
  by_cases hL : lits.length < 0xF
  · obtain ⟨hb1, hb2, hb3⟩ := token_bits m hm lits.length (by omega)
    have henc : encHead lits.length mLen = [UInt8.ofNat (m ||| lits.length <<< 4)] := by
      simp [encHead, hL, hmdef]
    rw [henc] at hd ⊢
    have hd1 : comp.drop (p + 1) = lits ++ rest := by
      have := drop_add_of_drop_eq (A := [UInt8.ofNat (m ||| lits.length <<< 4)])
        (B := lits ++ rest) (by simpa using hd)
      simpa using this
    have hlen : comp.length = p + (1 + (lits.length + rest.length)) := by
      have := length_of_drop_eq hd (by simp)
      simp at this
      omega
    refine ⟨_, [], rfl, by rw [toNat_ofNat_of_lt _ hb1, hb3], ?_⟩
    rw [toNat_ofNat_of_lt _ hb1]
    simp only [copyLiterals, hb2]
    by_cases h0 : lits.length > 0
    · have hne : lits.length ≠ 0xF := by omega
      have hc2 : p + 1 + lits.length ≤ comp.length ∧ out.length + lits.length ≤ cap := by
        constructor <;> omega
      simp only [h0, if_true, hne, if_false, Exec.pure_def, Exec.bind_def, Exec.ok_bind, hc2,
        and_self, hd1, List.take_left, List.length_cons, List.length_nil]
    · have hnil : lits = [] := List.length_eq_zero.mp (by omega)
      subst hnil
      simp
  · obtain ⟨hb1, hb2, hb3⟩ := token_bits m hm 15 (by omega)
    have h240 : (15 <<< 4 : Nat) = 0xF0 := by decide
    rw [h240] at hb1 hb2 hb3
    have henc : encHead lits.length mLen =
        UInt8.ofNat (m ||| 0xF0) :: encLen (lits.length - 0xF) := by
      simp [encHead, hL, hmdef]
    rw [henc] at hd ⊢
    have hd1 : comp.drop (p + 1) = encLen (lits.length - 0xF) ++ (lits ++ rest) := by
      have := drop_add_of_drop_eq (A := [UInt8.ofNat (m ||| 0xF0)])
        (B := encLen (lits.length - 0xF) ++ (lits ++ rest)) (by simpa using hd)
      simpa using this
    have hd2 : comp.drop (p + 1 + ((lits.length - 0xF) / 255 + 1)) = lits ++ rest := by
      have := drop_add_of_drop_eq hd1
      rwa [length_encLen] at this
    have hlen : comp.length =
        p + (1 + ((lits.length - 0xF) / 255 + 1 + (lits.length + rest.length))) := by
      have := length_of_drop_eq hd (by simp)
      simp [length_encLen] at this
      omega
    refine ⟨_, _, rfl, by rw [toNat_ofNat_of_lt _ hb1, hb3], ?_⟩
    rw [toNat_ofNat_of_lt _ hb1]
    have h15 : 0xF + (lits.length - 0xF) = lits.length := by omega
    have hc2 : p + 1 + ((lits.length - 0xF) / 255 + 1) + lits.length ≤ comp.length ∧
        out.length + lits.length ≤ cap := by
      constructor <;> omega
    simp only [copyLiterals, hb2, gt_iff_lt, Nat.lt_add_one, Nat.zero_lt_succ, if_true, hd1,
      readLenLoop_encLen, Exec.bind_def, Exec.ok_bind, h15, hc2, and_self, hd2, List.take_left,
      Exec.pure_def, List.length_cons, length_encLen]
    simp
    omega

theorem copyMatch_take (src : List Byte) (offset mLen si : Nat) (hoff : 0 < offset)
    (hle : offset ≤ si) (hlen : si + mLen ≤ src.length)
    (hm : (src.drop (si - offset)).take mLen = (src.drop si).take mLen) :
    ∀ (m j : Nat), j + m = mLen →
      copyMatch offset m (src.take (si + j)) = .ok (src.take (si + mLen)) := by
  intro m
  induction m with
  | zero => intro j hj; simp only [copyMatch, Exec.pure_def]; rw [← hj]; rfl
  | succ m ih =>
    intro j hj
    have hj1 : j < mLen := by omega
    have hlt : si + j < src.length := by omega
    have hlen2 : (src.take (si + j)).length = si + j := by
      rw [List.length_take]; omega
    have h1 : ((src.drop (si - offset)).take mLen)[j]? = ((src.drop si).take mLen)[j]? := by
      rw [hm]
    rw [List.getElem?_take, List.getElem?_take, List.getElem?_drop, List.getElem?_drop] at h1
    simp only [hj1, if_true] at h1
    have h2 : src[si + j]? = some src[si + j] := List.getElem?_eq_getElem hlt
    have h3 : (src.take (si + j))[si + j - offset]? = some src[si + j] := by
      rw [List.getElem?_take]
      have : si + j - offset < si + j := by omega
      simp only [this, if_true]
      have e : si + j - offset = si - offset + j := by omega
      rw [e, h1, h2]
    unfold copyMatch
    rw [hlen2, index_eq_ok h3]
    simp only [Exec.bind_def, Exec.ok_bind]
    have h4 : src.take (si + j) ++ [src[si + j]] = src.take (si + (j + 1)) := by
      rw [← Nat.add_assoc, List.take_succ, h2]; rfl
    rw [h4]
    exact ih (j + 1) (by omega)

theorem copyMatch_spec (src : List Byte) (offset mLen si : Nat) (hoff : 0 < offset)
    (hle : offset ≤ si) (hlen : si + mLen ≤ src.length)
    (hm : (src.drop (si - offset)).take mLen = (src.drop si).take mLen) :
    copyMatch offset mLen (src.take si) = .ok (src.take (si + mLen)) :=
  copyMatch_take src offset mLen si hoff hle hlen hm mLen 0 (by omega)

end lz4

namespace lz4

theorem Uint16_offset (offset : Nat) (h : offset < 65536) (rest : List Byte) :
    Uint16 (UInt8.ofNat offset :: UInt8.ofNat (offset >>> 8) :: rest) = .ok offset := by
  have h1 : (UInt8.ofNat offset).toNat = offset % 256 := rfl
  have h2 : (UInt8.ofNat (offset >>> 8)).toNat = offset / 256 := by
    show (offset >>> 8) % 256 = offset / 256
    rw [Nat.shiftRight_eq_div_pow]
    omega
  simp only [Uint16]
  rw [word16_eq, h1, h2]
  congr 1
  omega

theorem decode_seq (comp : List Byte) (cap p : Nat) (o lits tail o2 : List Byte)
    (offset mLen : Nat)
    (hd : comp.drop p = encSeq lits offset mLen ++ tail)
    (hoff : 0 < offset) (hoff2 : offset < 65536) (hoff3 : offset ≤ (o ++ lits).length)
    (hcap : (o ++ lits).length + (mLen + minMatch) ≤ cap)
    (hcopy : copyMatch offset (mLen + minMatch) (o ++ lits) = .ok o2) (fuel : Nat) :
    decodeLoop comp cap (fuel + 1) p o =
      decodeLoop comp cap fuel (p + (encSeq lits offset mLen).length) o2 := by
  have hmm : minMatch = 4 := rfl
  -- the bytes after the literals
  obtain ⟨extM, hextM⟩ : ∃ e, e = (if mLen ≥ 0xF then encLen (mLen - 0xF) else []) := ⟨_, rfl⟩
  have hd0 : comp.drop p = encHead lits.length mLen ++ lits ++
      (UInt8.ofNat offset :: UInt8.ofNat (offset >>> 8) :: (extM ++ tail)) := by
    rw [hd, hextM]
    simp [encSeq]
  have hlenSeq : (encSeq lits offset mLen).length =
      (encHead lits.length mLen).length + lits.length + 2 + extM.length := by
    rw [hextM]
    simp [encSeq]
    omega
  have hcapL : o.length + lits.length ≤ cap := by
    rw [List.length_append] at hcap; omega
  obtain ⟨t, tl, hhead, hnib, hcl⟩ := copyLiterals_enc comp cap p mLen o lits _ hd0 hcapL
  have hidx : index comp p = .ok t := by
    rw [hhead] at hd0
    exact index_of_drop_eq (by simpa using hd0)
  have hlen : comp.length = p + ((encHead lits.length mLen).length + lits.length + 2 +
      extM.length + tail.length) := by
    have := length_of_drop_eq hd0 (by rw [hhead]; simp)
    simp at this
    omega
  have hd1 : comp.drop (p + (encHead lits.length mLen).length + lits.length) =
      UInt8.ofNat offset :: UInt8.ofNat (offset >>> 8) :: (extM ++ tail) := by
    have := drop_add_of_drop_eq hd0
    rw [List.length_append, ← Nat.add_assoc] at this
    exact this
  have hd2 : comp.drop (p + (encHead lits.length mLen).length + lits.length + 2) =
      extM ++ tail := by
    have := drop_add_of_drop_eq (A := [UInt8.ofNat offset, UInt8.ofNat (offset >>> 8)])
      (B := extM ++ tail) (by simpa using hd1)
    simpa using this
  have hp : p < comp.length := by
    have : 0 < (encHead lits.length mLen).length := by rw [hhead]; simp
    omega
  have hc1 : (p + (encHead lits.length mLen).length + lits.length = comp.length) = False :=
    eq_false (by omega)
  have hc2 : ¬ (p + (encHead lits.length mLen).length + lits.length ≥ comp.length) := by
    omega
  have hoffne : offset ≠ 0 := by omega
  have hc3 : ¬ ((o ++ lits).length < offset) := by omega
  rw [decodeLoop]
  simp only [hp, if_true, hidx, Exec.bind_def, Exec.ok_bind, hcl, hc1, false_and, hc2, if_false, hd1,
    Uint16_offset offset hoff2, hoffne, hnib, hd2, hc3]
  by_cases hm : mLen ≥ 0xF
  · have hm1 : ¬ mLen < 0xF := by omega
    have hext : extM = encLen (mLen - 0xF) := by rw [hextM]; simp [hm]
    have e19 : 0xF + minMatch + (mLen - 0xF) = mLen + minMatch := by omega
    have hc4 : ¬ ((o ++ lits).length + (mLen + minMatch) > cap) := by omega
    simp only [hm1, if_false, if_true, hext, readLenLoop_encLen, Exec.ok_bind, e19, hc4, hcopy,
      Nat.add_comm minMatch 0xF]
    rw [hlenSeq, hext, length_encLen]
    congr 1
    omega
  · have hm1 : mLen < 0xF := by omega
    have hext : extM = [] := by rw [hextM]; simp [hm]
    have hne : ¬ (mLen + minMatch = minMatch + 0xF) := by omega
    have hc4 : ¬ ((o ++ lits).length + (mLen + minMatch) > cap) := by omega
    simp only [hm1, if_true, hne, if_false, Exec.pure_def, Exec.ok_bind, hc4, hcopy]
    rw [hlenSeq, hext]
    congr 1
    simp only [List.length_nil]
    omega

theorem encLast_eq (lits : List Byte) : encLast lits = encHead lits.length 0 ++ lits := by
  unfold encLast encHead
  split <;> simp

theorem decode_last (comp : List Byte) (cap p : Nat) (o lits : List Byte)
    (hd : comp.drop p = encLast lits) (hcap : o.length + lits.length ≤ cap) (fuel : Nat) :
    decodeLoop comp cap (fuel + 1) p o = .ok (o ++ lits) := by
  rw [encLast_eq] at hd
  have hd0 : comp.drop p = encHead lits.length 0 ++ lits ++ [] := by simpa using hd
  obtain ⟨t, tl, hhead, hnib, hcl⟩ := copyLiterals_enc comp cap p 0 o lits [] hd0 hcap
  have hidx : index comp p = .ok t := by
    rw [hhead] at hd0
    exact index_of_drop_eq (by simpa using hd0)
  have hlen : comp.length = p + (encHead lits.length 0).length + lits.length := by
    have := length_of_drop_eq hd0 (by rw [hhead]; simp)
    simp at this
    omega
  have hp : p < comp.length := by
    have : 0 < (encHead lits.length 0).length := by rw [hhead]; simp
    omega
  simp only [Nat.lt_add_one, Nat.zero_lt_succ, if_true] at hnib
  have hnib2 : t.toNat &&& 0xF = 0 := by simpa using hnib
  rw [decodeLoop]
  simp only [hp, if_true, hidx, Exec.bind_def, Exec.ok_bind, hcl, ← hlen, hnib2, and_self,
    Exec.pure_def]

end lz4

namespace lz4

/-! ### The main loop of the compressor -/

theorem Decodes.refl (src : List Byte) (a : Nat) : Decodes src [] a a := by
  intro comp p tail cap _ _
  exact ⟨0, by simp, fun fuel => by simp⟩

theorem Decodes.trans {src mid1 mid2 : List Byte} {a a2 a3 : Nat}
    (h1 : Decodes src mid1 a a2) (h2 : Decodes src mid2 a2 a3) :
    Decodes src (mid1 ++ mid2) a a3 := by
  intro comp p tail cap hd hcap
  obtain ⟨k1, hk1, hf1⟩ := h1 comp p (mid2 ++ tail) cap (by simpa using hd) hcap
  have hd2 : comp.drop (p + mid1.length) = mid2 ++ tail := by
    have := drop_add_of_drop_eq (A := mid1) (B := mid2 ++ tail) (by simpa using hd)
    exact this
  obtain ⟨k2, hk2, hf2⟩ := h2 comp (p + mid1.length) tail cap hd2 hcap
  refine ⟨k2 + k1, by simp; omega, fun fuel => ?_⟩
  rw [← Nat.add_assoc, hf1, hf2, List.length_append, Nat.add_assoc]

theorem take_append_literals (src : List Byte) (anchor si : Nat) (h : anchor ≤ si) :
    src.take anchor ++ (src.drop anchor).take (si - anchor) = src.take si := by
  have e : si = anchor + (si - anchor) := by omega
  conv_rhs => rw [e, List.take_add]

theorem Decodes.seq (src : List Byte) (anchor si offset mLen : Nat) (ha : anchor ≤ si)
    (hlen : si + (mLen + minMatch) ≤ src.length) (hoff : 0 < offset) (hle : offset ≤ si)
    (hw : offset < winSize)
    (hm : (src.drop (si - offset)).take (mLen + minMatch) =
      (src.drop si).take (mLen + minMatch)) :
    Decodes src (encSeq ((src.drop anchor).take (si - anchor)) offset mLen) anchor
      (si + (mLen + minMatch)) := by
  intro comp p tail cap hd hcap
  have hsi : (src.take si).length = si := by rw [List.length_take]; omega
  refine ⟨1, ?_, fun fuel => ?_⟩
  · rw [length_encSeq]; omega
  · apply decode_seq comp cap p (src.take anchor) _ tail _ offset mLen hd hoff hw
    · rw [take_append_literals src anchor si ha, hsi]; exact hle
    · rw [take_append_literals src anchor si ha, hsi]; omega
    · rw [take_append_literals src anchor si ha]
      exact copyMatch_spec src offset (mLen + minMatch) si hoff hle hlen hm

theorem encSeq_bounds (lits : List Byte) (offset mLen anchor outLen : Nat)
    (h1 : outLen ≤ anchor + anchor / 255) (h2 : anchor ≤ 255 * outLen) :
    outLen + (encSeq lits offset mLen).length ≤
        (anchor + lits.length + (mLen + minMatch)) +
          (anchor + lits.length + (mLen + minMatch)) / 255 ∧
      anchor + lits.length + (mLen + minMatch) ≤
        255 * (outLen + (encSeq lits offset mLen).length) := by
  have hmm : minMatch = 4 := rfl
  rw [length_encSeq]
  split <;> split <;> constructor <;> omega

end lz4

namespace lz4

theorem compressLoop_spec (src : List Byte) (cap sn depth : Nat)
    (hsn : sn + mfLimit = src.length) (hcap : CompressBlockBound src.length ≤ cap) :
    ∀ (fuel si anchor : Nat) (out : List Byte) (c : CompressorHC),
      (si < sn → sn < si + fuel) → 0 < fuel → anchor ≤ si → anchor ≤ sn + 7 →
      TablesBelow c si → out.length ≤ anchor + anchor / 255 → anchor ≤ 255 * out.length →
      ∃ (anchor2 : Nat) (mid : List Byte),
        compressLoop src cap sn depth fuel si anchor out c = .ok (anchor2, out ++ mid) ∧
        anchor2 ≤ sn + 7 ∧
        (out ++ mid).length ≤ anchor2 + anchor2 / 255 ∧
        anchor2 ≤ 255 * (out ++ mid).length ∧
        Decodes src mid anchor anchor2 := by
  have hmf : mfLimit = 14 := rfl
  have hmm : minMatch = 4 := rfl
  have hws : winSize = 65536 := rfl
  intro fuel
  induction fuel with
  | zero => intro si anchor out c _ h; omega
  | succ fuel ih =>
    intro si anchor out c hf _ ha ha7 ht ho1 ho2
    rw [compressLoop]
    by_cases hsi : si < sn
    · simp only [hsi, if_true]
      obtain ⟨w, hw⟩ := Uint32_of_length (src.drop si) (by rw [List.length_drop]; omega)
      obtain ⟨⟨mLen, offset⟩, hch, hmok⟩ := chainLoop_spec src c.chainTable si sn hsi
        (by omega) (fun i => (ht i).2) depth (c.hashTable (blockHashHC w)) 0 0
        ((ht _).1) (Or.inl rfl)
      simp only [hw, hch, Exec.bind_def, Exec.ok_bind]
      have ht1 : TablesBelow
          { chainTable := setAt c.chainTable (si &&& winMask) (c.hashTable (blockHashHC w)),
            hashTable := setAt c.hashTable (blockHashHC w) si } (si + 1) :=
        TablesBelow.insert (ht.mono (by omega)) (by omega) _ _
      by_cases hm0 : mLen = 0
      · simp only [hm0, if_true]
        generalize (si - anchor) >>> adaptSkipLog = skip
        exact ih _ anchor out _ (fun _ => by have := hf hsi; omega) (by have := hf hsi; omega)
          (by omega) ha7 (ht1.mono (by omega)) ho1 ho2
      · simp only [hm0, if_false]
        rcases hmok with h0 | ⟨hm4, hoff, hle, hw2, hml, hmeq⟩
        · exact absurd h0 hm0
        simp only at hm4 hoff hle hw2 hml hmeq
        obtain ⟨ws, hwsdef⟩ : ∃ ws, ws =
            (if si + mLen - winSize > si + 1 then si + mLen - winSize else si + 1) := ⟨_, rfl⟩
        rw [← hwsdef]
        have hws1 : si + 1 ≤ ws := by rw [hwsdef]; split <;> omega
        have hws2 : ws ≤ si + mLen := by rw [hwsdef]; split <;> omega
        have hwn : ws + (si + mLen - ws) = si + mLen := by omega
        obtain ⟨c2, hins, ht2⟩ := insertLoop_spec src (si + mLen - ws) ws w _
          (by rw [hwn]; omega) (by rw [hwn]; exact ht1.mono (by omega))
        rw [hwn] at ht2
        have hlitlen : ((src.drop anchor).take (si - anchor)).length = si - anchor := by
          rw [List.length_take, List.length_drop]; omega
        have hmsub : mLen - minMatch + minMatch = mLen := by omega
        have hA : anchor + (si - anchor) + (mLen - minMatch + minMatch) = si + mLen := by omega
        obtain ⟨hb1, hb2⟩ := encSeq_bounds ((src.drop anchor).take (si - anchor)) offset
          (mLen - minMatch) anchor out.length ho1 ho2
        rw [hlitlen, hA] at hb1 hb2
        have hput := putSequence_spec src cap anchor (si - anchor) offset (mLen - minMatch) out
          (by omega) (by
            have : CompressBlockBound src.length = src.length + src.length / 255 + 16 := rfl
            omega)
        simp only [hins, hput, Exec.ok_bind]
        obtain ⟨anchor2, mid, hrec, hr1, hr2, hr3, hdec⟩ := ih (si + mLen) (si + mLen)
          (out ++ encSeq ((src.drop anchor).take (si - anchor)) offset (mLen - minMatch)) c2
          (fun _ => by have := hf hsi; omega) (by have := hf hsi; omega) (Nat.le_refl _)
          (by omega) ht2 (by rw [List.length_append]; exact hb1)
          (by rw [List.length_append]; exact hb2)
        refine ⟨anchor2,
          encSeq ((src.drop anchor).take (si - anchor)) offset (mLen - minMatch) ++ mid,
          by rw [hrec, List.append_assoc], hr1, by rw [← List.append_assoc]; exact hr2,
          by rw [← List.append_assoc]; exact hr3, ?_⟩
        refine Decodes.trans ?_ hdec
        have hseq := Decodes.seq src anchor si offset (mLen - minMatch) ha (by omega) hoff hle
          hw2 (by rw [hmsub]; exact hmeq)
        rw [hmsub] at hseq
        exact hseq
    · simp only [hsi, if_false, Exec.pure_def]
      exact ⟨anchor, [], by simp, ha7, by simpa using ho1, by simpa using ho2, Decodes.refl _ _⟩

end lz4

namespace lz4

/-! ### The block compressor and the block decoder -/

theorem compressBody_spec (src : List Byte) (cap depth : Nat)
    (hcap : CompressBlockBound src.length ≤ cap) :
    ∃ comp : List Byte,
      compressBody src cap depth = .ok (some comp) ∧
      comp.length ≤ CompressBlockBound src.length ∧
      0 < comp.length ∧
      src.length ≤ 255 * comp.length ∧
      ∀ capd, src.length ≤ capd → decodeLoop comp capd (comp.length + 1) 0 [] = .ok src := by
  have hmf : mfLimit = 14 := rfl
  have hbound : CompressBlockBound src.length = src.length + src.length / 255 + 16 := rfl
  have hnc : decide (cap < CompressBlockBound src.length) = false := by
    simp only [decide_eq_false_iff_not]; omega
  simp only [compressBody, hnc]
  by_cases hsn : (src.length : Int) - (mfLimit : Nat) ≤ 0
  · simp only [hsn, if_true]
    have hlenL : (encLast src).length = 1 + src.length := by
      rw [length_encLast]
      have : src.length < 0xF := by omega
      simp [this]
    have hl := lastLiterals_spec src cap 0 [] (by
      simp only [List.drop_zero, List.length_nil]; omega)
    simp only [List.drop_zero, List.nil_append] at hl
    refine ⟨encLast src, hl, by omega, by omega, by omega, fun capd hc => ?_⟩
    have := decode_last (encLast src) capd 0 [] src (by simp) (by simpa using hc)
      (encLast src).length
    simpa using this
  · simp only [hsn, if_false]
    have hsnat : ((src.length : Int) - (mfLimit : Nat)).toNat + mfLimit = src.length := by
      omega
    generalize ((src.length : Int) - (mfLimit : Nat)).toNat = sn at hsnat
    generalize (if depth = 0 then winSize else depth) = depth2
    obtain ⟨anchor2, mid, hloop, ha7, hb1, hb2, hdec⟩ :=
      compressLoop_spec src cap sn depth2 hsnat hcap (src.length + 1) 0 0 []
        { hashTable := fun _ => 0, chainTable := fun _ => 0 }
        (fun _ => by omega) (by omega) (Nat.le_refl _) (by omega)
        (fun i => ⟨Or.inl rfl, Or.inl rfl⟩) (by simp) (by simp)
    simp only [List.nil_append] at hloop hb1 hb2
    have hR : (src.drop anchor2).length = src.length - anchor2 := List.length_drop _ _
    have hlenL := length_encLast (src.drop anchor2)
    rw [hR] at hlenL
    have hl := lastLiterals_spec src cap anchor2 mid (by
      rw [hlenL]; split <;> omega)
    simp only [hloop, Exec.bind_def, Exec.ok_bind, Bool.false_eq_true, false_and, if_false, hl]
    have hlen : (mid ++ encLast (src.drop anchor2)).length =
        mid.length + (encLast (src.drop anchor2)).length := List.length_append _ _
    have hLpos : 0 < (encLast (src.drop anchor2)).length := by
      rw [hlenL]; split <;> omega
    refine ⟨mid ++ encLast (src.drop anchor2), rfl, ?_, by omega, ?_, fun capd hc => ?_⟩
    · rw [hlen, hlenL]; split <;> omega
    · rw [hlen, hlenL]; split <;> omega
    · obtain ⟨k, hk, hfu⟩ := hdec (mid ++ encLast (src.drop anchor2)) 0
        (encLast (src.drop anchor2)) capd (by simp) hc
      obtain ⟨r, hr⟩ : ∃ r, mid.length = k + r := ⟨mid.length - k, by omega⟩
      obtain ⟨q, hq⟩ : ∃ q, (encLast (src.drop anchor2)).length = q + 1 :=
        ⟨(encLast (src.drop anchor2)).length - 1, by omega⟩
      have hfuel : (mid ++ encLast (src.drop anchor2)).length + 1 = (r + q + 1 + 1) + k := by
        rw [hlen, hr, hq]; omega
      have h0 : ([] : List Byte) = src.take 0 := by simp
      have hcapd : (src.take anchor2).length + (src.drop anchor2).length ≤ capd := by
        have hle : anchor2 ≤ src.length := by omega
        rw [List.length_take, hR, Nat.min_eq_left hle, Nat.add_sub_cancel' hle]
        exact hc
      rw [hfuel, h0, hfu, Nat.zero_add]
      have := decode_last (mid ++ encLast (src.drop anchor2)) capd mid.length
        (src.take anchor2) (src.drop anchor2) (by simp) hcapd (r + q + 1)
      rw [this, List.take_append_drop]

end lz4

theorem Compress_spec (x : List Byte) :
    ∃ comp : List Byte, Compress x = .ok comp ∧
      comp.length ≤ lz4.CompressBlockBound x.length ∧ 0 < comp.length ∧
      x.length ≤ 255 * comp.length ∧
      ∀ capd, x.length ≤ capd →
        lz4.decodeLoop comp capd (comp.length + 1) 0 [] = .ok x := by
  obtain ⟨comp, hbody, h1, h2, h3, h4⟩ :=
    lz4.compressBody_spec x (lz4.CompressBlockBound x.length) 9 (Nat.le_refl _)
  refine ⟨comp, ?_, h1, h2, h3, h4⟩
  have hres : (makeBytes (lz4.CompressBlockBound x.length)).length =
      lz4.CompressBlockBound x.length := by simp [makeBytes]
  simp only [Compress, lz4.CompressBlock, hres, hbody, Exec.bind_def, Exec.ok_bind, sliceTo]
  have hle : comp.length ≤ (comp ++ List.drop comp.length
      (makeBytes (lz4.CompressBlockBound x.length))).length := by
    rw [List.length_append]; omega
  simp [hle]

theorem Uncompress_spec (comp x : List Byte) (hpos : 0 < comp.length)
    (hdec : lz4.decodeLoop comp (255 * comp.length) (comp.length + 1) 0 [] = .ok x) :
    Uncompress comp = .ok (x, none) := by
  have hres : (makeBytes (255 * comp.length)).length = 255 * comp.length := by
    simp [makeBytes]
  have hne : ¬ comp.length = 0 := by omega
  simp only [Uncompress, lz4.UncompressBlock, hne, if_false, hres, hdec, Exec.bind_def,
    Exec.ok_bind, sliceTo]
  have hle : x.length ≤ (x ++ List.drop x.length (makeBytes (255 * comp.length))).length := by
    rw [List.length_append]; omega
  simp [hle]

/-- C10: codec round trip. For every byte sequence `x`, `Compress` returns a
block, and `Uncompress` of that block returns `x` with a nil error; for the
empty sequence the block is the single byte `0x00`. -/
theorem compress_uncompress_roundtrip (x : List Byte) :
    (∃ c : List Byte, Compress x = .ok c ∧ Uncompress c = .ok (x, none)) ∧
      Compress [] = .ok [0] ∧ Uncompress [0] = .ok ([], none) := by
  refine ⟨?_, by decide, Uncompress_spec [0] [] (by decide) (by decide)⟩
  obtain ⟨comp, hc, _, hpos, hmargin, hdec⟩ := Compress_spec x
  exact ⟨comp, hc, Uncompress_spec comp x hpos (hdec _ hmargin)⟩

theorem index_ne_outOfFuel (s : List Byte) (i : Nat) : index s i ≠ .outOfFuel := by
  unfold index
  split <;> simp

namespace lz4

/-! ### One turn of the decoder -/

theorem decodeLoop_succ (src : List Byte) (cap fuel si : Nat) (out : List Byte) :
    decodeLoop src cap (fuel + 1) si out =
      match decodeStep src cap si out with
      | .ok (none, y) => .ok y
      | .ok (some si2, out2) => decodeLoop src cap fuel si2 out2
      | .panic => .panic
      | .outOfFuel => .outOfFuel := by
  rw [decodeLoop, decodeStep]
  by_cases h : si < src.length
  · simp only [h, if_true, Exec.bind_def]
    cases index src si with
    | panic => rfl
    | outOfFuel => rfl
    | ok b =>
      simp only [Exec.ok_bind]
      cases copyLiterals src cap b.toNat (si + 1) out with
      | panic => rfl
      | outOfFuel => rfl
      | ok r =>
        obtain ⟨si1, out1⟩ := r
        simp only [Exec.ok_bind]
        by_cases h1 : si1 = src.length ∧ b.toNat &&& 0xF = 0
        · simp only [h1, and_self, if_true, Exec.pure_def]
        · simp only [h1, if_false]
          by_cases h2 : si1 ≥ src.length
          · simp only [h2, if_true]
          · simp only [h2, if_false]
            cases Uint16 (src.drop si1) with
            | panic => rfl
            | outOfFuel => rfl
            | ok offset =>
              simp only [Exec.ok_bind]
              by_cases h3 : offset = 0
              · simp only [h3, if_true]
              · simp only [h3, if_false]
                cases (if (b.toNat &&& 0xF) + minMatch = minMatch + 0xF then
                    readLenLoop (src.drop (si1 + 2)) (si1 + 2) ((b.toNat &&& 0xF) + minMatch)
                  else (pure (si1 + 2, (b.toNat &&& 0xF) + minMatch) : Exec (Nat × Nat))) with
                | panic => rfl
                | outOfFuel => rfl
                | ok r2 =>
                  obtain ⟨si2, mLen2⟩ := r2
                  simp only [Exec.ok_bind]
                  by_cases h4 : out1.length < offset
                  · simp only [h4, if_true]
                  · simp only [h4, if_false]
                    by_cases h5 : out1.length + mLen2 > cap
                    · simp only [h5, if_true]
                    · simp only [h5, if_false]
                      cases copyMatch offset mLen2 out1 with
                      | panic => rfl
                      | outOfFuel => rfl
                      | ok out2 => rfl
  · simp only [h, if_false, Exec.pure_def]

theorem readLenLoop_props : ∀ (l : List Byte) (si len : Nat),
    readLenLoop l si len = .panic ∨
    ∃ si2 len2, readLenLoop l si len = .ok (si2, len2) ∧ si < si2 ∧ si2 ≤ si + l.length ∧
      len ≤ len2 ∧ len2 ≤ len + 255 * (si2 - si)
  | [], si, len => Or.inl rfl
  | x :: rest, si, len => by
    rw [readLenLoop_cons]
    have hx : x.toNat < 256 := x.toNat_lt
    by_cases h : x.toNat ≠ 0xFF
    · rw [if_pos h]
      right
      refine ⟨si + 1, len + x.toNat, rfl, by omega, ?_, by omega, by omega⟩
      rw [List.length_cons]; omega
    · rw [if_neg h]
      rcases readLenLoop_props rest (si + 1) (len + x.toNat) with hp | ⟨si2, len2, he, h1, h2, h3, h4⟩
      · left; exact hp
      · right
        refine ⟨si2, len2, he, by omega, ?_, by omega, by omega⟩
        rw [List.length_cons]; omega

theorem copyMatch_props (offset : Nat) : ∀ (m : Nat) (out : List Byte),
    copyMatch offset m out = .panic ∨
    ∃ ext, copyMatch offset m out = .ok (out ++ ext) ∧ ext.length = m
  | 0, out => Or.inr ⟨[], by simp [copyMatch], rfl⟩
  | m + 1, out => by
    rw [copyMatch]
    cases hi : index out (out.length - offset) with
    | ok b =>
      simp only [Exec.bind_def, Exec.ok_bind]
      rcases copyMatch_props offset m (out ++ [b]) with hp | ⟨ext, he, hl⟩
      · left; exact hp
      · right
        exact ⟨b :: ext, by rw [he]; simp, by simp [hl]⟩
    | panic => left; rfl
    | outOfFuel => exact absurd hi (index_ne_outOfFuel _ _)

theorem copyLiterals_props (src : List Byte) (cap b si : Nat) (out : List Byte) :
    copyLiterals src cap b si out = .panic ∨
    ∃ si2 ext, copyLiterals src cap b si out = .ok (si2, out ++ ext) ∧ si ≤ si2 ∧
      (si ≤ src.length → si2 ≤ src.length) ∧ ext.length ≤ si2 - si ∧
      (ext = [] ∨ out.length + ext.length ≤ cap) ∧
      ∀ cap2, out.length + ext.length ≤ cap2 →
        copyLiterals src cap2 b si out = .ok (si2, out ++ ext) := by
  unfold copyLiterals
  by_cases h0 : b >>> 4 > 0
  · simp only [h0, if_true]
    have key : ∀ (si1 lLen : Nat), si ≤ si1 →
        ((if si1 + lLen ≤ src.length ∧ out.length + lLen ≤ cap then
            (pure (si1 + lLen, out ++ (src.drop si1).take lLen) : Exec (Nat × List Byte))
          else Exec.panic) = .panic) ∨
        ∃ si2 ext,
          (if si1 + lLen ≤ src.length ∧ out.length + lLen ≤ cap then
            (pure (si1 + lLen, out ++ (src.drop si1).take lLen) : Exec (Nat × List Byte))
          else Exec.panic) = .ok (si2, out ++ ext) ∧ si ≤ si2 ∧
          (si ≤ src.length → si2 ≤ src.length) ∧ ext.length ≤ si2 - si ∧
          (ext = [] ∨ out.length + ext.length ≤ cap) ∧
          ∀ cap2, out.length + ext.length ≤ cap2 →
            (if si1 + lLen ≤ src.length ∧ out.length + lLen ≤ cap2 then
              (pure (si1 + lLen, out ++ (src.drop si1).take lLen) : Exec (Nat × List Byte))
            else Exec.panic) = .ok (si2, out ++ ext) := by
      intro si1 lLen hs
      by_cases hc : si1 + lLen ≤ src.length ∧ out.length + lLen ≤ cap
      · right
        have hl : ((src.drop si1).take lLen).length = lLen := by
          rw [List.length_take, List.length_drop]; omega
        refine ⟨si1 + lLen, (src.drop si1).take lLen, by simp only [hc, and_self, if_true,
          Exec.pure_def], by omega, fun _ => hc.1, by rw [hl]; omega,
          Or.inr (by rw [hl]; exact hc.2), fun cap2 h2 => ?_⟩
        rw [hl] at h2
        simp only [hc.1, h2, and_self, if_true, Exec.pure_def]
      · left
        simp only [hc, if_false]
    by_cases h15 : b >>> 4 = 0xF
    · simp only [h15, if_true, Exec.bind_def]
      rcases readLenLoop_props (src.drop si) si 0xF with hp | ⟨si1, len1, he, h1, h2, h3, h4⟩
      · left
        simp only [hp, Exec.panic_bind]
      · simp only [he, Exec.ok_bind]
        exact key si1 len1 (by omega)
    · simp only [h15, if_false, Exec.bind_def, Exec.pure_def, Exec.ok_bind]
      exact key si (b >>> 4) (Nat.le_refl _)
  · simp only [h0, if_false, Exec.pure_def]
    right
    exact ⟨si, [], by simp, Nat.le_refl _, fun h => h, by simp, Or.inl rfl,
      fun cap2 _ => by simp⟩

theorem Uint16_ok_length (l : List Byte) (v : Nat) (h : Uint16 l = .ok v) : 2 ≤ l.length := by
  match l, h with
  | b0 :: b1 :: rest, _ => simp

theorem Uint16_ne_outOfFuel (l : List Byte) : Uint16 l ≠ .outOfFuel := by
  unfold Uint16
  split <;> simp

end lz4

namespace lz4

theorem matchTail_props (offset m2 si2 cap : Nat) (out1 : List Byte) :
    ((if out1.length < offset then Exec.panic
      else if out1.length + m2 > cap then Exec.panic
      else do
        let out ← copyMatch offset m2 out1
        pure (some si2, out)) : Exec (Option Nat × List Byte)) = .panic ∨
    ∃ ext2, ext2.length = m2 ∧ out1.length + m2 ≤ cap ∧
      ∀ cap2, out1.length + m2 ≤ cap2 →
        ((if out1.length < offset then Exec.panic
          else if out1.length + m2 > cap2 then Exec.panic
          else do
            let out ← copyMatch offset m2 out1
            pure (some si2, out)) : Exec (Option Nat × List Byte)) =
          .ok (some si2, out1 ++ ext2) := by
  by_cases h4 : out1.length < offset
  · left; simp only [h4, if_true]
  · by_cases h5 : out1.length + m2 > cap
    · left; simp only [h4, h5, if_true, if_false]
    · rcases copyMatch_props offset m2 out1 with hp | ⟨ext2, he, hl⟩
      · left
        simp only [h4, h5, if_false, hp, Exec.bind_def, Exec.panic_bind]
      · right
        refine ⟨ext2, hl, by omega, fun cap2 hc2 => ?_⟩
        have h6 : ¬ out1.length + m2 > cap2 := by omega
        simp only [h4, h6, if_false, he, Exec.bind_def, Exec.ok_bind, Exec.pure_def]

theorem decodeStep_props (src : List Byte) (cap si : Nat) (out : List Byte)
    (hsi : si ≤ src.length) :
    decodeStep src cap si out = .panic ∨
    (∃ ext, decodeStep src cap si out = .ok (none, out ++ ext) ∧
      si + ext.length ≤ src.length ∧ (ext = [] ∨ out.length + ext.length ≤ cap) ∧
      ∀ cap2, out.length + ext.length ≤ cap2 →
        decodeStep src cap2 si out = .ok (none, out ++ ext)) ∨
    (∃ si2 ext, decodeStep src cap si out = .ok (some si2, out ++ ext) ∧ si < si2 ∧
      si2 ≤ src.length ∧ ext.length ≤ 255 * (si2 - si) ∧ out.length + ext.length ≤ cap ∧
      ∀ cap2, out.length + ext.length ≤ cap2 →
        decodeStep src cap2 si out = .ok (some si2, out ++ ext)) := by
  have hmm : minMatch = 4 := rfl
  unfold decodeStep
  by_cases h : si < src.length
  · simp only [h, if_true, Exec.bind_def]
    obtain ⟨b, hb, _⟩ := index_of_lt src si h
    simp only [hb, Exec.ok_bind]
    rcases copyLiterals_props src cap b.toNat (si + 1) out with
      hp | ⟨si1, e1, hcl, hs1, hs2, hs3, hs4, hs5⟩
    · left
      simp only [hp, Exec.panic_bind]
    · simp only [hcl, Exec.ok_bind]
      have hsl : si1 ≤ src.length := hs2 (by omega)
      by_cases h1 : si1 = src.length ∧ b.toNat &&& 0xF = 0
      · right; left
        refine ⟨e1, by simp only [h1, and_self, if_true, Exec.pure_def], by omega, hs4,
          fun cap2 hc2 => ?_⟩
        rw [hs5 cap2 hc2]
        simp only [Exec.ok_bind, h1, and_self, if_true, Exec.pure_def]
      · simp only [h1, if_false]
        by_cases h2 : si1 ≥ src.length
        · left; simp only [h2, if_true]
        · simp only [h2, if_false]
          cases hu : Uint16 (src.drop si1) with
          | panic => left; simp only [Exec.panic_bind]
          | outOfFuel => exact absurd hu (Uint16_ne_outOfFuel _)
          | ok offset =>
            simp only [Exec.ok_bind]
            have hlen2 : si1 + 2 ≤ src.length := by
              have := Uint16_ok_length _ _ hu
              rw [List.length_drop] at this
              omega
            have hnib : b.toNat &&& 0xF ≤ 0xF := Nat.and_le_right
            by_cases h3 : offset = 0
            · left; simp only [h3, if_true]
            · simp only [h3, if_false]
              have fin : ∀ (si2 m2 : Nat), si1 + 2 ≤ si2 → si2 ≤ src.length →
                  e1.length + m2 ≤ 255 * (si2 - si) →
                  ((if (out ++ e1).length < offset then Exec.panic
                    else if (out ++ e1).length + m2 > cap then Exec.panic
                    else do
                      let out ← copyMatch offset m2 (out ++ e1)
                      pure (some si2, out)) : Exec (Option Nat × List Byte)) = .panic ∨
                  ∃ ext, e1.length ≤ ext.length ∧ ext.length ≤ 255 * (si2 - si) ∧
                    out.length + ext.length ≤ cap ∧
                    ∀ cap2, out.length + ext.length ≤ cap2 →
                      ((if (out ++ e1).length < offset then Exec.panic
                        else if (out ++ e1).length + m2 > cap2 then Exec.panic
                        else do
                          let out ← copyMatch offset m2 (out ++ e1)
                          pure (some si2, out)) : Exec (Option Nat × List Byte)) =
                        .ok (some si2, out ++ ext) := by
                intro si2 m2 hge hle hm
                rcases matchTail_props offset m2 si2 cap (out ++ e1) with hp | ⟨e2, hl, hc, hall⟩
                · left; exact hp
                · right
                  rw [List.length_append] at hc
                  refine ⟨e1 ++ e2, by rw [List.length_append]; omega,
                    by rw [List.length_append]; omega,
                    by rw [List.length_append]; omega, fun cap2 hc2 => ?_⟩
                  rw [List.length_append] at hc2
                  rw [hall cap2 (by rw [List.length_append]; omega), List.append_assoc]
              by_cases h15 : (b.toNat &&& 0xF) + minMatch = minMatch + 0xF
              · simp only [h15, if_true]
                rcases readLenLoop_props (src.drop (si1 + 2)) (si1 + 2) (minMatch + 0xF) with
                  hp | ⟨si2, m2, he, hr1, hr2, hr3, hr4⟩
                · left; simp only [hp, Exec.panic_bind]
                · simp only [he, Exec.ok_bind]
                  rw [List.length_drop] at hr2
                  rcases fin si2 m2 (by omega) (by omega) (by omega) with
                    hp | ⟨ext, hx0, hx1, hx2, hx3⟩
                  · left; exact hp
                  · right; right
                    refine ⟨si2, ext, hx3 cap hx2, by omega, by omega, hx1, hx2,
                      fun cap2 hc2 => ?_⟩
                    have hc1 : out.length + e1.length ≤ cap2 := by omega
                    rw [hs5 cap2 hc1]
                    simp only [Exec.ok_bind, h1, if_false, h2, hu, h3, h15, if_true, he]
                    exact hx3 cap2 hc2
              · simp only [h15, if_false, Exec.pure_def, Exec.ok_bind]
                rcases fin (si1 + 2) ((b.toNat &&& 0xF) + minMatch) (Nat.le_refl _) hlen2
                  (by omega) with hp | ⟨ext, hx0, hx1, hx2, hx3⟩
                · left; exact hp
                · right; right
                  refine ⟨si1 + 2, ext, hx3 cap hx2, by omega, hlen2, hx1, hx2,
                    fun cap2 hc2 => ?_⟩
                  have hc1 : out.length + e1.length ≤ cap2 := by omega
                  rw [hs5 cap2 hc1]
                  simp only [Exec.ok_bind, h1, if_false, h2, hu, h3, h15, Exec.pure_def]
                  exact hx3 cap2 hc2
  · simp only [h, if_false, Exec.pure_def]
    right; left
    exact ⟨[], by simp, by simp only [List.length_nil]; omega, Or.inl rfl,
      fun cap2 _ => by simp⟩

end lz4

namespace lz4

/-! ### The decoder on every input -/

theorem decodeLoop_props (src : List Byte) (cap : Nat) :
    ∀ (fuel si : Nat) (out : List Byte), si ≤ src.length → src.length < si + fuel →
      decodeLoop src cap fuel si out = .panic ∨
      ∃ ext, decodeLoop src cap fuel si out = .ok (out ++ ext) ∧
        ext.length ≤ 255 * (src.length - si) ∧
        (ext = [] ∨ out.length + ext.length ≤ cap) ∧
        ∀ cap2, out.length + ext.length ≤ cap2 →
          decodeLoop src cap2 fuel si out = .ok (out ++ ext) := by
  intro fuel
  induction fuel with
  | zero => intro si out h1 h2; omega
  | succ fuel ih =>
    intro si out hsi hfuel
    rcases decodeStep_props src cap si out hsi with
      hp | ⟨ext, he, h1, h2, h3⟩ | ⟨si2, e1, he, h1, h2, h3, h4, h5⟩
    · left
      rw [decodeLoop_succ, hp]
    · right
      refine ⟨ext, by rw [decodeLoop_succ, he], by omega, h2, fun cap2 hc => ?_⟩
      rw [decodeLoop_succ, h3 cap2 hc]
    · rcases ih si2 (out ++ e1) h2 (by omega) with hp | ⟨e2, he2, g1, g2, g3⟩
      · left
        rw [decodeLoop_succ, he]
        exact hp
      · right
        refine ⟨e1 ++ e2, ?_, ?_, ?_, fun cap2 hc => ?_⟩
        · rw [decodeLoop_succ, he, ← List.append_assoc]
          exact he2
        · rw [List.length_append]; omega
        · right
          rw [List.length_append]
          rcases g2 with g2 | g2
          · rw [g2]; simpa using h4
          · rw [List.length_append] at g2; omega
        · rw [List.length_append] at hc
          rw [decodeLoop_succ, h5 cap2 (by omega), ← List.append_assoc]
          exact g3 cap2 (by rw [List.length_append]; omega)

theorem compressBody_short (src : List Byte) (cap depth : Nat)
    (hcap : CompressBlockBound src.length ≤ cap) (hlen : src.length ≤ 14) :
    compressBody src cap depth = .ok (some (encLast src)) := by
  have hmf : mfLimit = 14 := rfl
  have hbound : CompressBlockBound src.length = src.length + src.length / 255 + 16 := rfl
  have hnc : decide (cap < CompressBlockBound src.length) = false := by
    simp only [decide_eq_false_iff_not]; omega
  have hsn : (src.length : Int) - (mfLimit : Nat) ≤ 0 := by omega
  simp only [compressBody, hnc, hsn, if_true]
  have hlenL : (encLast src).length = 1 + src.length := by
    rw [length_encLast]
    have : src.length < 0xF := by omega
    simp [this]
  have hl := lastLiterals_spec src cap 0 [] (by
    simp only [List.drop_zero, List.length_nil]; omega)
  simpa using hl

end lz4

theorem Compress_eq (x comp : List Byte)
    (h : lz4.compressBody x (lz4.CompressBlockBound x.length) 9 = .ok (some comp)) :
    lz4.CompressBlock x (makeBytes (lz4.CompressBlockBound x.length)) =
        .ok (comp ++ (makeBytes (lz4.CompressBlockBound x.length)).drop comp.length,
          comp.length, none) ∧
      Compress x = .ok comp := by
  have hres : (makeBytes (lz4.CompressBlockBound x.length)).length =
      lz4.CompressBlockBound x.length := by simp [makeBytes]
  have hcb : lz4.CompressBlock x (makeBytes (lz4.CompressBlockBound x.length)) =
      .ok (comp ++ (makeBytes (lz4.CompressBlockBound x.length)).drop comp.length,
        comp.length, none) := by
    simp only [lz4.CompressBlock, hres, h]
  refine ⟨hcb, ?_⟩
  simp only [Compress, hcb, Exec.bind_def, Exec.ok_bind, sliceTo]
  have hle2 : comp.length ≤ (comp ++ List.drop comp.length
      (makeBytes (lz4.CompressBlockBound x.length))).length := by
    rw [List.length_append]; omega
  simp [hle2]

theorem Compress_short (x : List Byte) (h : x.length ≤ 14) :
    Compress x = .ok (UInt8.ofNat (16 * x.length) :: x) := by
  have hb := lz4.compressBody_short x (lz4.CompressBlockBound x.length) 9 (Nat.le_refl _) h
  have hc := (Compress_eq x _ hb).2
  rw [hc]
  have h15 : x.length < 0xF := by omega
  have hsh : x.length <<< 4 = 16 * x.length := by
    rw [Nat.shiftLeft_eq]; omega
  simp [lz4.encLast, h15, hsh]

theorem Uncompress_nil : Uncompress [] = .ok ([], none) := by decide

theorem Uncompress_panic (comp : List Byte) (hpos : 0 < comp.length)
    (hdec : lz4.decodeLoop comp (255 * comp.length) (comp.length + 1) 0 [] = .panic) :
    Uncompress comp = .ok ([], some lz4.ErrInvalidSourceShortBuffer) := by
  have hres : (makeBytes (255 * comp.length)).length = 255 * comp.length := by
    simp [makeBytes]
  have hne : ¬ comp.length = 0 := by omega
  simp only [Uncompress, lz4.UncompressBlock, hne, if_false, hres, hdec, Exec.bind_def,
    Exec.ok_bind, sliceTo]
  simp

theorem Uncompress_cases (buf : List Byte) :
    Uncompress buf = .ok ([], some lz4.ErrInvalidSourceShortBuffer) ∨
    ∃ y, Uncompress buf = .ok (y, none) ∧ y.length ≤ 255 * buf.length := by
  by_cases h0 : buf.length = 0
  · right
    have : buf = [] := List.length_eq_zero.mp h0
    subst this
    exact ⟨[], Uncompress_nil, by simp⟩
  · rcases lz4.decodeLoop_props buf (255 * buf.length) (buf.length + 1) 0 [] (by omega)
      (by omega) with hp | ⟨ext, he, h1, _, _⟩
    · left
      exact Uncompress_panic buf (by omega) hp
    · right
      rw [List.nil_append] at he
      exact ⟨ext, Uncompress_spec buf ext (by omega) he, by simpa using h1⟩

/-! ### The raw block of a short input -/

/-- C11: `Compress` emits a raw, unframed LZ4 block. For every input of fewer
than 13 bytes the output is one token byte equal to `16 * len(input)` followed
by the input bytes unchanged, so its length is `len(input) + 1`, and
`Uncompress` of that output gives the input back. -/
theorem short_input_raw_block (x : List Byte) (h : x.length < 13) :
    Compress x = .ok (UInt8.ofNat (16 * x.length) :: x) ∧
      (UInt8.ofNat (16 * x.length) :: x).length = x.length + 1 ∧
      Uncompress (UInt8.ofNat (16 * x.length) :: x) = .ok (x, none) := by
  have hc := Compress_short x (by omega)
  refine ⟨hc, by simp, ?_⟩
  obtain ⟨comp, hcomp, _, hpos, hmargin, hdec⟩ := Compress_spec x
  rw [hc] at hcomp
  cases hcomp
  exact Uncompress_spec _ x hpos (hdec _ hmargin)

/-- Witness of C11 at the input `"Peter Parker"` of the test: `Compress` gives
the 13 bytes `C0 50 65 74 65 72 20 50 61 72 6B 65 72`, and `Uncompress` of
those gives `"Peter Parker"`. -/
theorem short_input_raw_block_witness :
    Compress [0x50, 0x65, 0x74, 0x65, 0x72, 0x20, 0x50, 0x61, 0x72, 0x6b, 0x65, 0x72] =
        .ok [0xC0, 0x50, 0x65, 0x74, 0x65, 0x72, 0x20, 0x50, 0x61, 0x72, 0x6b, 0x65, 0x72] ∧
      Uncompress [0xC0, 0x50, 0x65, 0x74, 0x65, 0x72, 0x20, 0x50, 0x61, 0x72, 0x6b, 0x65, 0x72] =
        .ok ([0x50, 0x65, 0x74, 0x65, 0x72, 0x20, 0x50, 0x61, 0x72, 0x6b, 0x65, 0x72], none) :=
  ⟨(short_input_raw_block
      [0x50, 0x65, 0x74, 0x65, 0x72, 0x20, 0x50, 0x61, 0x72, 0x6b, 0x65, 0x72] (by decide)).1,
    (short_input_raw_block
      [0x50, 0x65, 0x74, 0x65, 0x72, 0x20, 0x50, 0x61, 0x72, 0x6b, 0x65, 0x72] (by decide)).2.2⟩

/-! ### `Compress` always succeeds -/

/-- C12: `Compress` always succeeds. For every input `x`, the block compressor
called on the buffer of `CompressBlockBound(len(x))` bytes returns a nil error
and a count of at least 1 and at most `CompressBlockBound(len(x))`, and the
result of `Compress` is the prefix of that length of the buffer, not the whole
buffer. -/
theorem compress_always_succeeds (x : List Byte) :
    ∃ (dst : List Byte) (count : Nat),
      lz4.CompressBlock x (makeBytes (lz4.CompressBlockBound x.length)) =
        .ok (dst, count, none) ∧
      dst.length = lz4.CompressBlockBound x.length ∧
      0 < count ∧ count ≤ lz4.CompressBlockBound x.length ∧
      Compress x = .ok (dst.take count) ∧
      (dst.take count).length = count := by
  obtain ⟨comp, hbody, h1, h2, _, _⟩ :=
    lz4.compressBody_spec x (lz4.CompressBlockBound x.length) 9 (Nat.le_refl _)
  obtain ⟨hcb, hc⟩ := Compress_eq x comp hbody
  have hres : (makeBytes (lz4.CompressBlockBound x.length)).length =
      lz4.CompressBlockBound x.length := by simp [makeBytes]
  refine ⟨_, _, hcb, ?_, h2, h1, ?_, ?_⟩
  · rw [List.length_append, List.length_drop, hres]; omega
  · rw [hc]; simp
  · simp

/-! ### The result of a failed decode -/

/-- C14: a decode failure never exposes data. On every input `Uncompress`
returns, and whenever the error it returns is non-nil the byte slice returned
with it is empty; the block `C0 50`, cut short, is such an input. -/
theorem decode_failure_returns_empty (buf : List Byte) :
    (∃ (r : List Byte) (err : Option String),
      Uncompress buf = .ok (r, err) ∧ (err ≠ none → r = [] ∧ r.length = 0)) ∧
    Uncompress [0xC0, 0x50] = .ok ([], some "lz4: invalid source or destination buffer too short") := by
  constructor
  · rcases Uncompress_cases buf with h | ⟨y, h, _⟩
    · exact ⟨[], _, h, fun _ => ⟨rfl, rfl⟩⟩
    · exact ⟨y, none, h, fun hne => absurd rfl hne⟩
  · exact Uncompress_panic [0xC0, 0x50] (by decide) (by decide)

/-! ### The safety margin of the decoder -/

/-- C16: the safety margin of `Uncompress` is sufficient for every well-formed
block. For every block `b` that the block decoder decodes to `y` when the
destination has some size `cap`, the length of `y` is at most `255 * len(b)`,
the decoder gives the same `y` in the destination of `255 * len(b)` bytes, and
`Uncompress b` returns `y` with a nil error; in particular `Uncompress` returns
`x` with a nil error on the output of `Compress` for every `x`, whose length
is at most 255 times the length of that output. -/
theorem margin_sufficient (b y : List Byte) (cap : Nat)
    (hwf : lz4.decodeLoop b cap (b.length + 1) 0 [] = .ok y) :
    y.length ≤ 255 * b.length ∧
      lz4.decodeLoop b (255 * b.length) (b.length + 1) 0 [] = .ok y ∧
      Uncompress b = .ok (y, none) ∧
      ∀ x : List Byte, ∃ c : List Byte, Compress x = .ok c ∧ x.length ≤ 255 * c.length ∧
        Uncompress c = .ok (x, none) := by
  have hall : ∀ x : List Byte, ∃ c : List Byte, Compress x = .ok c ∧
      x.length ≤ 255 * c.length ∧ Uncompress c = .ok (x, none) := by
    intro x
    obtain ⟨comp, hc, _, hpos, hmargin, hdec⟩ := Compress_spec x
    exact ⟨comp, hc, hmargin, Uncompress_spec comp x hpos (hdec _ hmargin)⟩
  rcases lz4.decodeLoop_props b cap (b.length + 1) 0 [] (by omega) (by omega) with
    hp | ⟨ext, he, h1, _, h3⟩
  · rw [hp] at hwf
    cases hwf
  · rw [he] at hwf
    simp only [List.nil_append, Exec.ok.injEq] at hwf
    subst hwf
    have hlen : ext.length ≤ 255 * b.length := by simpa using h1
    have hdec := h3 (255 * b.length) (by simpa using hlen)
    rw [List.nil_append] at hdec
    refine ⟨hlen, hdec, ?_, hall⟩
    by_cases h0 : b.length = 0
    · have hb : b = [] := List.length_eq_zero.mp h0
      subst hb
      have : ext = [] := by
        apply List.length_eq_zero.mp
        simpa using hlen
      rw [this]
      exact Uncompress_nil
    · exact Uncompress_spec b ext (by omega) hdec

/-- Witness of C16 at the block `C0` followed by `"Peter Parker"`, which the
decoder decodes in a destination of 12 bytes. -/
theorem margin_sufficient_witness :
    Uncompress [0xC0, 0x50, 0x65, 0x74, 0x65, 0x72, 0x20, 0x50, 0x61, 0x72, 0x6b, 0x65, 0x72] =
      .ok ([0x50, 0x65, 0x74, 0x65, 0x72, 0x20, 0x50, 0x61, 0x72, 0x6b, 0x65, 0x72], none) :=
  (margin_sufficient
    [0xC0, 0x50, 0x65, 0x74, 0x65, 0x72, 0x20, 0x50, 0x61, 0x72, 0x6b, 0x65, 0x72]
    [0x50, 0x65, 0x74, 0x65, 0x72, 0x20, 0x50, 0x61, 0x72, 0x6b, 0x65, 0x72] 12
    (by decide)).2.2.1

namespace lz4

/-! ### The sequences written by the compressor -/

theorem compressLoop_seqs (src : List Byte) (cap sn depth : Nat)
    (hsn : sn + mfLimit = src.length) (hcap : CompressBlockBound src.length ≤ cap) :
    ∀ (fuel si anchor : Nat) (out : List Byte) (c : CompressorHC),
      (si < sn → sn < si + fuel) → 0 < fuel → anchor ≤ si → anchor ≤ sn + 7 →
      TablesBelow c si → out.length ≤ anchor + anchor / 255 → anchor ≤ 255 * out.length →
      ∃ (anchor2 : Nat) (mid : List Byte),
        compressLoop src cap sn depth fuel si anchor out c = .ok (anchor2, out ++ mid) ∧
        Seqs src mid anchor anchor2 := by
  have hmf : mfLimit = 14 := rfl
  have hmm : minMatch = 4 := rfl
  have hws : winSize = 65536 := rfl
  intro fuel
  induction fuel with
  | zero => intro si anchor out c _ h; omega
  | succ fuel ih =>
    intro si anchor out c hf _ ha ha7 ht ho1 ho2
    rw [compressLoop]
    by_cases hsi : si < sn
    · simp only [hsi, if_true]
      obtain ⟨w, hw⟩ := Uint32_of_length (src.drop si) (by rw [List.length_drop]; omega)
      obtain ⟨⟨mLen, offset⟩, hch, hmok⟩ := chainLoop_spec src c.chainTable si sn hsi
        (by omega) (fun i => (ht i).2) depth (c.hashTable (blockHashHC w)) 0 0
        ((ht _).1) (Or.inl rfl)
      simp only [hw, hch, Exec.bind_def, Exec.ok_bind]
      have ht1 : TablesBelow
          { chainTable := setAt c.chainTable (si &&& winMask) (c.hashTable (blockHashHC w)),
            hashTable := setAt c.hashTable (blockHashHC w) si } (si + 1) :=
        TablesBelow.insert (ht.mono (by omega)) (by omega) _ _
      by_cases hm0 : mLen = 0
      · simp only [hm0, if_true]
        generalize (si - anchor) >>> adaptSkipLog = skip
        exact ih _ anchor out _ (fun _ => by have := hf hsi; omega) (by have := hf hsi; omega)
          (by omega) ha7 (ht1.mono (by omega)) ho1 ho2
      · simp only [hm0, if_false]
        rcases hmok with h0 | ⟨hm4, hoff, hle, hw2, hml, hmeq⟩
        · exact absurd h0 hm0
        simp only at hm4 hoff hle hw2 hml hmeq
        obtain ⟨ws, hwsdef⟩ : ∃ ws, ws =
            (if si + mLen - winSize > si + 1 then si + mLen - winSize else si + 1) := ⟨_, rfl⟩
        rw [← hwsdef]
        have hws1 : si + 1 ≤ ws := by rw [hwsdef]; split <;> omega
        have hws2 : ws ≤ si + mLen := by rw [hwsdef]; split <;> omega
        have hwn : ws + (si + mLen - ws) = si + mLen := by omega
        obtain ⟨c2, hins, ht2⟩ := insertLoop_spec src (si + mLen - ws) ws w _
          (by rw [hwn]; omega) (by rw [hwn]; exact ht1.mono (by omega))
        rw [hwn] at ht2
        have hlitlen : ((src.drop anchor).take (si - anchor)).length = si - anchor := by
          rw [List.length_take, List.length_drop]; omega
        have hmsub : mLen - minMatch + minMatch = mLen := by omega
        have hA : anchor + (si - anchor) + (mLen - minMatch + minMatch) = si + mLen := by omega
        obtain ⟨hb1, hb2⟩ := encSeq_bounds ((src.drop anchor).take (si - anchor)) offset
          (mLen - minMatch) anchor out.length ho1 ho2
        rw [hlitlen, hA] at hb1 hb2
        have hput := putSequence_spec src cap anchor (si - anchor) offset (mLen - minMatch) out
          (by omega) (by
            have : CompressBlockBound src.length = src.length + src.length / 255 + 16 := rfl
            omega)
        simp only [hins, hput, Exec.ok_bind]
        obtain ⟨anchor2, mid, hrec, hseqs⟩ := ih (si + mLen) (si + mLen)
          (out ++ encSeq ((src.drop anchor).take (si - anchor)) offset (mLen - minMatch)) c2
          (fun _ => by have := hf hsi; omega) (by have := hf hsi; omega) (Nat.le_refl _)
          (by omega) ht2 (by rw [List.length_append]; exact hb1)
          (by rw [List.length_append]; exact hb2)
        refine ⟨anchor2,
          encSeq ((src.drop anchor).take (si - anchor)) offset (mLen - minMatch) ++ mid,
          by rw [hrec, List.append_assoc], ?_⟩
        exact Seqs.cons anchor si offset (mLen - minMatch) anchor2 mid ha (by omega) hoff hle
          hw2 (by rw [hmsub]; exact hmeq) (by rw [hmsub]; exact hseqs)
    · simp only [hsi, if_false, Exec.pure_def]
      exact ⟨anchor, [], by simp, Seqs.nil anchor⟩

theorem compressBody_shape (src : List Byte) (cap depth : Nat)
    (hcap : CompressBlockBound src.length ≤ cap) :
    ∃ (mid : List Byte) (a2 : Nat),
      compressBody src cap depth = .ok (some (mid ++ encLast (src.drop a2))) ∧
      Seqs src mid 0 a2 ∧ (src ≠ [] → a2 < src.length) := by
  have hmf : mfLimit = 14 := rfl
  have hbound : CompressBlockBound src.length = src.length + src.length / 255 + 16 := rfl
  by_cases hshort : src.length ≤ 14
  · refine ⟨[], 0, ?_, Seqs.nil 0, fun hne => List.length_pos.mpr hne⟩
    rw [compressBody_short src cap depth hcap hshort]
    simp
  · have hnc : decide (cap < CompressBlockBound src.length) = false := by
      simp only [decide_eq_false_iff_not]; omega
    have hsn : ¬ ((src.length : Int) - (mfLimit : Nat) ≤ 0) := by omega
    simp only [compressBody, hnc, hsn, if_false]
    have hsnat : ((src.length : Int) - (mfLimit : Nat)).toNat + mfLimit = src.length := by
      omega
    generalize ((src.length : Int) - (mfLimit : Nat)).toNat = sn at hsnat
    generalize (if depth = 0 then winSize else depth) = depth2
    obtain ⟨anchor2, mid, hloop, ha7, hb1, hb2, _⟩ :=
      compressLoop_spec src cap sn depth2 hsnat hcap (src.length + 1) 0 0 []
        { hashTable := fun _ => 0, chainTable := fun _ => 0 }
        (fun _ => by omega) (by omega) (Nat.le_refl _) (by omega)
        (fun i => ⟨Or.inl rfl, Or.inl rfl⟩) (by simp) (by simp)
    obtain ⟨anchor3, mid3, hloop3, hseqs⟩ :=
      compressLoop_seqs src cap sn depth2 hsnat hcap (src.length + 1) 0 0 []
        { hashTable := fun _ => 0, chainTable := fun _ => 0 }
        (fun _ => by omega) (by omega) (Nat.le_refl _) (by omega)
        (fun i => ⟨Or.inl rfl, Or.inl rfl⟩) (by simp) (by simp)
    rw [hloop] at hloop3
    simp only [List.nil_append, Exec.ok.injEq, Prod.mk.injEq] at hloop3
    obtain ⟨ha, hmid⟩ := hloop3
    subst ha
    subst hmid
    simp only [List.nil_append] at hloop hb1 hb2
    have hR : (src.drop anchor2).length = src.length - anchor2 := List.length_drop _ _
    have hlenL := length_encLast (src.drop anchor2)
    rw [hR] at hlenL
    have hl := lastLiterals_spec src cap anchor2 mid (by
      rw [hlenL]; split <;> omega)
    simp only [hloop, Exec.bind_def, Exec.ok_bind, Bool.false_eq_true, false_and, if_false, hl]
    exact ⟨mid, anchor2, rfl, hseqs, fun _ => by omega⟩

theorem Compress_shape (x : List Byte) :
    ∃ (mid : List Byte) (a2 : Nat),
      Compress x = .ok (mid ++ encLast (x.drop a2)) ∧
      Seqs x mid 0 a2 ∧ (x ≠ [] → a2 < x.length) := by
  obtain ⟨mid, a2, hbody, hs, ha⟩ :=
    compressBody_shape x (CompressBlockBound x.length) 9 (Nat.le_refl _)
  exact ⟨mid, a2, (Compress_eq x _ hbody).2, hs, ha⟩

end lz4

namespace lz4

/-! ### The decoder on a block that is cut short -/

theorem readLenLoop_ff : ∀ (k si acc : Nat),
    readLenLoop (List.replicate k 0xFF) si acc = .panic
  | 0, _, _ => rfl
  | k + 1, si, acc => by
    have h1 : (255 : UInt8).toNat = 255 := by decide
    rw [List.replicate_succ, readLenLoop_cons]
    simp only [h1, ne_eq, not_true_eq_false, if_false]
    exact readLenLoop_ff k _ _

theorem take_encLen (l k : Nat) (hk : k < (encLen l).length) :
    (encLen l).take k = List.replicate k 0xFF := by
  rw [length_encLen] at hk
  unfold encLen
  rw [List.take_append_of_le_length (by rw [List.length_replicate]; omega),
    List.take_replicate]
  congr 1
  omega

theorem take_append_ge {A B : List Byte} {n : Nat} (h : A.length ≤ n) :
    (A ++ B).take n = A ++ B.take (n - A.length) := by
  rw [List.take_append_eq_append_take, List.take_of_length_le h]

theorem encHead_cons (lLen mLen : Nat) : ∃ t tl, encHead lLen mLen = t :: tl := by
  unfold encHead
  split
  · exact ⟨_, [], rfl⟩
  · exact ⟨_, _, rfl⟩

theorem copyLiterals_cut (comp : List Byte) (cap p mLen k : Nat) (out lits : List Byte)
    (t : Byte) (tl : List Byte) (hhead : encHead lits.length mLen = t :: tl)
    (hd : comp.drop p = t :: (tl ++ lits).take k) (hk : k < tl.length + lits.length) :
    copyLiterals comp cap t.toNat (p + 1) out = .panic := by
  obtain ⟨m, hmdef⟩ : ∃ m, m = (if mLen < 0xF then mLen else 0xF) := ⟨_, rfl⟩
  have hm : m < 16 := by rw [hmdef]; split <;> omega
  have hd1 : comp.drop (p + 1) = (tl ++ lits).take k := by
    have := drop_add_of_drop_eq (A := [t]) (B := (tl ++ lits).take k) (by simpa using hd)
    simpa using this
  have hlen : comp.length = p + (1 + k) := by
    have := length_of_drop_eq hd (by simp)
    rw [this, List.length_cons, List.length_take, List.length_append]
    omega
  by_cases hL : lits.length < 0xF
  · obtain ⟨hb1, hb2, hb3⟩ := token_bits m hm lits.length (by omega)
    have henc : encHead lits.length mLen = [UInt8.ofNat (m ||| lits.length <<< 4)] := by
      simp [encHead, hL, hmdef]
    rw [henc] at hhead
    simp only [List.cons.injEq] at hhead
    obtain ⟨ht, htl⟩ := hhead
    subst ht
    subst htl
    simp only [List.length_nil, Nat.zero_add] at hk
    rw [toNat_ofNat_of_lt _ hb1]
    simp only [copyLiterals, hb2]
    have h0 : lits.length > 0 := by omega
    have hne : lits.length ≠ 0xF := by omega
    have hc2 : ¬ (p + 1 + lits.length ≤ comp.length ∧ out.length + lits.length ≤ cap) := by
      omega
    simp only [h0, if_true, hne, if_false, Exec.pure_def, Exec.bind_def, Exec.ok_bind, hc2]
  · obtain ⟨hb1, hb2, hb3⟩ := token_bits m hm 15 (by omega)
    have h240 : (15 <<< 4 : Nat) = 0xF0 := by decide
    rw [h240] at hb1 hb2 hb3
    have henc : encHead lits.length mLen =
        UInt8.ofNat (m ||| 0xF0) :: encLen (lits.length - 0xF) := by
      simp [encHead, hL, hmdef]
    rw [henc] at hhead
    simp only [List.cons.injEq] at hhead
    obtain ⟨ht, htl⟩ := hhead
    subst ht
    subst htl
    rw [length_encLen] at hk
    rw [toNat_ofNat_of_lt _ hb1]
    simp only [copyLiterals, hb2, gt_iff_lt, Nat.lt_add_one, Nat.zero_lt_succ, if_true, hd1,
      Exec.bind_def]
    by_cases hkq : k < (lits.length - 0xF) / 255 + 1
    · rw [List.take_append_of_le_length (by rw [length_encLen]; omega),
        take_encLen _ _ (by rw [length_encLen]; exact hkq), readLenLoop_ff]
      rfl
    · rw [take_append_ge (by rw [length_encLen]; omega), readLenLoop_encLen]
      have h15 : 0xF + (lits.length - 0xF) = lits.length := by omega
      have hc2 : ¬ (p + 1 + ((lits.length - 0xF) / 255 + 1) + lits.length ≤ comp.length ∧
          out.length + lits.length ≤ cap) := by
        omega
      simp only [Exec.ok_bind, h15, hc2, if_false]

theorem decode_end (comp : List Byte) (cap p : Nat) (o : List Byte) (hd : comp.drop p = [])
    (fuel : Nat) : decodeLoop comp cap (fuel + 1) p o = .ok o := by
  have hp : ¬ p < comp.length := by
    have := List.drop_eq_nil_iff.mp hd
    omega
  rw [decodeLoop]
  simp only [hp, if_false, Exec.pure_def]

theorem decode_cut_head (comp : List Byte) (cap p mLen k : Nat) (o lits : List Byte)
    (t : Byte) (tl : List Byte) (hhead : encHead lits.length mLen = t :: tl)
    (hd : comp.drop p = t :: (tl ++ lits).take k) (hk : k < tl.length + lits.length)
    (fuel : Nat) : decodeLoop comp cap (fuel + 1) p o = .panic := by
  have hidx : index comp p = .ok t := index_of_drop_eq hd
  have hp : p < comp.length := by
    have := length_of_drop_eq hd (by simp)
    rw [List.length_cons] at this
    omega
  rw [decodeLoop]
  simp only [hp, if_true, hidx, Exec.bind_def, Exec.ok_bind,
    copyLiterals_cut comp cap p mLen k o lits t tl hhead hd hk, Exec.panic_bind]

theorem decode_cut_last (comp : List Byte) (cap p n : Nat) (o lits : List Byte)
    (hd : comp.drop p = (encLast lits).take n) (hn : n < (encLast lits).length)
    (fuel : Nat) :
    decodeLoop comp cap (fuel + 1) p o = .panic ∨
      (n = 0 ∧ decodeLoop comp cap (fuel + 1) p o = .ok o) := by
  rw [encLast_eq] at hd hn
  obtain ⟨t, tl, hhead⟩ := encHead_cons lits.length 0
  rw [hhead] at hd hn
  cases n with
  | zero =>
    right
    exact ⟨rfl, decode_end comp cap p o (by simpa using hd) fuel⟩
  | succ k =>
    left
    rw [List.cons_append, List.take_succ_cons] at hd
    rw [List.cons_append, List.length_cons, List.length_append] at hn
    exact decode_cut_head comp cap p 0 k o lits t tl hhead hd (by omega) fuel

end lz4

namespace lz4

theorem decode_cut_seq (comp : List Byte) (cap p n : Nat) (o lits : List Byte)
    (offset mLen : Nat) (hd : comp.drop p = (encSeq lits offset mLen).take n)
    (hn : n < (encSeq lits offset mLen).length) (hoff : 0 < offset) (hoff2 : offset < 65536)
    (hcap : o.length + n ≤ cap) (fuel : Nat) :
    decodeLoop comp cap (fuel + 1) p o = .panic ∨
      decodeLoop comp cap (fuel + 1) p o = .ok o ∨
      decodeLoop comp cap (fuel + 1) p o = .ok (o ++ lits) := by
  have hmm : minMatch = 4 := rfl
  obtain ⟨extM, hextM⟩ : ∃ e, e = (if mLen ≥ 0xF then encLen (mLen - 0xF) else []) := ⟨_, rfl⟩
  obtain ⟨t, tl, hhead⟩ := encHead_cons lits.length mLen
  have hseq : encSeq lits offset mLen =
      t :: ((tl ++ lits) ++ (UInt8.ofNat offset :: UInt8.ofNat (offset >>> 8) :: extM)) := by
    rw [hextM]
    simp [encSeq, hhead]
  rw [hseq] at hd hn
  cases n with
  | zero =>
    right; left
    exact decode_end comp cap p o (by simpa using hd) fuel
  | succ k =>
    rw [List.take_succ_cons] at hd
    rw [List.length_cons, List.length_append, List.length_append, List.length_cons,
      List.length_cons] at hn
    by_cases hk : k < tl.length + lits.length
    · left
      rw [List.take_append_of_le_length (by rw [List.length_append]; omega)] at hd
      exact decode_cut_head comp cap p mLen k o lits t tl hhead hd hk fuel
    · rw [take_append_ge (by rw [List.length_append]; omega), List.length_append] at hd
      obtain ⟨r, hr⟩ : ∃ r, r = k - (tl.length + lits.length) := ⟨_, rfl⟩
      rw [← hr] at hd
      have hr2 : r < extM.length + 2 := by omega
      have hd0 : comp.drop p = encHead lits.length mLen ++ lits ++
          (UInt8.ofNat offset :: UInt8.ofNat (offset >>> 8) :: extM).take r := by
        rw [hd, hhead]
        simp
      have hcapL : o.length + lits.length ≤ cap := by omega
      obtain ⟨t2, tl2, hhead2, hnib, hcl⟩ := copyLiterals_enc comp cap p mLen o lits _ hd0 hcapL
      have htt : t2 = t := by
        rw [hhead] at hhead2
        simp only [List.cons.injEq] at hhead2
        exact hhead2.1.symm
      subst htt
      have hidx : index comp p = .ok t2 := index_of_drop_eq hd
      have hlenH : (encHead lits.length mLen).length = 1 + tl.length := by
        rw [hhead, List.length_cons]; omega
      have hlen : comp.length = p + (1 + tl.length + lits.length +
          ((UInt8.ofNat offset :: UInt8.ofNat (offset >>> 8) :: extM).take r).length) := by
        have := length_of_drop_eq hd0 (by rw [hhead]; simp)
        rw [this, List.length_append, List.length_append, hlenH]
      have hp : p < comp.length := by omega
      have hdl : comp.drop (p + (encHead lits.length mLen).length + lits.length) =
          (UInt8.ofNat offset :: UInt8.ofNat (offset >>> 8) :: extM).take r := by
        have := drop_add_of_drop_eq hd0
        rw [List.length_append, ← Nat.add_assoc] at this
        exact this
      rw [decodeLoop]
      simp only [hp, if_true, hidx, Exec.bind_def, Exec.ok_bind, hcl]
      match r, hr2, hlen, hdl with
      | 0, _, hlen, hdl =>
        simp only [List.take_zero, List.length_nil, Nat.add_zero] at hlen
        have hsi : p + (encHead lits.length mLen).length + lits.length = comp.length := by
          omega
        by_cases hz : t2.toNat &&& 0xF = 0
        · right; right
          simp only [hsi, hz, and_self, if_true, Exec.pure_def]
        · left
          simp only [hsi, hz, and_false, if_false, ge_iff_le, Nat.le_refl, if_true]
      | 1, _, hlen, hdl =>
        left
        simp only [List.take_succ_cons, List.take_zero, List.length_cons, List.length_nil]
          at hlen hdl
        have hc1 : (p + (encHead lits.length mLen).length + lits.length = comp.length) =
            False := eq_false (by omega)
        have hc2 : ¬ (p + (encHead lits.length mLen).length + lits.length ≥ comp.length) := by
          omega
        simp only [hc1, false_and, if_false, hc2, hdl, Uint16, Exec.panic_bind]
      | r + 2, hr2, hlen, hdl =>
        left
        simp only [List.take_succ_cons, List.length_cons] at hlen hdl
        have hm15 : mLen ≥ 0xF := by
          by_contra hc
          rw [hextM] at hr2
          simp only [hc, if_false, List.length_nil] at hr2
          omega
        have hext : extM = encLen (mLen - 0xF) := by rw [hextM]; simp [hm15]
        have hm1 : ¬ mLen < 0xF := by omega
        simp only [hm1, if_false] at hnib
        have htk : extM.take r = List.replicate r 0xFF := by
          rw [hext]
          exact take_encLen _ _ (by rw [← hext]; omega)
        rw [htk] at hdl
        have hd2 : comp.drop (p + (encHead lits.length mLen).length + lits.length + 2) =
            List.replicate r 0xFF := by
          have := drop_add_of_drop_eq (A := [UInt8.ofNat offset, UInt8.ofNat (offset >>> 8)])
            (B := List.replicate r 0xFF) (by simpa using hdl)
          simpa using this
        have hc1 : (p + (encHead lits.length mLen).length + lits.length = comp.length) =
            False := eq_false (by omega)
        have hc2 : ¬ (p + (encHead lits.length mLen).length + lits.length ≥ comp.length) := by
          omega
        have hoffne : offset ≠ 0 := by omega
        simp only [hc1, false_and, if_false, hc2, hdl, Uint16_offset offset hoff2, Exec.ok_bind,
          hoffne, hnib, Nat.add_comm 0xF minMatch, if_true, hd2, readLenLoop_ff,
          Exec.panic_bind]

theorem encSeq_margin (lits : List Byte) (offset mLen : Nat) :
    lits.length + (mLen + minMatch) ≤ 255 * (encSeq lits offset mLen).length := by
  have h := (encSeq_bounds lits offset mLen 0 0 (by omega) (by omega)).2
  simpa using h

theorem Seqs.le {src mid : List Byte} {a a2 : Nat} (h : Seqs src mid a a2) : a ≤ a2 := by
  induction h with
  | nil a => exact Nat.le_refl a
  | cons anchor si offset mLen a2 rest ha hlen hoff hle hw hm hrest ih => omega

theorem decode_truncated (src mid : List Byte) (a a2 : Nat) (hs : Seqs src mid a a2) :
    a2 < src.length →
    ∀ (buf : List Byte) (p n cap fuel : Nat),
      buf.drop p = (mid ++ encLast (src.drop a2)).take n →
      n < (mid ++ encLast (src.drop a2)).length → p ≤ buf.length →
      a ≤ 255 * p → 255 * buf.length ≤ cap → n < fuel →
      decodeLoop buf cap fuel p (src.take a) = .panic ∨
        ∃ j, j < src.length ∧ decodeLoop buf cap fuel p (src.take a) = .ok (src.take j) := by
  have hmm : minMatch = 4 := rfl
  induction hs with
  | nil a =>
    intro ha2 buf p n cap fuel hd hn hpl hap hcap hfuel
    rw [List.nil_append] at hd hn
    obtain ⟨f, rfl⟩ : ∃ f, fuel = f + 1 := ⟨fuel - 1, by omega⟩
    rcases decode_cut_last buf cap p n (src.take a) (src.drop a) hd hn f with h | ⟨_, h⟩
    · left; exact h
    · right; exact ⟨a, ha2, h⟩
  | cons anchor si offset mLen a2 rest ha hlen hoff hle hw hm hrest ih =>
    intro ha2 buf p n cap fuel hd hn hpl hap hcap hfuel
    obtain ⟨f, rfl⟩ : ∃ f, fuel = f + 1 := ⟨fuel - 1, by omega⟩
    have hws : winSize = 65536 := rfl
    have hol : (src.take anchor).length = anchor := by rw [List.length_take]; omega
    have hbl : buf.length - p = n := by
      have h1 : (buf.drop p).length = n := by
        rw [hd, List.length_take]; omega
      rw [List.length_drop] at h1
      exact h1
    rw [List.append_assoc] at hd hn
    by_cases hnS : n < (encSeq ((src.drop anchor).take (si - anchor)) offset mLen).length
    · rw [List.take_append_of_le_length (Nat.le_of_lt hnS)] at hd
      rcases decode_cut_seq buf cap p n (src.take anchor) _ offset mLen hd hnS hoff
        (by omega) (by rw [hol]; omega) f with h | h | h
      · left; exact h
      · right; exact ⟨anchor, by omega, h⟩
      · right
        rw [take_append_literals src anchor si ha] at h
        exact ⟨si, by omega, h⟩
    · rw [take_append_ge (Nat.le_of_not_lt hnS)] at hd
      rw [List.length_append] at hn
      have hlitlen : ((src.drop anchor).take (si - anchor)).length = si - anchor := by
        rw [List.length_take, List.length_drop]; omega
      have hmargin := encSeq_margin ((src.drop anchor).take (si - anchor)) offset mLen
      rw [hlitlen] at hmargin
      have hsi : (src.take si).length = si := by rw [List.length_take]; omega
      have hstep := decode_seq buf cap p (src.take anchor)
        ((src.drop anchor).take (si - anchor)) _ (src.take (si + (mLen + minMatch))) offset mLen
        hd hoff (by omega)
        (by rw [take_append_literals src anchor si ha, hsi]; exact hle)
        (by rw [take_append_literals src anchor si ha, hsi]; omega)
        (by rw [take_append_literals src anchor si ha]
            exact copyMatch_spec src offset (mLen + minMatch) si hoff hle hlen hm) f
      rw [hstep]
      exact ih ha2 buf _ _ cap f (drop_add_of_drop_eq hd) (by omega) (by omega) (by omega)
        hcap (by
        have : 0 < (encSeq ((src.drop anchor).take (si - anchor)) offset mLen).length := by
          rw [length_encSeq]; omega
        omega)

end lz4

/-! ### Truncated blocks -/

theorem Uncompress_truncated (x : List Byte) (hx : x ≠ []) :
    ∃ comp : List Byte, Compress x = .ok comp ∧
      ∀ n, n < comp.length →
        Uncompress (comp.take n) = .ok ([], some lz4.ErrInvalidSourceShortBuffer) ∨
        ∃ j, j < x.length ∧ Uncompress (comp.take n) = .ok (x.take j, none) := by
  obtain ⟨mid, a2, hc, hs, ha⟩ := lz4.Compress_shape x
  refine ⟨_, hc, fun n hn => ?_⟩
  by_cases h0 : n = 0
  · right
    subst h0
    exact ⟨0, List.length_pos.mpr hx, by simpa using Uncompress_nil⟩
  · have hlen : ((mid ++ lz4.encLast (x.drop a2)).take n).length = n := by
      rw [List.length_take]; omega
    have h := lz4.decode_truncated x mid 0 a2 hs (ha hx)
      ((mid ++ lz4.encLast (x.drop a2)).take n) 0 n (255 * n) (n + 1)
      (by simp) hn (by omega) (by omega) (by rw [hlen]) (by omega)
    rw [List.take_zero] at h
    rcases h with h | ⟨j, hj, h⟩
    · left
      apply Uncompress_panic _ (by omega)
      rw [hlen]
      exact h
    · right
      refine ⟨j, hj, Uncompress_spec _ _ (by omega) ?_⟩
      rw [hlen]
      exact h

theorem Compress_short_enc (x : List Byte) (h : x.length ≤ 14) :
    Compress x = .ok (lz4.encLast x) :=
  (Compress_eq x _
    (lz4.compressBody_short x (lz4.CompressBlockBound x.length) 9 (Nat.le_refl _) h)).2

/-- C13 as stated fails: the empty prefix of `Compress("Peter Parker")` is
decoded to the empty sequence with a nil error; and the prefix of 5 bytes of the
16 bytes that `Compress` gives for 20 bytes `07`, which ends where the first
sequence of the block ends, is decoded to 10 bytes `07` with a nil error. -/
theorem truncated_block_accepted :
    Compress [0x50, 0x65, 0x74, 0x65, 0x72, 0x20, 0x50, 0x61, 0x72, 0x6b, 0x65, 0x72] =
        .ok [0xC0, 0x50, 0x65, 0x74, 0x65, 0x72, 0x20, 0x50, 0x61, 0x72, 0x6b, 0x65, 0x72] ∧
      Uncompress
          (([0xC0, 0x50, 0x65, 0x74, 0x65, 0x72, 0x20, 0x50, 0x61, 0x72, 0x6b, 0x65, 0x72] :
            List Byte).take 0) = .ok ([], none) ∧
      Compress (List.replicate 20 7) =
        .ok [0x24, 7, 7, 1, 0, 0xA0, 7, 7, 7, 7, 7, 7, 7, 7, 7, 7] ∧
      Uncompress
          (([0x24, 7, 7, 1, 0, 0xA0, 7, 7, 7, 7, 7, 7, 7, 7, 7, 7] : List Byte).take 5) =
        .ok (List.replicate 10 7, none) :=
  ⟨Compress_short _ (by decide), by decide, by decide,
    Uncompress_spec _ _ (by decide) (by decide)⟩

/-- C13, amended: `Uncompress` never returns the complete data for a truncated
block. For every non-empty byte sequence `x` and every strict prefix `p` of
`Compress(x)`, `Uncompress(p)` returns either the decode error with an empty
slice, or a nil error with a strict prefix of `x`, never `x` itself; the empty
prefix is decoded to the empty sequence with a nil error; and when `x` has fewer
than 13 bytes, every non-empty strict prefix returns the decode error. -/
theorem truncated_block_never_complete (x : List Byte) (hx : x ≠ []) :
    ∃ comp : List Byte, Compress x = .ok comp ∧
      Uncompress (comp.take 0) = .ok ([], none) ∧
      (∀ n, n < comp.length →
        Uncompress (comp.take n) = .ok ([], some lz4.ErrInvalidSourceShortBuffer) ∨
        ∃ j, j < x.length ∧ Uncompress (comp.take n) = .ok (x.take j, none)) ∧
      (x.length < 13 → ∀ n, 0 < n → n < comp.length →
        Uncompress (comp.take n) = .ok ([], some lz4.ErrInvalidSourceShortBuffer)) := by
  obtain ⟨comp, hc, hall⟩ := Uncompress_truncated x hx
  refine ⟨comp, hc, by simpa using Uncompress_nil, hall, fun hshort n hn0 hn => ?_⟩
  have hce := Compress_short_enc x (by omega)
  rw [hc] at hce
  simp only [Exec.ok.injEq] at hce
  subst hce
  have hlen : ((lz4.encLast x).take n).length = n := by
    rw [List.length_take]; omega
  apply Uncompress_panic _ (by omega)
  rw [hlen]
  rcases lz4.decode_cut_last ((lz4.encLast x).take n) (255 * n) 0 n [] x (by simp) hn n with
    h | ⟨h0, _⟩
  · exact h
  · omega

/-- Witness of C13, amended, at the input `"Peter Parker"`. -/
theorem truncated_block_never_complete_witness :
    ∃ comp : List Byte,
      Compress [0x50, 0x65, 0x74, 0x65, 0x72, 0x20, 0x50, 0x61, 0x72, 0x6b, 0x65, 0x72] =
        .ok comp ∧
      Uncompress (comp.take 0) = .ok ([], none) :=
  let ⟨comp, h1, h2, _⟩ :=
    truncated_block_never_complete
      [0x50, 0x65, 0x74, 0x65, 0x72, 0x20, 0x50, 0x61, 0x72, 0x6b, 0x65, 0x72] (by simp)
  ⟨comp, h1, h2⟩

/-! ### The codec table -/

/-- C19: after `init` the codec table holds an entry for the codec id
`LZ4_RAW`, whatever it held before; the entry is registered by one assignment,
which leaves the entries of the other codec ids as they were; its `Compress` and
`Uncompress` are both present, they are the functions of this file, and a call
of either returns on every input. -/
theorem lz4_raw_registered (compressors : CodecTable) :
    (∃ (entry : Compressor) (c : List Byte → Exec (List Byte))
        (u : List Byte → Exec (List Byte × Option String)),
      init compressors CompressionCodec.LZ4_RAW = some entry ∧
      entry.Compress = some c ∧ entry.Uncompress = some u ∧
      (∀ buf, c buf = Compress buf) ∧ (∀ buf, u buf = Uncompress buf) ∧
      (∀ buf, ∃ out, c buf = .ok out) ∧ (∀ buf, ∃ r, u buf = .ok r)) ∧
    ∀ codec, codec ≠ CompressionCodec.LZ4_RAW → init compressors codec = compressors codec := by
  constructor
  · refine ⟨{ Compress := some Compress, Uncompress := some Uncompress }, Compress, Uncompress,
      by simp [init], rfl, rfl, fun _ => rfl, fun _ => rfl, fun buf => ?_, fun buf => ?_⟩
    · obtain ⟨comp, h, _⟩ := Compress_spec buf
      exact ⟨comp, h⟩
    · rcases Uncompress_cases buf with h | ⟨y, h, _⟩
      · exact ⟨_, h⟩
      · exact ⟨_, h⟩
  · intro codec hne
    simp [init, hne]

end ParquetGo
